import Mathlib

/-!
Verification of the modular (MA-tree) channel codec of `encoding.cc`
(`jxl` namespace): `FilterTree`, `EncodeModularChannelMAANS`,
`DecodeModularChannelMAANS`, `GatherTreeData`, `LearnTree`, `ModularDecode`.

Machine integers are embedded as `Int`/`Nat`; pixel values (`pixel_type`,
a 32-bit signed integer) are `Int` with explicit clamping to the int32
range where the code saturates.  Code that the C++ expresses with loops is
embedded as fuel-bounded recursion returning `Option`, so that a run that
would not terminate (malformed tree) is `none` rather than undefined.
-/

namespace JxlModular

/-- Source constant `kWPPropRange = 512` (encoding.cc). -/
def kWPPropRange : Int := 512

/-- Modelled from the spec: the static properties are the channel index and
the group id, so `kNumStaticProperties = 2` (the definition lives in the
`modular/options.h` header, which is not part of the excerpt). -/
def kNumStaticProperties : Int := 2

/-- Modelled from the spec: index of the weighted-predictor property slot in
the property vector (defined in a header outside the excerpt).  The spec
fixes only that it is a non-static causal slot below the reference-channel
slots; we use the upstream layout value 15. -/
def kWPProp : Int := 15

/-- Modelled from the spec: the fixed count of non-reference properties
(static props, neighbor props and the WP property).  Upstream value 16. -/
def kNumNonrefProperties : Nat := 16

/-- Modelled from the spec: number of extra properties contributed per
back-referenced channel.  Upstream value 4. -/
def kExtraPropsPerChannel : Nat := 4

/-- Smallest value of `pixel_type` (`int32_t`). -/
def pixMin : Int := -2147483648

/-- Largest value of `pixel_type` (`int32_t`). -/
def pixMax : Int := 2147483647

/-- Modelled from the spec: `PackSigned`, the signed zig-zag packing used for
residual tokens (defined in the entropy headers, outside the excerpt):
non-negative `v` maps to `2v`, negative `v` to `-2v-1`. -/
def PackSigned (v : Int) : Nat :=
  if 0 ≤ v then (2 * v).toNat else (-2 * v - 1).toNat

/-- Modelled from the spec: `UnpackSigned`, inverse zig-zag unpacking: even
`u` maps to `u/2`, odd `u` to `-(u/2)-1`. -/
def UnpackSigned (u : Nat) : Int :=
  if u % 2 = 0 then (u / 2 : Nat) else -((u / 2 : Nat) : Int) - 1

theorem unpack_pack (v : Int) : UnpackSigned (PackSigned v) = v := by
  unfold PackSigned UnpackSigned
  by_cases h : 0 ≤ v
  · simp only [if_pos h]
    have h2 : (2 * v).toNat = 2 * v.toNat := by omega
    have : (2 * v.toNat) % 2 = 0 := by omega
    simp only [h2, this, if_pos]
    omega
  · simp only [if_neg h]
    have h2 : (-2 * v - 1).toNat = 2 * (-v - 1).toNat + 1 := by omega
    have hodd : (2 * (-v - 1).toNat + 1) % 2 = 1 := by omega
    simp only [h2, hodd]
    norm_num
    omega

/-- Modelled from the spec: `SaturatingAdd<pixel_type>(a, b)` clamps the exact
integer sum to the representable range of `pixel_type` (the helper lives in
`common.h`, outside the excerpt; the spec states that overflow is clamped to
the range boundary, never wrapped). -/
def SaturatingAdd (a b : Int) : Int :=
  max pixMin (min pixMax (a + b))

/-- Reconstruction expression shared by every decode track of
`DecodeModularChannelMAANS`: token `v` is unpacked, multiplied, the offset and
the predictor guess are added, and the sum is saturated to the pixel range. -/
def decodePixel (v : Nat) (multiplier : Nat) (offset : Int) (guess : Int) : Int :=
  SaturatingAdd (UnpackSigned v * multiplier + offset) guess

/-- Conversion of an unsigned value to `int32_t` (two's-complement wrap), as
performed by the decoder's `int32_t multipliers[...]` stores and the
`int32_t multiplier = tree[0].multiplier` narrowing of the single-leaf
decode tracks. -/
def wrap32 (n : Nat) : Int :=
  if n % 4294967296 < 2147483648 then ((n % 4294967296 : Nat) : Int)
  else ((n % 4294967296 : Nat) : Int) - 4294967296

theorem wrap32_lt {n : Nat} (h : n < 2147483648) : wrap32 n = n := by
  unfold wrap32
  rw [Nat.mod_eq_of_lt (by omega)]
  rw [if_pos h]

/-- Predictor kinds.  The excerpt only distinguishes `Zero`, `Weighted` and
arbitrary other non-weighted predictors, so the closed enumeration is embedded
with those three shapes. -/
inductive Predictor where
  | Zero : Predictor
  | Weighted : Predictor
  | Other : Nat → Predictor
  deriving DecidableEq, Repr

instance : Inhabited Predictor := ⟨Predictor.Zero⟩

/-- One node of the (un-flattened) `Tree`: `property = -1` marks a leaf, in
which case `lchild` carries the context id as in the source layout. -/
structure TreeNode where
  property : Int := -1
  splitval : Int := 0
  lchild : Nat := 0
  rchild : Nat := 0
  predictor : Predictor := .Zero
  predictor_offset : Int := 0
  multiplier : Nat := 1
  deriving DecidableEq, Repr

/-- A `Tree` is a flat arena of nodes rooted at index 0. -/
def Tree := List TreeNode

/-- A `FlatDecisionNode` of the compiled `FlatTree`: a leaf when
`property0 = -1` (then `childID` is the context id), otherwise a two-level
decision with pre-resolved child splits; `childID` then indexes the four
contiguous descendant slots. -/
structure FlatNode where
  property0 : Int := -1
  splitval0 : Int := 0
  childID : Nat := 0
  prop1l : Int := 0
  splitval1l : Int := 0
  prop1r : Int := 0
  splitval1r : Int := 0
  predictor : Predictor := .Zero
  predictor_offset : Int := 0
  multiplier : Nat := 1
  deriving DecidableEq, Repr, Inhabited

def FlatTree := List FlatNode

/-- Static property lookup `static_props[p]`, valid for `p ∈ {0, 1}`. -/
def spLookup (sp : Int × Int) (p : Int) : Int :=
  if p = 0 then sp.1 else sp.2

def isWeighted : Predictor → Bool
  | .Weighted => true
  | _ => false

/-- The `mark_property` lambda of `FilterTree`: the weighted-predictor
property sets `has_wp`, any other non-static property sets `has_non_wp`. -/
def markProp (p : Int) (hw hnw : Bool) : Bool × Bool :=
  if p = kWPProp then (true, hnw)
  else if kNumStaticProperties ≤ p then (hw, true)
  else (hw, hnw)

/-- The inner `while` of `FilterTree` that skips decision nodes testing a
static property, following the branch selected by the known static value.
Fuel-bounded; an out-of-bounds child index or a negative property other than
-1 (out-of-bounds `static_props` access in the C++) yields `none`. -/
def skipStatic (t : List TreeNode) (sp : Int × Int) : Nat → Nat → Option Nat
  | 0, _ => none
  | fuel + 1, cur => do
    let n ← t[cur]?
    if n.property < kNumStaticProperties ∧ n.property ≠ -1 then
      if n.property < 0 then none
      else
        skipStatic t sp fuel
          (if spLookup sp n.property > n.splitval then n.lchild else n.rchild)
    else
      pure cur

/-- Resolution of one child slot inside the decision case of `FilterTree`:
skip static nodes, then either record a dummy split `(0, 0)` with the leaf
queued twice, or the child's own split with its two children queued.  Returns
`(property_i, splitval_i, first queued index, second queued index,
num_props contribution)`. -/
def resolveChild (t : List TreeNode) (sp : Int × Int) (c : Nat) :
    Option (Int × Int × Nat × Nat × Nat) := do
  let cc ← skipStatic t sp (t.length + 1) c
  let n ← t[cc]?
  if n.property = -1 then pure (0, 0, cc, cc, 0)
  else pure (n.property, n.splitval, n.lchild, n.rchild, n.property.toNat + 1)

/-- Flat leaf produced for tree node `n` (the context id sits in `lchild`). -/
def leafFlat (n : TreeNode) : FlatNode :=
  { property0 := -1, childID := n.lchild, predictor := n.predictor,
    predictor_offset := n.predictor_offset, multiplier := n.multiplier }

/-- Decision `FlatNode` assembled in the non-leaf case of `FilterTree`. -/
def decisionFlat (n : TreeNode) (childID : Nat) (pl svl pr svr : Int) : FlatNode :=
  { property0 := n.property, splitval0 := n.splitval, childID := childID,
    prop1l := pl, splitval1l := svl, prop1r := pr, splitval1r := svr }

/-- The three `mark_property` calls of the decision case, in source order:
`properties[0]`, `properties[1]`, `property0`. -/
def markProps3 (p0 pl pr : Int) (hw hnw : Bool) : Bool × Bool :=
  let m1 := markProp pl hw hnw
  let m2 := markProp pr m1.1 m1.2
  markProp p0 m2.1 m2.2

/-- The BFS loop of `FilterTree`: processes the queue front, appends one
`FlatNode` per iteration, threads the raw `num_props` maximum and the
`has_wp` / `has_non_wp` flags. -/
def filterLoop (t : List TreeNode) (sp : Int × Int) :
    Nat → List Nat → List FlatNode → Nat → Bool → Bool →
    Option (List FlatNode × Nat × Bool × Bool)
  | _, [], out, np, hw, hnw => some (out, np, hw, hnw)
  | 0, _ :: _, _, _, _, _ => none
  | fuel + 1, c :: rest, out, np, hw, hnw => do
    let cur ← skipStatic t sp (t.length + 1) c
    let n ← t[cur]?
    if n.property = -1 then
      filterLoop t sp fuel rest (out ++ [leafFlat n]) np
        (hw || isWeighted n.predictor) (hnw || !isWeighted n.predictor)
    else
      let (pl, svl, la, lb, npl) ← resolveChild t sp n.lchild
      let (pr, svr, ra, rb, npr) ← resolveChild t sp n.rchild
      let m := markProps3 n.property pl pr hw hnw
      filterLoop t sp fuel (rest ++ [la, lb, ra, rb])
        (out ++ [decisionFlat n (out.length + rest.length + 1) pl svl pr svr])
        (max (max np (n.property.toNat + 1)) (max npl npr)) m.1 m.2

/-- Source helper `DivCeil(a, b) = (a + b - 1) / b` followed by the final
`num_props` rounding of `FilterTree`. -/
def roundProps (np : Nat) : Nat :=
  if np > kNumNonrefProperties then
    (np - kNumNonrefProperties + kExtraPropsPerChannel - 1) /
        kExtraPropsPerChannel * kExtraPropsPerChannel +
      kNumNonrefProperties
  else kNumNonrefProperties

/-- `FilterTree(global_tree, static_props, &num_props, &use_wp, &wp_only)`:
returns the flattened tree, the rounded property-vector size, `use_wp` and
`wp_only`. -/
def FilterTree (t : List TreeNode) (sp : Int × Int) (fuel : Nat) :
    Option (List FlatNode × Nat × Bool × Bool) := do
  let (out, np, hw, hnw) ← filterLoop t sp fuel [0] [] 0 false false
  pure (out, roundProps np, hw, hw && !hnw)

theorem skipStatic_some {t : List TreeNode} {sp : Int × Int} :
    ∀ {f c cur}, skipStatic t sp f c = some cur →
      ∃ n, t[cur]? = some n ∧
        (n.property = -1 ∨ kNumStaticProperties ≤ n.property) := by
  intro f
  induction f with
  | zero => intro c cur h; simp [skipStatic] at h
  | succ f ih =>
    intro c cur h
    simp only [skipStatic] at h
    cases ht : t[c]? with
    | none => rw [ht] at h; simp at h
    | some n =>
      rw [ht] at h
      simp only [Option.bind_eq_bind, Option.some_bind] at h
      by_cases hcond : n.property < kNumStaticProperties ∧ n.property ≠ -1
      · rw [if_pos hcond] at h
        by_cases hneg : n.property < 0
        · rw [if_pos hneg] at h; simp at h
        · rw [if_neg hneg] at h
          exact ih h
      · rw [if_neg hcond] at h
        simp only [pure, Option.some.injEq] at h
        subst h
        refine ⟨n, ht, ?_⟩
        rcases not_and_or.mp hcond with hlt | hne
        · right; omega
        · left; omega

theorem resolveChild_some {t : List TreeNode} {sp : Int × Int} {c : Nat}
    {p sv : Int} {a b npc : Nat}
    (h : resolveChild t sp c = some (p, sv, a, b, npc)) :
    npc = (if kNumStaticProperties ≤ p then p.toNat + 1 else 0) ∧
      (kNumStaticProperties ≤ p ∨
        (p = 0 ∧ a = b ∧
          ∃ cc n, skipStatic t sp (t.length + 1) c = some cc ∧
            t[cc]? = some n ∧ n.property = -1 ∧ a = cc)) := by
  unfold resolveChild at h
  cases hs : skipStatic t sp (t.length + 1) c with
  | none => rw [hs] at h; simp at h
  | some cc =>
    rw [hs] at h
    simp only [Option.bind_eq_bind, Option.some_bind] at h
    cases ht : t[cc]? with
    | none => rw [ht] at h; simp at h
    | some n =>
      rw [ht] at h
      simp only [Option.bind_eq_bind, Option.some_bind] at h
      obtain ⟨m, hm, hprop⟩ := skipStatic_some hs
      rw [ht] at hm
      injection hm with hmn
      subst hmn
      by_cases hleaf : n.property = -1
      · rw [if_pos hleaf] at h
        simp only [pure, Option.some.injEq, Prod.mk.injEq] at h
        obtain ⟨rfl, rfl, rfl, rfl, rfl⟩ := h
        exact ⟨by norm_num [kNumStaticProperties], Or.inr ⟨rfl, rfl, cc, n, rfl, ht, hleaf, rfl⟩⟩
      · rw [if_neg hleaf] at h
        simp only [pure, Option.some.injEq, Prod.mk.injEq] at h
        obtain ⟨rfl, rfl, rfl, rfl, rfl⟩ := h
        have hge : kNumStaticProperties ≤ n.property := by
          rcases hprop with h1 | h1
          · exact absurd h1 hleaf
          · exact h1
        exact ⟨by rw [if_pos hge], Or.inl hge⟩

theorem filterLoop_cons_inv {t : List TreeNode} {sp : Int × Int}
    {f : Nat} {c : Nat} {rest : List Nat} {out : List FlatNode} {np : Nat}
    {hw hnw : Bool} {r : List FlatNode × Nat × Bool × Bool}
    (h : filterLoop t sp (f + 1) (c :: rest) out np hw hnw = some r) :
    ∃ cur n, skipStatic t sp (t.length + 1) c = some cur ∧ t[cur]? = some n ∧
      ((n.property = -1 ∧
          filterLoop t sp f rest (out ++ [leafFlat n]) np
            (hw || isWeighted n.predictor) (hnw || !isWeighted n.predictor)
            = some r) ∨
        (n.property ≠ -1 ∧
          ∃ pl svl la lb npl pr svr ra rb npr,
            resolveChild t sp n.lchild = some (pl, svl, la, lb, npl) ∧
            resolveChild t sp n.rchild = some (pr, svr, ra, rb, npr) ∧
            filterLoop t sp f (rest ++ [la, lb, ra, rb])
              (out ++ [decisionFlat n (out.length + rest.length + 1) pl svl pr svr])
              (max (max np (n.property.toNat + 1)) (max npl npr))
              (markProps3 n.property pl pr hw hnw).1
              (markProps3 n.property pl pr hw hnw).2
              = some r)) := by
  rw [show filterLoop t sp (f + 1) (c :: rest) out np hw hnw = do
        let cur ← skipStatic t sp (t.length + 1) c
        let n ← t[cur]?
        if n.property = -1 then
          filterLoop t sp f rest (out ++ [leafFlat n]) np
            (hw || isWeighted n.predictor) (hnw || !isWeighted n.predictor)
        else do
          let (pl, svl, la, lb, npl) ← resolveChild t sp n.lchild
          let (pr, svr, ra, rb, npr) ← resolveChild t sp n.rchild
          let m := markProps3 n.property pl pr hw hnw
          filterLoop t sp f (rest ++ [la, lb, ra, rb])
            (out ++ [decisionFlat n (out.length + rest.length + 1) pl svl pr svr])
            (max (max np (n.property.toNat + 1)) (max npl npr)) m.1 m.2
      from rfl] at h
  cases hs : skipStatic t sp (t.length + 1) c with
  | none => rw [hs] at h; simp only [Option.bind_eq_bind, Option.none_bind] at h; exact Option.noConfusion h
  | some cur =>
    rw [hs] at h
    simp only [Option.bind_eq_bind, Option.some_bind] at h
    cases ht : t[cur]? with
    | none => rw [ht] at h; simp only [Option.bind_eq_bind, Option.none_bind] at h; exact Option.noConfusion h
    | some n =>
      rw [ht] at h
      simp only [Option.some_bind] at h
      refine ⟨cur, n, rfl, ht, ?_⟩
      by_cases hleaf : n.property = -1
      · rw [if_pos hleaf] at h
        exact Or.inl ⟨hleaf, h⟩
      · rw [if_neg hleaf] at h
        cases hrl : resolveChild t sp n.lchild with
        | none => rw [hrl] at h; simp only [Option.bind_eq_bind, Option.none_bind] at h; exact Option.noConfusion h
        | some xl =>
          rw [hrl] at h
          simp only [Option.some_bind] at h
          obtain ⟨pl, svl, la, lb, npl⟩ := xl
          cases hrr : resolveChild t sp n.rchild with
          | none => rw [hrr] at h; simp only [Option.bind_eq_bind, Option.none_bind] at h; exact Option.noConfusion h
          | some xr =>
            rw [hrr] at h
            simp only [Option.some_bind] at h
            obtain ⟨pr, svr, ra, rb, npr⟩ := xr
            exact Or.inr ⟨hleaf, pl, svl, la, lb, npl, pr, svr, ra, rb, npr,
              rfl, rfl, h⟩

theorem filterLoop_nil {t : List TreeNode} {sp : Int × Int} {f : Nat}
    {out : List FlatNode} {np : Nat} {hw hnw : Bool} :
    filterLoop t sp f [] out np hw hnw = some (out, np, hw, hnw) := by
  cases f <;> rfl

/-- Each queue entry produces at least one output node. -/
theorem filterLoop_length {t : List TreeNode} {sp : Int × Int} :
    ∀ {f : Nat} {q : List Nat} {out : List FlatNode} {np : Nat} {hw hnw : Bool}
      {r : List FlatNode × Nat × Bool × Bool},
      filterLoop t sp f q out np hw hnw = some r →
      out.length + q.length ≤ r.1.length := by
  intro f
  induction f with
  | zero =>
    intro q out np hw hnw r h
    cases q with
    | nil =>
      rw [filterLoop_nil] at h
      injection h with h
      subst h
      simp
    | cons c rest =>
      rw [show filterLoop t sp 0 (c :: rest) out np hw hnw = none from rfl]
        at h
      exact Option.noConfusion h
  | succ f ih =>
    intro q out np hw hnw r h
    cases q with
    | nil =>
      rw [filterLoop_nil] at h
      injection h with h
      subst h
      simp
    | cons c rest =>
      obtain ⟨cur, n, _, _, hcase⟩ := filterLoop_cons_inv h
      cases hcase with
      | inl hl =>
        have := ih hl.2
        simp only [List.length_append, List.length_cons,
          List.length_singleton] at this ⊢
        omega
      | inr hd =>
        obtain ⟨_, pl, svl, la, lb, npl, pr, svr, ra, rb, npr, _, _, hrec⟩ :=
          hd
        have := ih hrec
        simp only [List.length_append, List.length_cons,
          List.length_singleton] at this ⊢
        omega

/-- A single-node `FilterTree` output is one leaf copied from a source node,
and the `use_wp` / `wp_only` flags are exactly whether that leaf's predictor
is Weighted. -/
theorem FilterTree_single {t : List TreeNode} {sp : Int × Int} {fuel : Nat}
    {l0 : FlatNode} {np : Nat} {uw wo : Bool}
    (h : FilterTree t sp fuel = some ([l0], np, uw, wo)) :
    ∃ n, l0 = leafFlat n ∧ uw = isWeighted n.predictor ∧
      wo = isWeighted n.predictor := by
  unfold FilterTree at h
  cases hl : filterLoop t sp fuel [0] [] 0 false false with
  | none =>
    rw [hl] at h
    exact Option.noConfusion h
  | some r =>
    rw [hl] at h
    obtain ⟨out, np0, hw, hnw⟩ := r
    simp only [Option.bind_eq_bind, Option.some_bind, pure,
      Option.some.injEq, Prod.mk.injEq] at h
    obtain ⟨hout, _, huw, hwo⟩ := h
    cases fuel with
    | zero =>
      rw [show filterLoop t sp 0 [0] [] 0 false false = none from rfl] at hl
      exact Option.noConfusion hl
    | succ f =>
      obtain ⟨cur, n, _, _, hcase⟩ := filterLoop_cons_inv hl
      cases hcase with
      | inl hlf =>
        rw [filterLoop_nil] at hlf
        injection hlf.2 with hr
        obtain ⟨ho2, _, hw2, hnw2⟩ := Prod.mk.injEq _ _ _ _ ▸ hr
        have hl0 : l0 = leafFlat n := by
          rw [hout] at ho2
          simpa using ho2.symm
        refine ⟨n, hl0, ?_, ?_⟩
        · rw [← huw]
          simp
        · rw [← hwo]
          cases isWeighted n.predictor <;> rfl
      | inr hd =>
        obtain ⟨_, pl, svl, la, lb, npl, pr, svr, ra, rb, npr, _, _, hrec⟩ :=
          hd
        have hlen := filterLoop_length hrec
        rw [hout] at hlen
        simp at hlen

theorem getElem_after {α : Type} (out : List α) (x : α) (s : List α) :
    (out ++ [x] ++ s)[out.length]? = some x := by
  rw [List.append_assoc, List.getElem?_append_right (le_refl out.length)]
  simp

theorem filterLoop_prefix {t : List TreeNode} {sp : Int × Int} :
    ∀ {f : Nat} {q : List Nat} {out : List FlatNode} {np : Nat} {hw hnw : Bool}
      {r : List FlatNode × Nat × Bool × Bool},
      filterLoop t sp f q out np hw hnw = some r → ∃ s, r.1 = out ++ s := by
  intro f
  induction f with
  | zero =>
    intro q out np hw hnw r h
    cases q with
    | nil =>
      rw [filterLoop_nil] at h
      cases h
      exact ⟨[], by simp⟩
    | cons c rest =>
      simp only [filterLoop] at h
      exact Option.noConfusion h
  | succ f ih =>
    intro q out np hw hnw r h
    cases q with
    | nil =>
      rw [filterLoop_nil] at h
      cases h
      exact ⟨[], by simp⟩
    | cons c rest =>
      obtain ⟨cur, n, hs, ht, hcase⟩ := filterLoop_cons_inv h
      rcases hcase with ⟨hleaf, hrec⟩ |
        ⟨hnl, pl, svl, la, lb, npl, pr, svr, ra, rb, npr, hrl, hrr, hrec⟩
      · obtain ⟨s, hsfx⟩ := ih hrec
        exact ⟨leafFlat n :: s, by rw [hsfx]; simp⟩
      · obtain ⟨s, hsfx⟩ := ih hrec
        exact ⟨decisionFlat n (out.length + rest.length + 1) pl svl pr svr :: s,
          by rw [hsfx]; simp⟩

theorem filterLoop_emitAt {t : List TreeNode} {sp : Int × Int} :
    ∀ {f : Nat} {q : List Nat} {out : List FlatNode} {np : Nat} {hw hnw : Bool}
      {r : List FlatNode × Nat × Bool × Bool},
      filterLoop t sp f q out np hw hnw = some r →
      ∀ j c, q[j]? = some c →
        ∀ cur n, skipStatic t sp (t.length + 1) c = some cur →
          t[cur]? = some n → n.property = -1 →
          r.1[out.length + j]? = some (leafFlat n) := by
  intro f
  induction f with
  | zero =>
    intro q out np hw hnw r h j c hq cur n hs ht hleaf
    cases q with
    | nil => simp at hq
    | cons c0 rest =>
      simp only [filterLoop] at h
      exact Option.noConfusion h
  | succ f ih =>
    intro q out np hw hnw r h j c hq cur n hs ht hleaf
    cases q with
    | nil => simp at hq
    | cons c0 rest =>
      obtain ⟨cur0, n0, hs0, ht0, hcase⟩ := filterLoop_cons_inv h
      cases j with
      | zero =>
        have hc : c0 = c := by simpa using hq
        subst hc
        have hcur : cur0 = cur := by rw [hs0] at hs; injection hs
        subst hcur
        have hn : n0 = n := by rw [ht0] at ht; injection ht
        subst hn
        rcases hcase with ⟨hl2, hrec⟩ |
          ⟨hnl, pl, svl, la, lb, npl, pr, svr, ra, rb, npr, hrl, hrr, hrec⟩
        · obtain ⟨s, hsfx⟩ := filterLoop_prefix hrec
          rw [Nat.add_zero, hsfx, getElem_after]
        · exact absurd hleaf hnl
      | succ j =>
        have hq' : rest[j]? = some c := by simpa using hq
        rcases hcase with ⟨hl2, hrec⟩ |
          ⟨hnl, pl, svl, la, lb, npl, pr, svr, ra, rb, npr, hrl, hrr, hrec⟩
        · have := ih hrec j c hq' cur n hs ht hleaf
          rw [List.length_append, List.length_singleton] at this
          have harith : out.length + 1 + j = out.length + (j + 1) := by omega
          rwa [harith] at this
        · have hq2 : (rest ++ [la, lb, ra, rb])[j]? = some c := by
            have hjlt : j < rest.length := by
              by_contra hge
              rw [List.getElem?_eq_none (by omega)] at hq'
              exact Option.noConfusion hq'
            rw [List.getElem?_append, if_pos hjlt]
            exact hq'
          have := ih hrec j c hq2 cur n hs ht hleaf
          rw [List.length_append, List.length_singleton] at this
          have harith : out.length + 1 + j = out.length + (j + 1) := by omega
          rwa [harith] at this

theorem skipStatic_leaf {t : List TreeNode} {sp : Int × Int} {f cc : Nat}
    {n : TreeNode} (ht : t[cc]? = some n) (hleaf : n.property = -1) :
    skipStatic t sp (f + 1) cc = some cc := by
  simp only [skipStatic, ht, Option.bind_eq_bind, Option.some_bind]
  rw [if_neg]
  · rfl
  · rintro ⟨h1, h2⟩
    exact h2 hleaf

/-- A second-level slot of a flat decision node is harmless when either its
property is non-static, or the two descendant slots it selects between hold
the same leaf (so the branch cannot change the traversal outcome). -/
def GoodSlot (res : List FlatNode) (p : Int) (slot : Nat) : Prop :=
  kNumStaticProperties ≤ p ∨
    ∃ m, res[slot]? = some m ∧ res[slot + 1]? = some m ∧ m.property0 = -1

/-- A flat node never branches on a static property in a way that can change
the traversal outcome: its top-level property is non-static, and each
second-level slot is `GoodSlot`. -/
def GoodNode (res : List FlatNode) (fn : FlatNode) : Prop :=
  fn.property0 ≠ -1 →
    kNumStaticProperties ≤ fn.property0 ∧
    GoodSlot res fn.prop1l fn.childID ∧
    GoodSlot res fn.prop1r (fn.childID + 2)

theorem goodNode_leafFlat {res : List FlatNode} {n : TreeNode} :
    GoodNode res (leafFlat n) := by
  intro h
  exact absurd rfl h

theorem filterLoop_good {t : List TreeNode} {sp : Int × Int} :
    ∀ {f : Nat} {q : List Nat} {out : List FlatNode} {np : Nat} {hw hnw : Bool}
      {r : List FlatNode × Nat × Bool × Bool},
      filterLoop t sp f q out np hw hnw = some r →
      (∀ fn ∈ out, GoodNode r.1 fn) →
      ∀ fn ∈ r.1, GoodNode r.1 fn := by
  intro f
  induction f with
  | zero =>
    intro q out np hw hnw r h hout
    cases q with
    | nil =>
      rw [filterLoop_nil] at h
      cases h
      exact hout
    | cons c rest =>
      simp only [filterLoop] at h
      exact Option.noConfusion h
  | succ f ih =>
    intro q out np hw hnw r h hout
    cases q with
    | nil =>
      rw [filterLoop_nil] at h
      cases h
      exact hout
    | cons c rest =>
      obtain ⟨cur, n, hs, ht, hcase⟩ := filterLoop_cons_inv h
      rcases hcase with ⟨hleaf, hrec⟩ |
        ⟨hnl, pl, svl, la, lb, npl, pr, svr, ra, rb, npr, hrl, hrr, hrec⟩
      · refine ih hrec ?_
        intro fn hfn
        rcases List.mem_append.mp hfn with hin | hin
        · exact hout fn hin
        · rcases List.mem_singleton.mp hin with rfl
          exact goodNode_leafFlat
      · refine ih hrec ?_
        intro fn hfn
        rcases List.mem_append.mp hfn with hin | hin
        · exact hout fn hin
        · rcases List.mem_singleton.mp hin with rfl
          intro hne
          have hp0 : kNumStaticProperties ≤ n.property := by
            obtain ⟨m, ht2, hp⟩ := skipStatic_some hs
            rw [ht] at ht2
            injection ht2 with hteq
            subst hteq
            rcases hp with h1 | h1
            · exact absurd h1 hnl
            · exact h1
          refine ⟨hp0, ?_, ?_⟩
          · rcases (resolveChild_some hrl).2 with hge | hdum
            · exact Or.inl hge
            · obtain ⟨hpl0, hab, cc, n2, hsk, ht2, hl2, hacc⟩ := hdum
              right
              refine ⟨leafFlat n2, ?_, ?_, rfl⟩
              · have hq : (rest ++ [la, lb, ra, rb])[rest.length]? = some la := by
                  rw [List.getElem?_append_right (le_refl rest.length)]
                  simp
                have hsk2 : skipStatic t sp (t.length + 1) la = some la := by
                  rw [hacc]
                  exact skipStatic_leaf ht2 hl2
                have := filterLoop_emitAt hrec rest.length la hq la n2
                  hsk2 (by rw [hacc]; exact ht2) hl2
                rw [List.length_append, List.length_singleton] at this
                have harith : out.length + 1 + rest.length =
                    (decisionFlat n (out.length + rest.length + 1) pl svl pr svr).childID := by
                  simp [decisionFlat]; omega
                rwa [harith] at this
              · have hq : (rest ++ [la, lb, ra, rb])[rest.length + 1]? = some lb := by
                  rw [List.getElem?_append_right (by omega)]
                  have : rest.length + 1 - rest.length = 1 := by omega
                  rw [this]
                  simp
                have hsk2 : skipStatic t sp (t.length + 1) lb = some lb := by
                  rw [← hab, hacc]
                  exact skipStatic_leaf ht2 hl2
                have := filterLoop_emitAt hrec (rest.length + 1) lb hq lb n2
                  hsk2 (by rw [← hab, hacc]; exact ht2) hl2
                rw [List.length_append, List.length_singleton] at this
                have harith : out.length + 1 + (rest.length + 1) =
                    (decisionFlat n (out.length + rest.length + 1) pl svl pr svr).childID + 1 := by
                  simp [decisionFlat]; omega
                rwa [harith] at this
          · rcases (resolveChild_some hrr).2 with hge | hdum
            · exact Or.inl hge
            · obtain ⟨hpl0, hab, cc, n2, hsk, ht2, hl2, hacc⟩ := hdum
              right
              refine ⟨leafFlat n2, ?_, ?_, rfl⟩
              · have hq : (rest ++ [la, lb, ra, rb])[rest.length + 2]? = some ra := by
                  rw [List.getElem?_append_right (by omega)]
                  have : rest.length + 2 - rest.length = 2 := by omega
                  rw [this]
                  simp
                have hsk2 : skipStatic t sp (t.length + 1) ra = some ra := by
                  rw [hacc]
                  exact skipStatic_leaf ht2 hl2
                have := filterLoop_emitAt hrec (rest.length + 2) ra hq ra n2
                  hsk2 (by rw [hacc]; exact ht2) hl2
                rw [List.length_append, List.length_singleton] at this
                have harith : out.length + 1 + (rest.length + 2) =
                    (decisionFlat n (out.length + rest.length + 1) pl svl pr svr).childID + 2 := by
                  simp [decisionFlat]; omega
                rwa [harith] at this
              · have hq : (rest ++ [la, lb, ra, rb])[rest.length + 3]? = some rb := by
                  rw [List.getElem?_append_right (by omega)]
                  have : rest.length + 3 - rest.length = 3 := by omega
                  rw [this]
                  simp
                have hsk2 : skipStatic t sp (t.length + 1) rb = some rb := by
                  rw [← hab, hacc]
                  exact skipStatic_leaf ht2 hl2
                have := filterLoop_emitAt hrec (rest.length + 3) rb hq rb n2
                  hsk2 (by rw [← hab, hacc]; exact ht2) hl2
                rw [List.length_append, List.length_singleton] at this
                have harith : out.length + 1 + (rest.length + 3) =
                    (decisionFlat n (out.length + rest.length + 1) pl svl pr svr).childID + 2 + 1 := by
                  simp [decisionFlat]; omega
                rwa [harith] at this

theorem FilterTree_inv {t : List TreeNode} {sp : Int × Int} {fuel : Nat}
    {out : List FlatNode} {np : Nat} {uw wo : Bool}
    (h : FilterTree t sp fuel = some (out, np, uw, wo)) :
    ∃ np0 hw hnw,
      filterLoop t sp fuel [0] [] 0 false false = some (out, np0, hw, hnw) ∧
      np = roundProps np0 ∧ uw = hw ∧ wo = (hw && !hnw) := by
  unfold FilterTree at h
  cases hr : filterLoop t sp fuel [0] [] 0 false false with
  | none =>
    rw [hr] at h
    exact Option.noConfusion h
  | some x =>
    rw [hr] at h
    obtain ⟨o, n0, w1, w2⟩ := x
    simp only [Option.bind_eq_bind, Option.some_bind, pure,
      Option.some.injEq, Prod.mk.injEq] at h
    obtain ⟨rfl, rfl, rfl, rfl⟩ := h
    exact ⟨n0, w1, w2, rfl, rfl, rfl, rfl⟩

/-- C3: for every input `Tree` and static-property assignment, no flat node
of the `FlatTree` computed by `FilterTree` branches on a static property in a
way that can change the traversal outcome: top-level properties of decision
nodes are always non-static, and a second-level static (dummy) slot always
selects between two identical copies of one leaf. -/
theorem FilterTree_no_static_branching {t : List TreeNode} {sp : Int × Int}
    {fuel : Nat} {out : List FlatNode} {np : Nat} {uw wo : Bool}
    (h : FilterTree t sp fuel = some (out, np, uw, wo)) :
    ∀ fn ∈ out, GoodNode out fn := by
  obtain ⟨np0, hw, hnw, hloop, _, _, _⟩ := FilterTree_inv h
  have := filterLoop_good hloop (by intro fn hfn; cases hfn)
  exact this

/-- Concrete tree exercising both static-property elimination and leaf
duplication: the root tests static property 0, its surviving branch tests
property 3 with a leaf and a decision child. -/
def c3tree : List TreeNode :=
  [{ property := 0, splitval := 0, lchild := 1, rchild := 2 },
   { property := 3, splitval := 5, lchild := 3, rchild := 4 },
   { property := -1, lchild := 9, predictor := .Zero },
   { property := -1, lchild := 0, predictor := .Other 1 },
   { property := 7, splitval := -2, lchild := 5, rchild := 6 },
   { property := -1, lchild := 1, predictor := .Weighted },
   { property := -1, lchild := 2, predictor := .Zero }]

def c3res : List FlatNode × Nat × Bool × Bool :=
  (FilterTree c3tree (1, 0) 100).getD ([], 0, false, false)

/-- Witness for C3: the theorem applied to `c3tree` at channel 1, group 0. -/
theorem FilterTree_no_static_branching_witness :
    GoodNode c3res.1 c3res.1.headI :=
  @FilterTree_no_static_branching c3tree (1, 0) 100 c3res.1 c3res.2.1
    c3res.2.2.1 c3res.2.2.2 rfl c3res.1.headI (by decide)

/-- One more than the highest non-static property index referenced by a flat
node (0 if it is a leaf or references only static dummy slots). -/
def nodeHigh (fn : FlatNode) : Nat :=
  if fn.property0 = -1 then 0
  else
    max (if kNumStaticProperties ≤ fn.property0 then fn.property0.toNat + 1 else 0)
      (max (if kNumStaticProperties ≤ fn.prop1l then fn.prop1l.toNat + 1 else 0)
        (if kNumStaticProperties ≤ fn.prop1r then fn.prop1r.toNat + 1 else 0))

/-- One more than the highest non-static property index referenced anywhere
in a `FlatTree` (0 when none is referenced). -/
def rawHigh (res : List FlatNode) : Nat :=
  res.foldr (fun fn acc => max (nodeHigh fn) acc) 0

theorem filterLoop_np {t : List TreeNode} {sp : Int × Int} :
    ∀ {f : Nat} {q : List Nat} {out : List FlatNode} {np : Nat} {hw hnw : Bool}
      {r : List FlatNode × Nat × Bool × Bool},
      filterLoop t sp f q out np hw hnw = some r →
      ∃ s, r.1 = out ++ s ∧ r.2.1 = max np (rawHigh s) := by
  intro f
  induction f with
  | zero =>
    intro q out np hw hnw r h
    cases q with
    | nil =>
      rw [filterLoop_nil] at h
      cases h
      exact ⟨[], by simp, by simp [rawHigh]⟩
    | cons c rest =>
      simp only [filterLoop] at h
      exact Option.noConfusion h
  | succ f ih =>
    intro q out np hw hnw r h
    cases q with
    | nil =>
      rw [filterLoop_nil] at h
      cases h
      exact ⟨[], by simp, by simp [rawHigh]⟩
    | cons c rest =>
      obtain ⟨cur, n, hs, ht, hcase⟩ := filterLoop_cons_inv h
      rcases hcase with ⟨hleaf, hrec⟩ |
        ⟨hnl, pl, svl, la, lb, npl, pr, svr, ra, rb, npr, hrl, hrr, hrec⟩
      · obtain ⟨s, hsfx, hnp⟩ := ih hrec
        refine ⟨leafFlat n :: s, by rw [hsfx]; simp, ?_⟩
        rw [hnp]
        have hlf : nodeHigh (leafFlat n) = 0 := by simp [nodeHigh, leafFlat]
        simp only [rawHigh, List.foldr_cons, hlf]
        simp [rawHigh]
      · obtain ⟨s, hsfx, hnp⟩ := ih hrec
        refine ⟨decisionFlat n (out.length + rest.length + 1) pl svl pr svr :: s,
          by rw [hsfx]; simp, ?_⟩
        rw [hnp]
        have hp0 : kNumStaticProperties ≤ n.property := by
          obtain ⟨m, ht2, hp⟩ := skipStatic_some hs
          rw [ht] at ht2
          injection ht2 with hteq
          subst hteq
          rcases hp with h1 | h1
          · exact absurd h1 hnl
          · exact h1
        have hd : nodeHigh (decisionFlat n (out.length + rest.length + 1) pl svl pr svr) =
            max (n.property.toNat + 1) (max npl npr) := by
          rw [nodeHigh]
          have h1 : (decisionFlat n (out.length + rest.length + 1) pl svl pr svr).property0 =
              n.property := rfl
          rw [h1, if_neg hnl, if_pos hp0]
          have h2 := (resolveChild_some hrl).1
          have h3 := (resolveChild_some hrr).1
          rw [show (decisionFlat n (out.length + rest.length + 1) pl svl pr svr).prop1l = pl
              from rfl,
            show (decisionFlat n (out.length + rest.length + 1) pl svl pr svr).prop1r = pr
              from rfl, ← h2, ← h3]
        simp only [rawHigh, List.foldr_cons] at hd ⊢
        rw [hd]
        have : (List.foldr (fun fn acc => max (nodeHigh fn) acc) 0 s) =
            rawHigh s := rfl
        rw [this]
        omega

/-- C6: the `num_props` computed by `FilterTree` is the raw highest referenced
non-static property index plus one, rounded up: it equals
`kNumNonrefProperties` when nothing higher is referenced, and otherwise
`kNumNonrefProperties` plus the excess rounded up to a multiple of
`kExtraPropsPerChannel`; in particular it is always at least that raw
count. -/
theorem FilterTree_num_props {t : List TreeNode} {sp : Int × Int} {fuel : Nat}
    {out : List FlatNode} {np : Nat} {uw wo : Bool}
    (h : FilterTree t sp fuel = some (out, np, uw, wo)) :
    np = roundProps (rawHigh out) ∧
    rawHigh out ≤ np ∧
    (rawHigh out ≤ kNumNonrefProperties → np = kNumNonrefProperties) ∧
    (kNumNonrefProperties < rawHigh out →
      np = kNumNonrefProperties +
        (rawHigh out - kNumNonrefProperties + kExtraPropsPerChannel - 1) /
          kExtraPropsPerChannel * kExtraPropsPerChannel) := by
  obtain ⟨np0, hw, hnw, hloop, hround, _, _⟩ := FilterTree_inv h
  obtain ⟨s, hsfx, hnp⟩ := filterLoop_np hloop
  have hout : out = s := hsfx
  subst hout
  have hnp2 : np0 = max 0 (rawHigh out) := hnp
  have hnp0 : np0 = rawHigh out := by omega
  subst hnp0
  subst hround
  refine ⟨rfl, ?_, ?_, ?_⟩ <;>
    simp only [roundProps, kNumNonrefProperties, kExtraPropsPerChannel] <;>
    split <;> omega

/-- Witness for C6: `FilterTree_num_props` applied to the concrete `c3tree`
(whose flat tree references properties 3 and 7, below the non-reference
count, so `num_props` is exactly `kNumNonrefProperties`). -/
theorem FilterTree_num_props_witness :
    c3res.2.1 = roundProps (rawHigh c3res.1) ∧
    rawHigh c3res.1 ≤ c3res.2.1 ∧
    (rawHigh c3res.1 ≤ kNumNonrefProperties → c3res.2.1 = kNumNonrefProperties) ∧
    (kNumNonrefProperties < rawHigh c3res.1 →
      c3res.2.1 = kNumNonrefProperties +
        (rawHigh c3res.1 - kNumNonrefProperties + kExtraPropsPerChannel - 1) /
          kExtraPropsPerChannel * kExtraPropsPerChannel) :=
  @FilterTree_num_props c3tree (1, 0) 100 c3res.1 c3res.2.1
    c3res.2.2.1 c3res.2.2.2 rfl

/-- Arithmetic right shift of a (two's complement) signed integer by `k`
bits, as used for `residual >> mul_shift` on the power-of-two encode track:
equal to floor division by `2^k`. -/
def asr (r : Int) (k : Nat) : Int := Int.fdiv r (2 ^ k)

/-- C++ signed integer division (truncation toward zero), as used for
`residual / res.multiplier` on the general encode tracks. -/
def cppDiv (a b : Int) : Int := Int.tdiv a b

/-- C5: on the power-of-two-multiplier encode track, packing the shifted
residual gives the same token as packing the exactly divided residual, for
every residual divisible by the multiplier `2^k`. -/
theorem packSigned_shift_eq_div (r : Int) (k : Nat) (hdvd : (2 ^ k : Int) ∣ r) :
    PackSigned (asr r k) = PackSigned (cppDiv r (2 ^ k)) := by
  obtain ⟨q, rfl⟩ := hdvd
  have hpow : (2 ^ k : Int) ≠ 0 := by positivity
  rw [asr, cppDiv, Int.mul_fdiv_cancel_left q hpow, Int.mul_tdiv_cancel_left q hpow]

/-- Witness for C5 at the divisible residual `-24` with multiplier `2^3`. -/
theorem packSigned_shift_eq_div_witness :
    PackSigned (asr (-24) 3) = PackSigned (cppDiv (-24) (2 ^ 3)) :=
  packSigned_shift_eq_div (-24) 3 (by decide)

/-- C2: every decode track writes `decodePixel`, which clamps the exact sum
`UnpackSigned v * m + offset + guess` to the `pixel_type` range: the result is
always representable, equals the exact sum whenever that sum is in range, and
is pinned to the violated boundary (never a wrapped value, never a failure)
otherwise. -/
theorem decodePixel_saturates (v m : Nat) (o g : Int) :
    pixMin ≤ decodePixel v m o g ∧
    decodePixel v m o g ≤ pixMax ∧
    (pixMin ≤ UnpackSigned v * m + o + g ∧ UnpackSigned v * m + o + g ≤ pixMax →
      decodePixel v m o g = UnpackSigned v * m + o + g) ∧
    (pixMax < UnpackSigned v * m + o + g → decodePixel v m o g = pixMax) ∧
    (UnpackSigned v * m + o + g < pixMin → decodePixel v m o g = pixMin) := by
  simp only [decodePixel, SaturatingAdd, pixMin, pixMax]
  refine ⟨?_, ?_, ?_, ?_, ?_⟩ <;> omega

/-- Witness for C2: a guess at the top of the range plus a positive residual
clamps to `pixMax`. -/
theorem decodePixel_saturates_witness :
    pixMax < UnpackSigned 4 * 1 + 0 + 2147483647 ∧
    decodePixel 4 1 0 2147483647 = pixMax :=
  ⟨by decide, (decodePixel_saturates 4 1 0 2147483647).2.2.2.1 (by decide)⟩

/-- Modelled from the spec: the encoder-side `TreeSamples` accumulator
(defined in `ma.h`, outside the excerpt), reduced to the interface `LearnTree`
uses: the configured predictor list and the gathered sample count. -/
structure TreeSamples where
  predictors : List Predictor
  numSamples : Nat

/-- `TreeSamples::HasSamples()`. -/
def TreeSamples.HasSamples (ts : TreeSamples) : Bool := ts.numSamples ≠ 0

/-- `TreeSamples::PredictorFromIndex(i)`. -/
def TreeSamples.PredictorFromIndex (ts : TreeSamples) (i : Nat) : Predictor :=
  ts.predictors.getD i .Zero

/-- `LearnTree`: with no gathered samples it returns the degenerate one-leaf
tree (first configured predictor, offset 0, multiplier 1); otherwise it defers
to the greedy tree-growing algorithm `ComputeBestTree`, which lives outside
the excerpt and is abstracted as the function argument `cbt` (together with
the cost threshold derived from the sampled fraction). -/
def LearnTree (cbt : TreeSamples → Nat → List TreeNode)
    (ts : TreeSamples) (total_pixels : Nat) : List TreeNode :=
  if ¬ ts.HasSamples then
    [{ property := -1, predictor := ts.PredictorFromIndex 0,
       predictor_offset := 0, multiplier := 1 }]
  else cbt ts total_pixels

/-- C8: whenever the accumulator holds no samples (in particular when
`pixel_fraction = 0` disabled gathering), `LearnTree` returns exactly one
leaf whose predictor is the first configured predictor, offset 0,
multiplier 1 — whatever the external tree grower would have computed. -/
theorem learnTree_no_samples (cbt : TreeSamples → Nat → List TreeNode)
    (ts : TreeSamples) (total_pixels : Nat) (h : ts.HasSamples = false) :
    LearnTree cbt ts total_pixels =
      [{ property := -1, predictor := ts.PredictorFromIndex 0,
         predictor_offset := 0, multiplier := 1 }] := by
  rw [LearnTree, if_pos]
  rw [h]
  exact Bool.false_ne_true

/-- Witness for C8: an empty accumulator configured with the weighted
predictor first. -/
theorem learnTree_no_samples_witness :
    LearnTree (fun _ _ => []) ⟨[.Weighted, .Zero], 0⟩ 77 =
      [{ property := -1, predictor := .Weighted,
         predictor_offset := 0, multiplier := 1 }] :=
  learnTree_no_samples (fun _ _ => []) ⟨[.Weighted, .Zero], 0⟩ 77 (by decide)

/-- The two fixed 64-bit seed constants of `GatherTreeData`'s xorshift128+
stream, in the order `{s[0], s[1]}` of the source. -/
def gatherSeed : Nat × Nat := (0x94D049BB133111EB, 0xBF58476D1CE4E5B9)

/-- One step of the xorshift128+ generator of `GatherTreeData` (64-bit
arithmetic on `Nat` with explicit reduction mod `2^64`): returns the output
`bits` and the new `(s[0], s[1])` state. -/
def rngStep (s : Nat × Nat) : Nat × (Nat × Nat) :=
  let s1 := s.1
  let s0 := s.2
  let bits := (s1 + s0) % 2 ^ 64
  let s1a := Nat.xor s1 ((s1 <<< 23) % 2 ^ 64)
  let s1b := Nat.xor (Nat.xor (Nat.xor s1a s0) (s1a >>> 18)) (s0 >>> 5)
  (bits, (s0, s1b))

/-- The `use_sample` lambda: one RNG step, sampling iff the upper 32 output
bits do not exceed the threshold derived from `pixel_fraction`. -/
def useSample (threshold : Nat) (s : Nat × Nat) : Bool × (Nat × Nat) :=
  let r := rngStep s
  (decide ((r.1 >>> 32) ≤ threshold), r.2)

/-- Raster-order pixel positions `(y, x)` of a `w × h` channel. -/
def raster (w h : Nat) : List (Nat × Nat) :=
  (List.range h).flatMap fun y => (List.range w).map fun x => (y, x)

/-- The sampling loop of `GatherTreeData` over a pixel-position list: one
`use_sample()` call per pixel in raster order, recording the pixel's sample
tuple when the draw succeeds.  The per-pixel sample payload (true value,
properties, per-predictor guesses) is computed by code outside the excerpt
and is abstracted as `sampleAt`. -/
def gatherFold {α : Type} (sampleAt : Nat → Nat → α) (threshold : Nat)
    (l : List (Nat × Nat)) (acc : List α) (s : Nat × Nat) : List α :=
  match l with
  | [] => acc
  | pos :: rest =>
    let u := useSample threshold s
    gatherFold sampleAt threshold rest
      (if u.1 then acc ++ [sampleAt pos.1 pos.2] else acc) u.2

/-- `GatherTreeData`'s sample list for a `w × h` channel. -/
def gatherSamples {α : Type} (sampleAt : Nat → Nat → α) (w h threshold : Nat) :
    List α :=
  gatherFold sampleAt threshold (raster w h) [] gatherSeed

/-- The sampled position list: the same loop recording positions instead of
sample payloads. -/
def samplePositions (threshold : Nat) (l : List (Nat × Nat))
    (acc : List (Nat × Nat)) (s : Nat × Nat) : List (Nat × Nat) :=
  match l with
  | [] => acc
  | pos :: rest =>
    let u := useSample threshold s
    samplePositions threshold rest (if u.1 then acc ++ [pos] else acc) u.2

/-- Positions sampled on a `w × h` channel with a given threshold. -/
def gatherPositions (w h threshold : Nat) : List (Nat × Nat) :=
  samplePositions threshold (raster w h) [] gatherSeed

theorem gatherFold_factor {α : Type} (sampleAt : Nat → Nat → α)
    (threshold : Nat) :
    ∀ (l : List (Nat × Nat)) (acc : List (Nat × Nat)) (s : Nat × Nat),
      gatherFold sampleAt threshold l (acc.map fun p => sampleAt p.1 p.2) s =
        (samplePositions threshold l acc s).map fun p => sampleAt p.1 p.2 := by
  intro l
  induction l with
  | nil => intro acc s; rfl
  | cons pos rest ih =>
    intro acc s
    rw [gatherFold, samplePositions]
    by_cases hu : (useSample threshold s).1
    · rw [if_pos hu, if_pos hu]
      have : (acc.map fun p => sampleAt p.1 p.2) ++ [sampleAt pos.1 pos.2] =
          (acc ++ [pos]).map fun p => sampleAt p.1 p.2 := by simp
      rw [this, ih]
    · rw [if_neg hu, if_neg hu, ih]

/-- C9: the sampling decisions of `GatherTreeData` come only from the
xorshift128+ stream seeded with the two fixed 64-bit constants — the gathered
sample list is the deterministic position list `gatherPositions w h threshold`
(a function of the channel dimensions and `pixel_fraction` threshold alone,
independent of pixel contents), mapped over the per-pixel sample payload; two
gathering passes over the same channel with the same options therefore
produce identical sample sets. -/
theorem gatherSamples_deterministic {α : Type} (sampleAt : Nat → Nat → α)
    (w h threshold : Nat) :
    gatherSamples sampleAt w h threshold =
      (gatherPositions w h threshold).map fun p => sampleAt p.1 p.2 := by
  rw [gatherSamples, gatherPositions]
  have := gatherFold_factor sampleAt threshold (raster w h) [] gatherSeed
  simpa using this

/-- Decode status: `ok`, the distinguished recoverable
`StatusCode::kNotEnoughBytes`, or a generic fatal failure. -/
inductive Status where
  | ok
  | notEnoughBytes
  | failure
  deriving DecidableEq, Repr

/-- A decoded channel: dimensions plus pixel buffer. -/
structure DChan where
  w : Nat
  h : Nat
  pix : List Int
  deriving DecidableEq, Repr

/-- The channel loop of `ModularDecode` (the "Read channels" loop): `dec i s`
abstracts `DecodeModularChannelMAANS` on channel `i` from reader state `s`
(returning the new state and the decoded buffer), `wb` abstracts
`br->AllReadsWithinBounds()`.  Empty channels are skipped, an over-size
non-meta channel breaks the loop, and after each decoded channel an
out-of-bounds read under `allow_truncated_group` zero-fills that channel and
stops with `notEnoughBytes`. -/
def chanLoop {σ : Type} (dec : Nat → σ → σ × List Int) (wb : σ → Bool)
    (allowTrunc : Bool) (maxChan nbMeta : Nat) :
    List DChan → Nat → σ → List DChan × σ × Status
  | [], _, s => ([], s, .ok)
  | ch :: rest, i, s =>
    if ch.w = 0 ∨ ch.h = 0 then
      let r := chanLoop dec wb allowTrunc maxChan nbMeta rest (i + 1) s
      (ch :: r.1, r.2)
    else if nbMeta ≤ i ∧ (maxChan < ch.w ∨ maxChan < ch.h) then
      (ch :: rest, s, .ok)
    else
      let d := dec i s
      if allowTrunc ∧ ¬ wb d.1 then
        ({ ch with pix := List.replicate (ch.w * ch.h) 0 } :: rest, d.1,
          .notEnoughBytes)
      else
        let r := chanLoop dec wb allowTrunc maxChan nbMeta rest (i + 1) d.1
        ({ ch with pix := d.2 } :: r.1, r.2)

/-- C7: in `ModularDecode` with `allow_truncated_group` set, when the bit
reader reports an out-of-bounds read right after a channel is decoded, that
channel's buffer is zero-filled, the loop stops (all later channels are
returned exactly as they were, undecoded), and the distinguished
`kNotEnoughBytes` status is returned instead of a generic failure. -/
theorem chanLoop_truncated {σ : Type} (dec : Nat → σ → σ × List Int)
    (wb : σ → Bool) (maxChan nbMeta : Nat) (ch : DChan) (rest : List DChan)
    (i : Nat) (s : σ)
    (hne : ¬(ch.w = 0 ∨ ch.h = 0))
    (hsize : ¬(nbMeta ≤ i ∧ (maxChan < ch.w ∨ maxChan < ch.h)))
    (htrunc : wb (dec i s).1 = false) :
    chanLoop dec wb true maxChan nbMeta (ch :: rest) i s =
      ({ ch with pix := List.replicate (ch.w * ch.h) 0 } :: rest, (dec i s).1,
        .notEnoughBytes) := by
  rw [chanLoop, if_neg hne, if_neg hsize, if_pos]
  exact ⟨rfl, by rw [htrunc]; exact Bool.false_ne_true⟩

/-- Witness for C7: a 2×1 channel whose decode exhausts the reader (state
counts remaining bytes; the decoder consumes more than available). -/
theorem chanLoop_truncated_witness :
    chanLoop (fun _ s => (s - 5, [7, 7])) (fun s => decide (0 < s)) true
        1000 0 [⟨2, 1, [3, 4]⟩, ⟨1, 1, [9]⟩] 0 2 =
      (⟨2, 1, [0, 0]⟩ :: [⟨1, 1, [9]⟩], 0, .notEnoughBytes) := by
  have h := chanLoop_truncated (σ := Nat) (fun _ s => (s - 5, [7, 7]))
    (fun s => decide (0 < s)) 1000 0 ⟨2, 1, [3, 4]⟩ [⟨1, 1, [9]⟩] 0 2
    (by decide) (by decide) (by decide)
  exact h

/-- A builder work item: property-value interval `(b, e]` (begin excluded,
end included) still to be attributed, and the flat-tree position it maps to. -/
structure TreeRange where
  b : Int
  e : Int
  pos : Nat
  deriving DecidableEq, Repr

/-- Result of compiling a WP lookup table: the three tables (clustered
context, multiplier, offset, each indexed by the property value), abandonment
(fallback to general traversal), or an undefined run (fuel exhaustion /
out-of-bounds node index, both impossible for the trees the source
produces). -/
inductive WPResult where
  | ok : (Int → Nat) → (Int → Int) → (Int → Int) → WPResult
  | abandoned : WPResult
  | stuck : WPResult

def WPResult.isOk : WPResult → Bool
  | .ok _ _ _ => true
  | _ => false

def WPResult.isAbandoned : WPResult → Bool
  | .abandoned => true
  | _ => false

def WPResult.ctxTab : WPResult → (Int → Nat)
  | .ok c _ _ => c
  | _ => fun _ => 0

def WPResult.mulTab : WPResult → (Int → Int)
  | .ok _ m _ => m
  | _ => fun _ => 0

def WPResult.offTab : WPResult → (Int → Int)
  | .ok _ _ o => o
  | _ => fun _ => 0

/-- The decode-side WP lookup-table compiler of `DecodeModularChannelMAANS`:
processes the range stack (last pushed first, as the C++ vector), abandons on
a range-bound violation or a leaf offset outside the signed 8-bit range, and
otherwise fills context/multiplier/offset for every property value in the
popped leaf range.  The multiplier is stored into an `int32_t` array, so it
is narrowed by `wrap32`. -/
def decBuild (t : List FlatNode) : Nat → List TreeRange →
    (Int → Nat) → (Int → Int) → (Int → Int) → WPResult
  | _, [], c, m, o => .ok c m o
  | 0, _ :: _, _, _, _ => .stuck
  | fuel + 1, cur :: stack, c, m, o =>
    if cur.b < -kWPPropRange - 1 ∨ cur.b ≥ kWPPropRange - 1 ∨
        cur.e > kWPPropRange - 1 then
      .abandoned
    else
      match t[cur.pos]? with
      | none => .stuck
      | some n =>
        if n.property0 = -1 then
          if n.predictor_offset < -128 ∨ 127 < n.predictor_offset then
            .abandoned
          else
            decBuild t fuel stack
              (fun i => if cur.b < i ∧ i ≤ cur.e then n.childID else c i)
              (fun i => if cur.b < i ∧ i ≤ cur.e then wrap32 n.multiplier
                else m i)
              (fun i => if cur.b < i ∧ i ≤ cur.e then n.predictor_offset else o i)
        else
          decBuild t fuel
            (((if kNumStaticProperties ≤ n.prop1l then
                  [TreeRange.mk n.splitval1l cur.e n.childID,
                   TreeRange.mk n.splitval0 n.splitval1l (n.childID + 1)]
                else [TreeRange.mk n.splitval0 cur.e n.childID]) ++
              (if kNumStaticProperties ≤ n.prop1r then
                  [TreeRange.mk n.splitval1r n.splitval0 (n.childID + 2),
                   TreeRange.mk cur.b n.splitval1r (n.childID + 3)]
                else [TreeRange.mk cur.b n.splitval0 (n.childID + 2)])).reverse
              ++ stack) c m o

/-- Result of the encode-side table compiler (only a context table exists on
the encode side). -/
inductive EncResult where
  | ok : (Int → Nat) → EncResult
  | abandoned : EncResult
  | stuck : EncResult

def EncResult.isOk : EncResult → Bool
  | .ok _ => true
  | _ => false

def EncResult.isAbandoned : EncResult → Bool
  | .abandoned => true
  | _ => false

/-- The encode-side WP lookup-table compiler of `EncodeModularChannelMAANS`:
identical range processing, but a leaf also abandons when its multiplier is
not 1 or its offset is not 0, and only the context table is filled. -/
def encBuild (t : List FlatNode) : Nat → List TreeRange → (Int → Nat) →
    EncResult
  | _, [], c => .ok c
  | 0, _ :: _, _ => .stuck
  | fuel + 1, cur :: stack, c =>
    if cur.b < -kWPPropRange - 1 ∨ cur.b ≥ kWPPropRange - 1 ∨
        cur.e > kWPPropRange - 1 then
      .abandoned
    else
      match t[cur.pos]? with
      | none => .stuck
      | some n =>
        if n.property0 = -1 then
          if n.predictor_offset < -128 ∨ 127 < n.predictor_offset ∨
              n.multiplier ≠ 1 ∨ n.predictor_offset ≠ 0 then
            .abandoned
          else
            encBuild t fuel stack
              (fun i => if cur.b < i ∧ i ≤ cur.e then n.childID else c i)
        else
          encBuild t fuel
            (((if kNumStaticProperties ≤ n.prop1l then
                  [TreeRange.mk n.splitval1l cur.e n.childID,
                   TreeRange.mk n.splitval0 n.splitval1l (n.childID + 1)]
                else [TreeRange.mk n.splitval0 cur.e n.childID]) ++
              (if kNumStaticProperties ≤ n.prop1r then
                  [TreeRange.mk n.splitval1r n.splitval0 (n.childID + 2),
                   TreeRange.mk cur.b n.splitval1r (n.childID + 3)]
                else [TreeRange.mk cur.b n.splitval0 (n.childID + 2)])).reverse
              ++ stack) c

/-- Modelled from the spec: `MATreeLookup` general traversal of a `FlatTree`
(defined in `context_predict.h`, outside the excerpt): at a decision node the
top-level comparison `props[property0] > splitval0` selects the pair, the
second-level comparison selects within it, and the four descendant slots
start at `childID` (`>`/`>` first), matching the range layout of the table
compilers in the excerpt.  Returns `(context, multiplier, offset)` at the
reached leaf. -/
def nextPos (n : FlatNode) (props : Int → Int) : Nat :=
  if props n.property0 > n.splitval0 then
    n.childID + if props n.prop1l > n.splitval1l then 0 else 1
  else
    n.childID + 2 + if props n.prop1r > n.splitval1r then 0 else 1

def flatLookup (t : List FlatNode) (props : Int → Int) :
    Nat → Nat → Option (Nat × Nat × Int)
  | 0, _ => none
  | fuel + 1, pos => do
    let n ← t[pos]?
    if n.property0 = -1 then
      some (n.childID, n.multiplier, n.predictor_offset)
    else
      flatLookup t props fuel (nextPos n props)

/-- The initial range stack of both table compilers. -/
def rootRange : List TreeRange :=
  [⟨-kWPPropRange - 1, kWPPropRange - 1, 0⟩]

/-- Source tree for a wp-only single leaf with multiplier 2 (offset 0,
context 5): its offset is inside the signed 8-bit range and every range bound
check passes, yet the encode side abandons the fast path. -/
def c4leafSrc : List TreeNode :=
  [{ property := -1, lchild := 5, predictor := .Weighted,
     predictor_offset := 0, multiplier := 2 }]

def c4leafRes : List FlatNode × Nat × Bool × Bool :=
  (FilterTree c4leafSrc (0, 0) 100).getD ([], 0, false, false)

/-- Source tree for a wp-only tree whose second-level split value `-10` on the
`>` side is inconsistent with the top-level split `0`: the compiled decode
table and general traversal disagree at property value 0. -/
def c4badSrc : List TreeNode :=
  [{ property := 15, splitval := 0, lchild := 1, rchild := 2 },
   { property := 15, splitval := -10, lchild := 3, rchild := 4 },
   { property := 15, splitval := 0, lchild := 5, rchild := 6 },
   { property := -1, lchild := 10, predictor := .Weighted },
   { property := -1, lchild := 11, predictor := .Weighted },
   { property := -1, lchild := 12, predictor := .Weighted },
   { property := -1, lchild := 13, predictor := .Weighted }]

def c4badRes : List FlatNode × Nat × Bool × Bool :=
  (FilterTree c4badSrc (0, 0) 100).getD ([], 0, false, false)

/-- C4 refutation, as stated: (a) `c4leafSrc` compiles to a wp-only FlatTree
on which every claimed abandonment condition is absent — the decode-side
compiler, whose only abandonment conditions are exactly the two the claim
names, succeeds — yet the encode-side fast path is abandoned (because of the
extra multiplier-1/offset-0 leaf checks); (b) `c4badSrc` compiles to a
wp-only FlatTree on which the decode-side compiler succeeds, yet the table at
property value 0 names context 10 while general traversal reaches context 13:
the table does not match traversal when the split values are inconsistent. -/
theorem wpFastPath_counterexample :
    (FilterTree c4leafSrc (0, 0) 100 = some (c4leafRes.1, 16, true, true) ∧
     (encBuild c4leafRes.1 100 rootRange fun _ => 0).isAbandoned = true ∧
     (decBuild c4leafRes.1 100 rootRange (fun _ => 0) (fun _ => 0)
        fun _ => 0).isOk = true) ∧
    (FilterTree c4badSrc (0, 0) 100 = some (c4badRes.1, 16, true, true) ∧
     (decBuild c4badRes.1 100 rootRange (fun _ => 0) (fun _ => 0)
        fun _ => 0).isOk = true ∧
     (decBuild c4badRes.1 100 rootRange (fun _ => 0) (fun _ => 0)
        fun _ => 0).ctxTab 0 = 10 ∧
     flatLookup c4badRes.1 (fun _ => 0) 100 0 = some (13, 1, 0)) :=
  ⟨⟨rfl, rfl, rfl⟩, rfl, rfl, rfl, rfl⟩

/-- The two descendant slots starting at `slot` hold the same leaf (the shape
`FilterTree` produces for a dummy static split). -/
def dummyPair (t : List FlatNode) (slot : Nat) : Bool :=
  match t[slot]?, t[slot + 1]? with
  | some a, some b2 => a == b2 && a.property0 == (-1 : Int)
  | _, _ => false

/-- Well-formedness of a wp-only flat subtree relative to the interval
`(b, e]` of weighted-property values that can reach it: every decision
property is the WP property, second-level split values are consistent with
(nested inside) the top-level split, and a static (dummy) second-level slot
selects between two identical leaves. -/
def wpTreeOk (t : List FlatNode) : Nat → Int → Int → Nat → Bool
  | 0, _, _, _ => false
  | fw + 1, b, e, pos =>
    match t[pos]? with
    | none => false
    | some n =>
      if n.property0 = -1 then true
      else
        (n.property0 == kWPProp) &&
        decide (b ≤ n.splitval0) && decide (n.splitval0 ≤ e) &&
        (if kNumStaticProperties ≤ n.prop1l then
            (n.prop1l == kWPProp) && decide (n.splitval0 ≤ n.splitval1l) &&
            decide (n.splitval1l ≤ e) &&
            wpTreeOk t fw n.splitval1l e n.childID &&
            wpTreeOk t fw n.splitval0 n.splitval1l (n.childID + 1)
          else
            dummyPair t n.childID) &&
        (if kNumStaticProperties ≤ n.prop1r then
            (n.prop1r == kWPProp) && decide (b ≤ n.splitval1r) &&
            decide (n.splitval1r ≤ n.splitval0) &&
            wpTreeOk t fw n.splitval1r n.splitval0 (n.childID + 2) &&
            wpTreeOk t fw b n.splitval1r (n.childID + 3)
          else
            dummyPair t (n.childID + 2))

/-- Traversal from `pos` reaches result `r` with some fuel. -/
def lookupE (t : List FlatNode) (props : Int → Int) (pos : Nat)
    (r : Nat × Nat × Int) : Prop :=
  ∃ tf, flatLookup t props tf pos = some r

theorem lookupE_of_leaf {t : List FlatNode} {props : Int → Int} {pos : Nat}
    {n : FlatNode} (ht : t[pos]? = some n) (hleaf : n.property0 = -1) :
    lookupE t props pos (n.childID, n.multiplier, n.predictor_offset) :=
  ⟨1, by simp [flatLookup, ht, hleaf]⟩

theorem lookupE_leaf_det {t : List FlatNode} {props : Int → Int} {pos : Nat}
    {n : FlatNode} {r : Nat × Nat × Int}
    (ht : t[pos]? = some n) (hleaf : n.property0 = -1)
    (h : lookupE t props pos r) :
    r = (n.childID, n.multiplier, n.predictor_offset) := by
  obtain ⟨tf, htf⟩ := h
  cases tf with
  | zero => simp [flatLookup] at htf
  | succ tf =>
    rw [flatLookup, ht] at htf
    simp only [Option.bind_eq_bind, Option.some_bind, if_pos hleaf,
      Option.some.injEq] at htf
    exact htf.symm

theorem lookupE_step {t : List FlatNode} {props : Int → Int} {pos : Nat}
    {n : FlatNode} {r : Nat × Nat × Int}
    (ht : t[pos]? = some n) (hnl : n.property0 ≠ -1)
    (h : lookupE t props (nextPos n props) r) : lookupE t props pos r := by
  obtain ⟨tf, htf⟩ := h
  refine ⟨tf + 1, ?_⟩
  rw [flatLookup, ht]
  simp only [Option.bind_eq_bind, Option.some_bind, if_neg hnl]
  exact htf

theorem dummyPair_inv {t : List FlatNode} {slot : Nat}
    (h : dummyPair t slot = true) :
    ∃ a, t[slot]? = some a ∧ t[slot + 1]? = some a ∧ a.property0 = -1 := by
  unfold dummyPair at h
  cases h1 : t[slot]? with
  | none => rw [h1] at h; exact Bool.noConfusion h
  | some a =>
    cases h2 : t[slot + 1]? with
    | none => rw [h1, h2] at h; exact Bool.noConfusion h
    | some b2 =>
      rw [h1, h2] at h
      simp only [Bool.and_eq_true, beq_iff_eq] at h
      exact ⟨a, rfl, by rw [h.1], h.2⟩

/-- Transfer of a traversal result from the single range pushed for a dummy
static slot (at `slot`, with `slot + 1` holding the identical leaf) to
whichever of the two slots the traversal actually selects. -/
theorem lookupE_dummy {t : List FlatNode} {props : Int → Int} {slot : Nat}
    {r : Nat × Nat × Int} (hd : dummyPair t slot = true) (k : Nat)
    (hk : k = 0 ∨ k = 1) (h : lookupE t props slot r) :
    lookupE t props (slot + k) r := by
  obtain ⟨a, h1, h2, hleaf⟩ := dummyPair_inv hd
  have hr := lookupE_leaf_det h1 hleaf h
  rcases hk with rfl | rfl
  · simpa using h
  · rw [hr]
    exact lookupE_of_leaf h2 hleaf

theorem wpTreeOk_leaf {t : List FlatNode} {b e : Int} {pos : Nat} {n : FlatNode}
    (ht : t[pos]? = some n) (hleaf : n.property0 = -1) :
    wpTreeOk t 1 b e pos = true := by
  simp [wpTreeOk, ht, hleaf]

theorem wpTreeOk_inv {t : List FlatNode} {fw : Nat} {b e : Int} {pos : Nat}
    (h : wpTreeOk t (fw + 1) b e pos = true) :
    ∃ n, t[pos]? = some n ∧
      (n.property0 = -1 ∨
        (n.property0 = kWPProp ∧ b ≤ n.splitval0 ∧ n.splitval0 ≤ e ∧
          ((kNumStaticProperties ≤ n.prop1l ∧ n.prop1l = kWPProp ∧
              n.splitval0 ≤ n.splitval1l ∧ n.splitval1l ≤ e ∧
              wpTreeOk t fw n.splitval1l e n.childID = true ∧
              wpTreeOk t fw n.splitval0 n.splitval1l (n.childID + 1) = true) ∨
            (¬ kNumStaticProperties ≤ n.prop1l ∧
              dummyPair t n.childID = true)) ∧
          ((kNumStaticProperties ≤ n.prop1r ∧ n.prop1r = kWPProp ∧
              b ≤ n.splitval1r ∧ n.splitval1r ≤ n.splitval0 ∧
              wpTreeOk t fw n.splitval1r n.splitval0 (n.childID + 2) = true ∧
              wpTreeOk t fw b n.splitval1r (n.childID + 3) = true) ∨
            (¬ kNumStaticProperties ≤ n.prop1r ∧
              dummyPair t (n.childID + 2) = true)))) := by
  cases ht : t[pos]? with
  | none => rw [wpTreeOk, ht] at h; exact Bool.noConfusion h
  | some n =>
    simp only [wpTreeOk, ht] at h
    refine ⟨n, rfl, ?_⟩
    by_cases hleaf : n.property0 = -1
    · exact Or.inl hleaf
    · rw [if_neg hleaf] at h
      right
      by_cases hl : kNumStaticProperties ≤ n.prop1l <;>
        by_cases hr : kNumStaticProperties ≤ n.prop1r
      · rw [if_pos hl, if_pos hr] at h
        simp only [Bool.and_eq_true, beq_iff_eq, decide_eq_true_eq,
          and_assoc] at h
        obtain ⟨h1, h2, h3, h4, h5, h6, h7, h8, h9, h10, h11, h12, h13⟩ := h
        exact ⟨h1, h2, h3, Or.inl ⟨hl, h4, h5, h6, h7, h8⟩,
          Or.inl ⟨hr, h9, h10, h11, h12, h13⟩⟩
      · rw [if_pos hl, if_neg hr] at h
        simp only [Bool.and_eq_true, beq_iff_eq, decide_eq_true_eq,
          and_assoc] at h
        obtain ⟨h1, h2, h3, h4, h5, h6, h7, h8, h9⟩ := h
        exact ⟨h1, h2, h3, Or.inl ⟨hl, h4, h5, h6, h7, h8⟩, Or.inr ⟨hr, h9⟩⟩
      · rw [if_neg hl, if_pos hr] at h
        simp only [Bool.and_eq_true, beq_iff_eq, decide_eq_true_eq,
          and_assoc] at h
        obtain ⟨h1, h2, h3, h4, h5, h6, h7, h8, h9⟩ := h
        exact ⟨h1, h2, h3, Or.inr ⟨hl, h4⟩, Or.inl ⟨hr, h5, h6, h7, h8, h9⟩⟩
      · rw [if_neg hl, if_neg hr] at h
        simp only [Bool.and_eq_true, beq_iff_eq, decide_eq_true_eq,
          and_assoc] at h
        obtain ⟨h1, h2, h3, h4, h5⟩ := h
        exact ⟨h1, h2, h3, Or.inr ⟨hl, h4⟩, Or.inr ⟨hr, h5⟩⟩

theorem lookupE_childA {t : List FlatNode} {props : Int → Int} {pos : Nat}
    {n : FlatNode} {p : Int} {res : Nat × Nat × Int}
    (ht : t[pos]? = some n) (hp0 : n.property0 = kWPProp)
    (hlwp : n.prop1l = kWPProp) (hp : props kWPProp = p)
    (hord : n.splitval0 ≤ n.splitval1l) (hgt : n.splitval1l < p)
    (h : lookupE t props n.childID res) : lookupE t props pos res := by
  have hnl : n.property0 ≠ -1 := by rw [hp0]; decide
  apply lookupE_step ht hnl
  have hnext : nextPos n props = n.childID := by
    unfold nextPos
    rw [hp0, hlwp, hp, if_pos (by omega), if_pos (by omega)]
    rfl
  rwa [hnext]

theorem lookupE_childB {t : List FlatNode} {props : Int → Int} {pos : Nat}
    {n : FlatNode} {p : Int} {res : Nat × Nat × Int}
    (ht : t[pos]? = some n) (hp0 : n.property0 = kWPProp)
    (hlwp : n.prop1l = kWPProp) (hp : props kWPProp = p)
    (hgt : n.splitval0 < p) (hle : p ≤ n.splitval1l)
    (h : lookupE t props (n.childID + 1) res) : lookupE t props pos res := by
  have hnl : n.property0 ≠ -1 := by rw [hp0]; decide
  apply lookupE_step ht hnl
  have hnext : nextPos n props = n.childID + 1 := by
    unfold nextPos
    rw [hp0, hlwp, hp, if_pos (by omega), if_neg (by omega)]
  rwa [hnext]

theorem lookupE_childC {t : List FlatNode} {props : Int → Int} {pos : Nat}
    {n : FlatNode} {p : Int} {res : Nat × Nat × Int}
    (ht : t[pos]? = some n) (hp0 : n.property0 = kWPProp)
    (hrwp : n.prop1r = kWPProp) (hp : props kWPProp = p)
    (hle : p ≤ n.splitval0) (hgt : n.splitval1r < p)
    (h : lookupE t props (n.childID + 2) res) : lookupE t props pos res := by
  have hnl : n.property0 ≠ -1 := by rw [hp0]; decide
  apply lookupE_step ht hnl
  have hnext : nextPos n props = n.childID + 2 := by
    unfold nextPos
    rw [hp0, hrwp, hp, if_neg (by omega), if_pos (by omega)]
  rwa [hnext]

theorem lookupE_childD {t : List FlatNode} {props : Int → Int} {pos : Nat}
    {n : FlatNode} {p : Int} {res : Nat × Nat × Int}
    (ht : t[pos]? = some n) (hp0 : n.property0 = kWPProp)
    (hrwp : n.prop1r = kWPProp) (hp : props kWPProp = p)
    (hle0 : p ≤ n.splitval0) (hle : p ≤ n.splitval1r)
    (h : lookupE t props (n.childID + 3) res) : lookupE t props pos res := by
  have hnl : n.property0 ≠ -1 := by rw [hp0]; decide
  apply lookupE_step ht hnl
  have hnext : nextPos n props = n.childID + 3 := by
    unfold nextPos
    rw [hp0, hrwp, hp, if_neg (by omega), if_neg (by omega)]
  rwa [hnext]

theorem lookupE_childA' {t : List FlatNode} {props : Int → Int} {pos : Nat}
    {n : FlatNode} {p : Int} {res : Nat × Nat × Int}
    (ht : t[pos]? = some n) (hp0 : n.property0 = kWPProp)
    (hdum : dummyPair t n.childID = true) (hp : props kWPProp = p)
    (hgt : n.splitval0 < p)
    (h : lookupE t props n.childID res) : lookupE t props pos res := by
  have hnl : n.property0 ≠ -1 := by rw [hp0]; decide
  apply lookupE_step ht hnl
  have hnext : nextPos n props =
      n.childID + if props n.prop1l > n.splitval1l then 0 else 1 := by
    unfold nextPos
    rw [hp0, hp, if_pos (by omega)]
  rw [hnext]
  exact lookupE_dummy hdum _ (by split <;> simp) h

theorem lookupE_childC' {t : List FlatNode} {props : Int → Int} {pos : Nat}
    {n : FlatNode} {p : Int} {res : Nat × Nat × Int}
    (ht : t[pos]? = some n) (hp0 : n.property0 = kWPProp)
    (hdum : dummyPair t (n.childID + 2) = true) (hp : props kWPProp = p)
    (hle : p ≤ n.splitval0)
    (h : lookupE t props (n.childID + 2) res) : lookupE t props pos res := by
  have hnl : n.property0 ≠ -1 := by rw [hp0]; decide
  apply lookupE_step ht hnl
  have hnext : nextPos n props =
      n.childID + 2 + if props n.prop1r > n.splitval1r then 0 else 1 := by
    unfold nextPos
    rw [hp0, hp, if_neg (by omega)]
  rw [hnext]
  exact lookupE_dummy hdum _ (by split <;> simp) h

theorem decBuild_cons_ok {t : List FlatNode} {fuel : Nat} {cur : TreeRange}
    {stack : List TreeRange} {c : Int → Nat} {m o : Int → Int}
    {c' : Int → Nat} {m' o' : Int → Int}
    (h : decBuild t (fuel + 1) (cur :: stack) c m o = .ok c' m' o') :
    ¬(cur.b < -kWPPropRange - 1 ∨ cur.b ≥ kWPPropRange - 1 ∨
        cur.e > kWPPropRange - 1) ∧
    ∃ n, t[cur.pos]? = some n ∧
      ((n.property0 = -1 ∧
          ¬(n.predictor_offset < -128 ∨ 127 < n.predictor_offset) ∧
          decBuild t fuel stack
            (fun i => if cur.b < i ∧ i ≤ cur.e then n.childID else c i)
            (fun i => if cur.b < i ∧ i ≤ cur.e then wrap32 n.multiplier
              else m i)
            (fun i => if cur.b < i ∧ i ≤ cur.e then n.predictor_offset else o i)
            = .ok c' m' o') ∨
        (n.property0 ≠ -1 ∧
          decBuild t fuel
            (((if kNumStaticProperties ≤ n.prop1l then
                  [TreeRange.mk n.splitval1l cur.e n.childID,
                   TreeRange.mk n.splitval0 n.splitval1l (n.childID + 1)]
                else [TreeRange.mk n.splitval0 cur.e n.childID]) ++
              (if kNumStaticProperties ≤ n.prop1r then
                  [TreeRange.mk n.splitval1r n.splitval0 (n.childID + 2),
                   TreeRange.mk cur.b n.splitval1r (n.childID + 3)]
                else [TreeRange.mk cur.b n.splitval0 (n.childID + 2)])).reverse
              ++ stack) c m o = .ok c' m' o')) := by
  rw [show decBuild t (fuel + 1) (cur :: stack) c m o =
      (if cur.b < -kWPPropRange - 1 ∨ cur.b ≥ kWPPropRange - 1 ∨
          cur.e > kWPPropRange - 1 then
        .abandoned
      else
        match t[cur.pos]? with
        | none => .stuck
        | some n =>
          if n.property0 = -1 then
            if n.predictor_offset < -128 ∨ 127 < n.predictor_offset then
              .abandoned
            else
              decBuild t fuel stack
                (fun i => if cur.b < i ∧ i ≤ cur.e then n.childID else c i)
                (fun i => if cur.b < i ∧ i ≤ cur.e then wrap32 n.multiplier
                  else m i)
                (fun i => if cur.b < i ∧ i ≤ cur.e then n.predictor_offset
                  else o i)
          else
            decBuild t fuel
              (((if kNumStaticProperties ≤ n.prop1l then
                    [TreeRange.mk n.splitval1l cur.e n.childID,
                     TreeRange.mk n.splitval0 n.splitval1l (n.childID + 1)]
                  else [TreeRange.mk n.splitval0 cur.e n.childID]) ++
                (if kNumStaticProperties ≤ n.prop1r then
                    [TreeRange.mk n.splitval1r n.splitval0 (n.childID + 2),
                     TreeRange.mk cur.b n.splitval1r (n.childID + 3)]
                  else [TreeRange.mk cur.b n.splitval0 (n.childID + 2)])).reverse
                ++ stack) c m o : WPResult) from rfl] at h
  by_cases hbc : cur.b < -kWPPropRange - 1 ∨ cur.b ≥ kWPPropRange - 1 ∨
      cur.e > kWPPropRange - 1
  · rw [if_pos hbc] at h
    exact WPResult.noConfusion h
  · rw [if_neg hbc] at h
    refine ⟨hbc, ?_⟩
    cases ht : t[cur.pos]? with
    | none =>
      simp only [ht] at h
      exact WPResult.noConfusion h
    | some n =>
      simp only [ht] at h
      refine ⟨n, rfl, ?_⟩
      by_cases hleaf : n.property0 = -1
      · rw [if_pos hleaf] at h
        by_cases hoff : n.predictor_offset < -128 ∨ 127 < n.predictor_offset
        · rw [if_pos hoff] at h
          exact WPResult.noConfusion h
        · rw [if_neg hoff] at h
          exact Or.inl ⟨hleaf, hoff, h⟩
      · rw [if_neg hleaf] at h
        exact Or.inr ⟨hleaf, h⟩

/-- The per-leaf context remap `tree[i].childID = context_map[tree[i].childID]`
applied by `DecodeModularChannelMAANS` before any use of the tree. -/
def remapLeaf (cmap : Nat → Nat) (fn : FlatNode) : FlatNode :=
  if fn.property0 = -1 then { fn with childID := cmap fn.childID } else fn

def remapTree (cmap : Nat → Nat) (t : List FlatNode) : List FlatNode :=
  t.map (remapLeaf cmap)

theorem remapLeaf_fields (cmap : Nat → Nat) (fn : FlatNode) :
    (remapLeaf cmap fn).property0 = fn.property0 ∧
    (remapLeaf cmap fn).predictor = fn.predictor ∧
    (remapLeaf cmap fn).multiplier = fn.multiplier ∧
    (remapLeaf cmap fn).predictor_offset = fn.predictor_offset := by
  unfold remapLeaf
  split <;> exact ⟨rfl, rfl, rfl, rfl⟩

theorem encBuild_cons_ok {t : List FlatNode} {fuel : Nat} {cur : TreeRange}
    {stack : List TreeRange} {c c' : Int → Nat}
    (h : encBuild t (fuel + 1) (cur :: stack) c = .ok c') :
    ¬(cur.b < -kWPPropRange - 1 ∨ cur.b ≥ kWPPropRange - 1 ∨
        cur.e > kWPPropRange - 1) ∧
    ∃ n, t[cur.pos]? = some n ∧
      ((n.property0 = -1 ∧
          ¬(n.predictor_offset < -128 ∨ 127 < n.predictor_offset ∨
            n.multiplier ≠ 1 ∨ n.predictor_offset ≠ 0) ∧
          encBuild t fuel stack
            (fun i => if cur.b < i ∧ i ≤ cur.e then n.childID else c i)
            = .ok c') ∨
        (n.property0 ≠ -1 ∧
          encBuild t fuel
            (((if kNumStaticProperties ≤ n.prop1l then
                  [TreeRange.mk n.splitval1l cur.e n.childID,
                   TreeRange.mk n.splitval0 n.splitval1l (n.childID + 1)]
                else [TreeRange.mk n.splitval0 cur.e n.childID]) ++
              (if kNumStaticProperties ≤ n.prop1r then
                  [TreeRange.mk n.splitval1r n.splitval0 (n.childID + 2),
                   TreeRange.mk cur.b n.splitval1r (n.childID + 3)]
                else [TreeRange.mk cur.b n.splitval0 (n.childID + 2)])).reverse
              ++ stack) c = .ok c')) := by
  rw [show encBuild t (fuel + 1) (cur :: stack) c =
      (if cur.b < -kWPPropRange - 1 ∨ cur.b ≥ kWPPropRange - 1 ∨
          cur.e > kWPPropRange - 1 then
        .abandoned
      else
        match t[cur.pos]? with
        | none => .stuck
        | some n =>
          if n.property0 = -1 then
            if n.predictor_offset < -128 ∨ 127 < n.predictor_offset ∨
                n.multiplier ≠ 1 ∨ n.predictor_offset ≠ 0 then
              .abandoned
            else
              encBuild t fuel stack
                (fun i => if cur.b < i ∧ i ≤ cur.e then n.childID else c i)
          else
            encBuild t fuel
              (((if kNumStaticProperties ≤ n.prop1l then
                    [TreeRange.mk n.splitval1l cur.e n.childID,
                     TreeRange.mk n.splitval0 n.splitval1l (n.childID + 1)]
                  else [TreeRange.mk n.splitval0 cur.e n.childID]) ++
                (if kNumStaticProperties ≤ n.prop1r then
                    [TreeRange.mk n.splitval1r n.splitval0 (n.childID + 2),
                     TreeRange.mk cur.b n.splitval1r (n.childID + 3)]
                  else [TreeRange.mk cur.b n.splitval0 (n.childID + 2)])).reverse
                ++ stack) c : EncResult) from rfl] at h
  by_cases hbc : cur.b < -kWPPropRange - 1 ∨ cur.b ≥ kWPPropRange - 1 ∨
      cur.e > kWPPropRange - 1
  · rw [if_pos hbc] at h
    exact EncResult.noConfusion h
  · rw [if_neg hbc] at h
    refine ⟨hbc, ?_⟩
    cases ht : t[cur.pos]? with
    | none =>
      simp only [ht] at h
      exact EncResult.noConfusion h
    | some n =>
      simp only [ht] at h
      refine ⟨n, rfl, ?_⟩
      by_cases hleaf : n.property0 = -1
      · rw [if_pos hleaf] at h
        by_cases hoff : n.predictor_offset < -128 ∨
            127 < n.predictor_offset ∨ n.multiplier ≠ 1 ∨
            n.predictor_offset ≠ 0
        · rw [if_pos hoff] at h
          exact EncResult.noConfusion h
        · rw [if_neg hoff] at h
          exact Or.inl ⟨hleaf, hoff, h⟩
      · rw [if_neg hleaf] at h
        exact Or.inr ⟨hleaf, h⟩

/-- Parallel run of the two table compilers: whenever the encode-side
compiler succeeds on a stack, the decode-side compiler (on the
context-remapped tree) succeeds on the same stack, and every entry of its
multiplier/offset tables is either untouched or set to `(1, 0)` — because
the encode side only accepts leaves with multiplier 1 and offset 0. -/
theorem encBuild_to_decBuild {t : List FlatNode} (cmap : Nat → Nat) :
    ∀ {fuel : Nat} {stack : List TreeRange} {c0 c1 : Int → Nat},
      encBuild t fuel stack c0 = .ok c1 →
      ∀ (c : Int → Nat) (m o : Int → Int),
        ∃ c2 m2 o2,
          decBuild (remapTree cmap t) fuel stack c m o = .ok c2 m2 o2 ∧
          ∀ p, (m2 p = m p ∧ o2 p = o p) ∨ (m2 p = 1 ∧ o2 p = 0) := by
  intro fuel
  induction fuel with
  | zero =>
    intro stack c0 c1 h c m o
    cases stack with
    | nil => exact ⟨c, m, o, rfl, fun p => Or.inl ⟨rfl, rfl⟩⟩
    | cons cur rest =>
      rw [show encBuild t 0 (cur :: rest) c0 = .stuck from rfl] at h
      exact EncResult.noConfusion h
  | succ fuel ih =>
    intro stack c0 c1 h c m o
    cases stack with
    | nil => exact ⟨c, m, o, rfl, fun p => Or.inl ⟨rfl, rfl⟩⟩
    | cons cur rest =>
      obtain ⟨hbc, n, ht, hcase⟩ := encBuild_cons_ok h
      have htd : (remapTree cmap t)[cur.pos]? = some (remapLeaf cmap n) := by
        rw [show (remapTree cmap t)[cur.pos]? =
          (t[cur.pos]?).map (remapLeaf cmap) from
          List.getElem?_map _ t cur.pos, ht]
        rfl
      have hred : decBuild (remapTree cmap t) (fuel + 1) (cur :: rest)
          c m o =
          (if cur.b < -kWPPropRange - 1 ∨ cur.b ≥ kWPPropRange - 1 ∨
              cur.e > kWPPropRange - 1 then
            .abandoned
          else
            match (remapTree cmap t)[cur.pos]? with
            | none => .stuck
            | some n =>
              if n.property0 = -1 then
                if n.predictor_offset < -128 ∨ 127 < n.predictor_offset then
                  .abandoned
                else
                  decBuild (remapTree cmap t) fuel rest
                    (fun i => if cur.b < i ∧ i ≤ cur.e then n.childID
                      else c i)
                    (fun i => if cur.b < i ∧ i ≤ cur.e then
                      wrap32 n.multiplier else m i)
                    (fun i => if cur.b < i ∧ i ≤ cur.e then n.predictor_offset
                      else o i)
              else
                decBuild (remapTree cmap t) fuel
                  (((if kNumStaticProperties ≤ n.prop1l then
                        [TreeRange.mk n.splitval1l cur.e n.childID,
                         TreeRange.mk n.splitval0 n.splitval1l (n.childID + 1)]
                      else [TreeRange.mk n.splitval0 cur.e n.childID]) ++
                    (if kNumStaticProperties ≤ n.prop1r then
                        [TreeRange.mk n.splitval1r n.splitval0 (n.childID + 2),
                         TreeRange.mk cur.b n.splitval1r (n.childID + 3)]
                      else [TreeRange.mk cur.b n.splitval0
                        (n.childID + 2)])).reverse
                    ++ rest) c m o : WPResult) := rfl
      cases hcase with
      | inl hl =>
        obtain ⟨hp0, hok, hrec⟩ := hl
        have hmult : n.multiplier = 1 := by
          by_contra hc
          exact hok (Or.inr (Or.inr (Or.inl hc)))
        have hoffz : n.predictor_offset = 0 := by
          by_contra hc
          exact hok (Or.inr (Or.inr (Or.inr hc)))
        have hoffb : ¬(n.predictor_offset < -128 ∨
            127 < n.predictor_offset) := by
          intro hc
          exact hc.elim (fun a => hok (Or.inl a))
            (fun a => hok (Or.inr (Or.inl a)))
        have hfields := remapLeaf_fields cmap n
        obtain ⟨c2, m2, o2, hdec, hrel⟩ := ih hrec
          (fun i => if cur.b < i ∧ i ≤ cur.e then (remapLeaf cmap n).childID
            else c i)
          (fun i => if cur.b < i ∧ i ≤ cur.e then
            wrap32 (remapLeaf cmap n).multiplier else m i)
          (fun i => if cur.b < i ∧ i ≤ cur.e then
            (remapLeaf cmap n).predictor_offset else o i)
        refine ⟨c2, m2, o2, ?_, ?_⟩
        · rw [hred, if_neg hbc]
          simp only [htd]
          rw [if_pos (hfields.1.trans hp0)]
          rw [if_neg (by rw [hfields.2.2.2]; exact hoffb)]
          exact hdec
        · intro p
          rcases hrel p with h1 | h1
          · by_cases hin : cur.b < p ∧ p ≤ cur.e
            · refine Or.inr ⟨?_, ?_⟩
              · rw [h1.1, if_pos hin, hfields.2.2.1, hmult]
                decide
              · rw [h1.2, if_pos hin, hfields.2.2.2, hoffz]
            · exact Or.inl ⟨by rw [h1.1, if_neg hin],
                by rw [h1.2, if_neg hin]⟩
          · exact Or.inr h1
      | inr hd =>
        obtain ⟨hp0, hrec⟩ := hd
        have hdn : remapLeaf cmap n = n := by
          unfold remapLeaf
          rw [if_neg hp0]
        obtain ⟨c2, m2, o2, hdec, hrel⟩ := ih hrec c m o
        refine ⟨c2, m2, o2, ?_, hrel⟩
        rw [hred, if_neg hbc]
        simp only [htd, hdn]
        rw [if_neg hp0]
        exact hdec

def inRange (r : TreeRange) (p : Int) : Prop := r.b < p ∧ p ≤ r.e

def covers (st : List TreeRange) (p : Int) : Prop := ∃ r ∈ st, inRange r p

def disjRange (r1 r2 : TreeRange) : Prop :=
  ∀ p, inRange r1 p → ¬ inRange r2 p

theorem disjRange_symm {r1 r2 : TreeRange} (h : disjRange r1 r2) :
    disjRange r2 r1 := fun p h2 h1 => h p h1 h2

/-- The conclusion of the table-compiler invariant for one property value:
covered values agree with general traversal from the root, uncovered values
leave the tables untouched. -/
def BuildConcl (t : List FlatNode) (stack : List TreeRange)
    (c : Int → Nat) (m o : Int → Int) (c' : Int → Nat) (m' o' : Int → Int)
    (p : Int) : Prop :=
  (covers stack p → ∀ props : Int → Int, props kWPProp = p →
    ∃ mult : Nat, lookupE t props 0 (c' p, mult, o' p) ∧
      m' p = wrap32 mult) ∧
  (¬ covers stack p → c' p = c p ∧ m' p = m p ∧ o' p = o p)

/-- Generic decision step of the invariant proof: given the two side packages
(the ranges pushed for the `>` side `gtL` and the `≤` side `leL`, with their
well-formedness, traversal-transfer, pairwise-disjointness, coverage and
containment facts) and the induction hypothesis for the smaller fuel, the
conclusion holds for the popped range `cur`. -/
theorem decBuild_decision_step {t : List FlatNode} {fuel : Nat}
    {cur : TreeRange} {stack : List TreeRange} {c : Int → Nat}
    {m o : Int → Int} {c' : Int → Nat} {m' o' : Int → Int}
    {gtL leL : List TreeRange} {mid : Int}
    (IH : ∀ {stack : List TreeRange} {c : Int → Nat} {m o : Int → Int}
        {c' : Int → Nat} {m' o' : Int → Int},
      decBuild t fuel stack c m o = .ok c' m' o' →
      List.Pairwise disjRange stack →
      (∀ r ∈ stack, ∃ fw, wpTreeOk t fw r.b r.e r.pos = true) →
      (∀ r ∈ stack, ∀ p, inRange r p → ∀ props : Int → Int, props kWPProp = p →
        ∀ res, lookupE t props r.pos res → lookupE t props 0 res) →
      ∀ p : Int, BuildConcl t stack c m o c' m' o' p)
    (h : decBuild t fuel ((gtL ++ leL).reverse ++ stack) c m o = .ok c' m' o')
    (hwpGt : ∀ r ∈ gtL, ∃ fw, wpTreeOk t fw r.b r.e r.pos = true)
    (htrGt : ∀ r ∈ gtL, ∀ p, inRange r p → ∀ props : Int → Int,
      props kWPProp = p → ∀ res, lookupE t props r.pos res →
      lookupE t props cur.pos res)
    (hpwGt : List.Pairwise disjRange gtL)
    (hcovGt : ∀ p, mid < p → p ≤ cur.e → covers gtL p)
    (hsubGt : ∀ r ∈ gtL, ∀ p, inRange r p → mid < p ∧ p ≤ cur.e)
    (hwpLe : ∀ r ∈ leL, ∃ fw, wpTreeOk t fw r.b r.e r.pos = true)
    (htrLe : ∀ r ∈ leL, ∀ p, inRange r p → ∀ props : Int → Int,
      props kWPProp = p → ∀ res, lookupE t props r.pos res →
      lookupE t props cur.pos res)
    (hpwLe : List.Pairwise disjRange leL)
    (hcovLe : ∀ p, cur.b < p → p ≤ mid → covers leL p)
    (hsubLe : ∀ r ∈ leL, ∀ p, inRange r p → cur.b < p ∧ p ≤ mid)
    (hmid1 : cur.b ≤ mid) (hmid2 : mid ≤ cur.e)
    (hdisjS : List.Pairwise disjRange (cur :: stack))
    (hwpS : ∀ r ∈ stack, ∃ fw, wpTreeOk t fw r.b r.e r.pos = true)
    (hinvS : ∀ r ∈ cur :: stack, ∀ p, inRange r p → ∀ props : Int → Int,
      props kWPProp = p → ∀ res, lookupE t props r.pos res →
      lookupE t props 0 res) :
    ∀ p : Int, BuildConcl t (cur :: stack) c m o c' m' o' p := by
  obtain ⟨hheadDisj, htailPw⟩ := List.pairwise_cons.mp hdisjS
  have hsubL : ∀ r, r ∈ (gtL ++ leL).reverse → ∀ p, inRange r p →
      inRange cur p := by
    intro r hr p hp
    rw [List.mem_reverse, List.mem_append] at hr
    rcases hr with hr | hr
    · have := hsubGt r hr p hp
      exact ⟨by omega, this.2⟩
    · have := hsubLe r hr p hp
      exact ⟨this.1, by omega⟩
  have hdisj' : List.Pairwise disjRange ((gtL ++ leL).reverse ++ stack) := by
    rw [List.pairwise_append]
    refine ⟨?_, htailPw, ?_⟩
    · rw [List.pairwise_reverse]
      rw [List.pairwise_append]
      refine ⟨List.Pairwise.imp (fun hab => disjRange_symm hab) hpwGt,
        List.Pairwise.imp (fun hab => disjRange_symm hab) hpwLe, ?_⟩
      intro a ha b2 hb p hpb hpa
      have h1 := hsubGt a ha p hpa
      have h2 := hsubLe b2 hb p hpb
      omega
    · intro a ha r2 hr2 p hpa
      exact hheadDisj r2 hr2 p (hsubL a ha p hpa)
  have hwp' : ∀ r ∈ (gtL ++ leL).reverse ++ stack,
      ∃ fw, wpTreeOk t fw r.b r.e r.pos = true := by
    intro r hr
    rw [List.mem_append, List.mem_reverse, List.mem_append] at hr
    rcases hr with (hr | hr) | hr
    · exact hwpGt r hr
    · exact hwpLe r hr
    · exact hwpS r hr
  have hinv' : ∀ r ∈ (gtL ++ leL).reverse ++ stack, ∀ p, inRange r p →
      ∀ props : Int → Int, props kWPProp = p → ∀ res,
      lookupE t props r.pos res → lookupE t props 0 res := by
    intro r hr p hp props hprops res hres
    rw [List.mem_append] at hr
    rcases hr with hr | hr
    · have hcur : inRange cur p := hsubL r hr p hp
      have hcp : lookupE t props cur.pos res := by
        rw [List.mem_reverse, List.mem_append] at hr
        rcases hr with hr | hr
        · exact htrGt r hr p hp props hprops res hres
        · exact htrLe r hr p hp props hprops res hres
      exact hinvS cur (List.mem_cons_self cur stack) p hcur props hprops res hcp
    · exact hinvS r (List.mem_cons_of_mem cur hr) p hp props hprops res hres
  have IHp := IH h hdisj' hwp' hinv'
  intro p
  constructor
  · intro hcov props hprops
    obtain ⟨r, hr, hrp⟩ := hcov
    rcases List.mem_cons.mp hr with rfl | hr
    · have hcov' : covers ((gtL ++ leL).reverse ++ stack) p := by
        by_cases hpm : mid < p
        · obtain ⟨r2, hr2, hrp2⟩ := hcovGt p hpm hrp.2
          exact ⟨r2, List.mem_append_left _ (List.mem_reverse.mpr
            (List.mem_append_left _ hr2)), hrp2⟩
        · obtain ⟨r2, hr2, hrp2⟩ := hcovLe p hrp.1 (by omega)
          exact ⟨r2, List.mem_append_left _ (List.mem_reverse.mpr
            (List.mem_append_right _ hr2)), hrp2⟩
      exact (IHp p).1 hcov' props hprops
    · exact (IHp p).1 ⟨r, List.mem_append_right _ hr, hrp⟩ props hprops
  · intro hncov
    have hncov' : ¬ covers ((gtL ++ leL).reverse ++ stack) p := by
      rintro ⟨r, hr, hrp⟩
      rw [List.mem_append] at hr
      rcases hr with hr | hr
      · exact hncov ⟨cur, List.mem_cons_self cur stack, hsubL r hr p hrp⟩
      · exact hncov ⟨r, List.mem_cons_of_mem cur hr, hrp⟩
    exact (IHp p).2 hncov'

theorem decBuild_inv {t : List FlatNode} :
    ∀ {fuel : Nat} {stack : List TreeRange} {c : Int → Nat} {m o : Int → Int}
      {c' : Int → Nat} {m' o' : Int → Int},
      decBuild t fuel stack c m o = .ok c' m' o' →
      List.Pairwise disjRange stack →
      (∀ r ∈ stack, ∃ fw, wpTreeOk t fw r.b r.e r.pos = true) →
      (∀ r ∈ stack, ∀ p, inRange r p → ∀ props : Int → Int,
        props kWPProp = p → ∀ res, lookupE t props r.pos res →
        lookupE t props 0 res) →
      ∀ p : Int, BuildConcl t stack c m o c' m' o' p := by
  intro fuel
  induction fuel with
  | zero =>
    intro stack c m o c' m' o' h hdisj hwp hinv p
    cases stack with
    | nil =>
      rw [show decBuild t 0 [] c m o = .ok c m o from rfl] at h
      injection h with h1 h2 h3
      constructor
      · rintro ⟨r, hr, _⟩
        cases hr
      · intro _
        exact ⟨(congrFun h1 p).symm, (congrFun h2 p).symm,
          (congrFun h3 p).symm⟩
    | cons cur rest =>
      rw [show decBuild t 0 (cur :: rest) c m o = .stuck from rfl] at h
      exact WPResult.noConfusion h
  | succ fuel ih =>
    intro stack c m o c' m' o' h hdisj hwp hinv p
    cases stack with
    | nil =>
      rw [show decBuild t (fuel + 1) [] c m o = .ok c m o from rfl] at h
      injection h with h1 h2 h3
      constructor
      · rintro ⟨r, hr, _⟩
        cases hr
      · intro _
        exact ⟨(congrFun h1 p).symm, (congrFun h2 p).symm,
          (congrFun h3 p).symm⟩
    | cons cur rest =>
      obtain ⟨hbc, n, ht, hcase⟩ := decBuild_cons_ok h
      obtain ⟨fw, hfw⟩ := hwp cur (List.mem_cons_self cur rest)
      cases fw with
      | zero => rw [wpTreeOk] at hfw; exact Bool.noConfusion hfw
      | succ fw =>
        obtain ⟨n2, ht2, hstruct⟩ := wpTreeOk_inv hfw
        rw [ht] at ht2
        injection ht2 with he
        subst he
        rcases hcase with ⟨hleaf, hoff, hrec⟩ | ⟨hnl, hrec⟩
        · have htailPw := (List.pairwise_cons.mp hdisj).2
          have hwpT : ∀ r ∈ rest, ∃ fw2, wpTreeOk t fw2 r.b r.e r.pos = true :=
            fun r hr => hwp r (List.mem_cons_of_mem _ hr)
          have hinvT : ∀ r ∈ rest, ∀ p2, inRange r p2 → ∀ props : Int → Int,
              props kWPProp = p2 → ∀ res, lookupE t props r.pos res →
              lookupE t props 0 res :=
            fun r hr => hinv r (List.mem_cons_of_mem _ hr)
          have IHp := ih hrec htailPw hwpT hinvT
          constructor
          · intro hcov props hprops
            obtain ⟨r, hr, hrp⟩ := hcov
            rcases List.mem_cons.mp hr with rfl | hr
            · have hncovR : ¬ covers rest p := by
                rintro ⟨r2, hr2, hrp2⟩
                exact (List.pairwise_cons.mp hdisj).1 r2 hr2 p hrp hrp2
              obtain ⟨hc1, hm1, ho1⟩ := (IHp p).2 hncovR
              have hrp2 : r.b < p ∧ p ≤ r.e := hrp
              have hcval : c' p = n.childID := by
                rw [hc1]
                show (if r.b < p ∧ p ≤ r.e then n.childID else c p) = n.childID
                exact if_pos hrp2
              have hmval : m' p = wrap32 n.multiplier := by
                rw [hm1]
                show (if r.b < p ∧ p ≤ r.e then wrap32 n.multiplier else m p) =
                  wrap32 n.multiplier
                exact if_pos hrp2
              have hoval : o' p = n.predictor_offset := by
                rw [ho1]
                show (if r.b < p ∧ p ≤ r.e then n.predictor_offset else o p) =
                  n.predictor_offset
                exact if_pos hrp2
              have hres := @lookupE_of_leaf t props r.pos n ht hleaf
              have hroot := hinv r (List.mem_cons_self r rest) p hrp props
                hprops _ hres
              refine ⟨n.multiplier, ?_, hmval⟩
              rw [hcval, hoval]
              exact hroot
            · exact (IHp p).1 ⟨r, hr, hrp⟩ props hprops
          · intro hncov
            have hncovR : ¬ covers rest p := by
              rintro ⟨r2, hr2, hrp2⟩
              exact hncov ⟨r2, List.mem_cons_of_mem _ hr2, hrp2⟩
            obtain ⟨hc1, hm1, ho1⟩ := (IHp p).2 hncovR
            have hnp : ¬ (cur.b < p ∧ p ≤ cur.e) := fun hp =>
              hncov ⟨cur, List.mem_cons_self cur rest, hp⟩
            refine ⟨?_, ?_, ?_⟩
            · rw [hc1]
              show (if cur.b < p ∧ p ≤ cur.e then n.childID else c p) = c p
              exact if_neg hnp
            · rw [hm1]
              show (if cur.b < p ∧ p ≤ cur.e then wrap32 n.multiplier
                else m p) = m p
              exact if_neg hnp
            · rw [ho1]
              show (if cur.b < p ∧ p ≤ cur.e then n.predictor_offset else o p) =
                o p
              exact if_neg hnp
        · rcases hstruct with hleaf2 | ⟨hp0, hb1, hb2, hgtSide, hleSide⟩
          · exact absurd hleaf2 hnl
          have hwpT : ∀ r ∈ rest, ∃ fw2, wpTreeOk t fw2 r.b r.e r.pos = true :=
            fun r hr => hwp r (List.mem_cons_of_mem _ hr)
          rcases hgtSide with ⟨hlge, hlwp, hl1, hl2, hok1, hok2⟩ |
              ⟨hlnge, hldum⟩ <;>
            rcases hleSide with ⟨hrge, hrwp, hr1, hr2, hok3, hok4⟩ |
              ⟨hrnge, hrdum⟩
          · rw [if_pos hlge, if_pos hrge] at hrec
            refine decBuild_decision_step ih hrec ?_ ?_ ?_ ?_ ?_ ?_ ?_ ?_ ?_ ?_
              hb1 hb2 hdisj hwpT hinv p
            · intro r hr
              rcases List.mem_cons.mp hr with rfl | hr
              · exact ⟨fw, hok1⟩
              · rcases List.mem_singleton.mp hr with rfl
                exact ⟨fw, hok2⟩
            · intro r hr p2 hp2 props hprops res hres
              rcases List.mem_cons.mp hr with rfl | hr
              · exact lookupE_childA ht hp0 hlwp hprops hl1 hp2.1 hres
              · rcases List.mem_singleton.mp hr with rfl
                exact lookupE_childB ht hp0 hlwp hprops hp2.1 hp2.2 hres
            · refine List.pairwise_cons.mpr ⟨?_, List.pairwise_singleton _ _⟩
              intro r hr
              rcases List.mem_singleton.mp hr with rfl
              intro p2 hp2 hq2
              dsimp only [inRange] at hp2 hq2
              omega
            · intro p2 h1 h2
              by_cases hc : n.splitval1l < p2
              · exact ⟨_, List.mem_cons_self _ _, ⟨hc, h2⟩⟩
              · exact ⟨_, List.mem_cons_of_mem _ (List.mem_singleton.mpr rfl),
                  ⟨h1, by dsimp only; omega⟩⟩
            · intro r hr p2 hp2
              rcases List.mem_cons.mp hr with rfl | hr
              · dsimp only [inRange] at hp2
                exact ⟨by omega, hp2.2⟩
              · rcases List.mem_singleton.mp hr with rfl
                dsimp only [inRange] at hp2
                exact ⟨hp2.1, by omega⟩
            · intro r hr
              rcases List.mem_cons.mp hr with rfl | hr
              · exact ⟨fw, hok3⟩
              · rcases List.mem_singleton.mp hr with rfl
                exact ⟨fw, hok4⟩
            · intro r hr p2 hp2 props hprops res hres
              rcases List.mem_cons.mp hr with rfl | hr
              · exact lookupE_childC ht hp0 hrwp hprops hp2.2 hp2.1 hres
              · rcases List.mem_singleton.mp hr with rfl
                exact lookupE_childD ht hp0 hrwp hprops (by
                  dsimp only [inRange] at hp2
                  omega) hp2.2 hres
            · refine List.pairwise_cons.mpr ⟨?_, List.pairwise_singleton _ _⟩
              intro r hr
              rcases List.mem_singleton.mp hr with rfl
              intro p2 hp2 hq2
              dsimp only [inRange] at hp2 hq2
              omega
            · intro p2 h1 h2
              by_cases hc : n.splitval1r < p2
              · exact ⟨_, List.mem_cons_self _ _, ⟨hc, h2⟩⟩
              · exact ⟨_, List.mem_cons_of_mem _ (List.mem_singleton.mpr rfl),
                  ⟨h1, by dsimp only; omega⟩⟩
            · intro r hr p2 hp2
              rcases List.mem_cons.mp hr with rfl | hr
              · dsimp only [inRange] at hp2
                exact ⟨by omega, hp2.2⟩
              · rcases List.mem_singleton.mp hr with rfl
                dsimp only [inRange] at hp2
                exact ⟨hp2.1, by omega⟩
          · rw [if_pos hlge, if_neg hrnge] at hrec
            refine decBuild_decision_step ih hrec ?_ ?_ ?_ ?_ ?_ ?_ ?_ ?_ ?_ ?_
              hb1 hb2 hdisj hwpT hinv p
            · intro r hr
              rcases List.mem_cons.mp hr with rfl | hr
              · exact ⟨fw, hok1⟩
              · rcases List.mem_singleton.mp hr with rfl
                exact ⟨fw, hok2⟩
            · intro r hr p2 hp2 props hprops res hres
              rcases List.mem_cons.mp hr with rfl | hr
              · exact lookupE_childA ht hp0 hlwp hprops hl1 hp2.1 hres
              · rcases List.mem_singleton.mp hr with rfl
                exact lookupE_childB ht hp0 hlwp hprops hp2.1 hp2.2 hres
            · refine List.pairwise_cons.mpr ⟨?_, List.pairwise_singleton _ _⟩
              intro r hr
              rcases List.mem_singleton.mp hr with rfl
              intro p2 hp2 hq2
              dsimp only [inRange] at hp2 hq2
              omega
            · intro p2 h1 h2
              by_cases hc : n.splitval1l < p2
              · exact ⟨_, List.mem_cons_self _ _, ⟨hc, h2⟩⟩
              · exact ⟨_, List.mem_cons_of_mem _ (List.mem_singleton.mpr rfl),
                  ⟨h1, by dsimp only; omega⟩⟩
            · intro r hr p2 hp2
              rcases List.mem_cons.mp hr with rfl | hr
              · dsimp only [inRange] at hp2
                exact ⟨by omega, hp2.2⟩
              · rcases List.mem_singleton.mp hr with rfl
                dsimp only [inRange] at hp2
                exact ⟨hp2.1, by omega⟩
            · intro r hr
              rcases List.mem_singleton.mp hr with rfl
              obtain ⟨a, h1, h2, hl⟩ := dummyPair_inv hrdum
              exact ⟨1, wpTreeOk_leaf h1 hl⟩
            · intro r hr p2 hp2 props hprops res hres
              rcases List.mem_singleton.mp hr with rfl
              exact lookupE_childC' ht hp0 hrdum hprops hp2.2 hres
            · exact List.pairwise_singleton _ _
            · intro p2 h1 h2
              exact ⟨_, List.mem_singleton.mpr rfl, ⟨h1, h2⟩⟩
            · intro r hr p2 hp2
              rcases List.mem_singleton.mp hr with rfl
              exact hp2
          · rw [if_neg hlnge, if_pos hrge] at hrec
            refine decBuild_decision_step ih hrec ?_ ?_ ?_ ?_ ?_ ?_ ?_ ?_ ?_ ?_
              hb1 hb2 hdisj hwpT hinv p
            · intro r hr
              rcases List.mem_singleton.mp hr with rfl
              obtain ⟨a, h1, h2, hl⟩ := dummyPair_inv hldum
              exact ⟨1, wpTreeOk_leaf h1 hl⟩
            · intro r hr p2 hp2 props hprops res hres
              rcases List.mem_singleton.mp hr with rfl
              exact lookupE_childA' ht hp0 hldum hprops hp2.1 hres
            · exact List.pairwise_singleton _ _
            · intro p2 h1 h2
              exact ⟨_, List.mem_singleton.mpr rfl, ⟨h1, h2⟩⟩
            · intro r hr p2 hp2
              rcases List.mem_singleton.mp hr with rfl
              exact hp2
            · intro r hr
              rcases List.mem_cons.mp hr with rfl | hr
              · exact ⟨fw, hok3⟩
              · rcases List.mem_singleton.mp hr with rfl
                exact ⟨fw, hok4⟩
            · intro r hr p2 hp2 props hprops res hres
              rcases List.mem_cons.mp hr with rfl | hr
              · exact lookupE_childC ht hp0 hrwp hprops hp2.2 hp2.1 hres
              · rcases List.mem_singleton.mp hr with rfl
                exact lookupE_childD ht hp0 hrwp hprops (by
                  dsimp only [inRange] at hp2
                  omega) hp2.2 hres
            · refine List.pairwise_cons.mpr ⟨?_, List.pairwise_singleton _ _⟩
              intro r hr
              rcases List.mem_singleton.mp hr with rfl
              intro p2 hp2 hq2
              dsimp only [inRange] at hp2 hq2
              omega
            · intro p2 h1 h2
              by_cases hc : n.splitval1r < p2
              · exact ⟨_, List.mem_cons_self _ _, ⟨hc, h2⟩⟩
              · exact ⟨_, List.mem_cons_of_mem _ (List.mem_singleton.mpr rfl),
                  ⟨h1, by dsimp only; omega⟩⟩
            · intro r hr p2 hp2
              rcases List.mem_cons.mp hr with rfl | hr
              · dsimp only [inRange] at hp2
                exact ⟨by omega, hp2.2⟩
              · rcases List.mem_singleton.mp hr with rfl
                dsimp only [inRange] at hp2
                exact ⟨hp2.1, by omega⟩
          · rw [if_neg hlnge, if_neg hrnge] at hrec
            refine decBuild_decision_step ih hrec ?_ ?_ ?_ ?_ ?_ ?_ ?_ ?_ ?_ ?_
              hb1 hb2 hdisj hwpT hinv p
            · intro r hr
              rcases List.mem_singleton.mp hr with rfl
              obtain ⟨a, h1, h2, hl⟩ := dummyPair_inv hldum
              exact ⟨1, wpTreeOk_leaf h1 hl⟩
            · intro r hr p2 hp2 props hprops res hres
              rcases List.mem_singleton.mp hr with rfl
              exact lookupE_childA' ht hp0 hldum hprops hp2.1 hres
            · exact List.pairwise_singleton _ _
            · intro p2 h1 h2
              exact ⟨_, List.mem_singleton.mpr rfl, ⟨h1, h2⟩⟩
            · intro r hr p2 hp2
              rcases List.mem_singleton.mp hr with rfl
              exact hp2
            · intro r hr
              rcases List.mem_singleton.mp hr with rfl
              obtain ⟨a, h1, h2, hl⟩ := dummyPair_inv hrdum
              exact ⟨1, wpTreeOk_leaf h1 hl⟩
            · intro r hr p2 hp2 props hprops res hres
              rcases List.mem_singleton.mp hr with rfl
              exact lookupE_childC' ht hp0 hrdum hprops hp2.2 hres
            · exact List.pairwise_singleton _ _
            · intro p2 h1 h2
              exact ⟨_, List.mem_singleton.mpr rfl, ⟨h1, h2⟩⟩
            · intro r hr p2 hp2
              rcases List.mem_singleton.mp hr with rfl
              exact hp2

/-- C4 (amended): whenever the decode-side WP fast-path compilation succeeds
(it is abandoned exactly on a leaf offset outside the signed 8-bit range or a
failed range check; the encode side additionally insists on multiplier 1 and
offset 0) on a wp-only FlatTree whose split values are range-consistent
(`wpTreeOk`), the compiled lookup table agrees with general tree traversal
for every property value in `[-kWPPropRange, kWPPropRange - 1]` and every
property vector carrying that weighted-predictor property value: context and
offset exactly, and the multiplier entry is the traversal multiplier
narrowed to `int32_t` (`wrap32`, the `int32_t multipliers[]` store). -/
theorem wpFastPath_table_matches_lookup {t : List FlatNode} {fuel fw : Nat}
    {c : Int → Nat} {m o : Int → Int}
    (hwf : wpTreeOk t fw (-kWPPropRange - 1) (kWPPropRange - 1) 0 = true)
    (hbuild : decBuild t fuel rootRange (fun _ => 0) (fun _ => 0)
      (fun _ => 0) = .ok c m o)
    (p : Int) (hlo : -kWPPropRange ≤ p) (hhi : p ≤ kWPPropRange - 1)
    (props : Int → Int) (hp : props kWPProp = p) :
    ∃ mult tf, flatLookup t props tf 0 = some (c p, mult, o p) ∧
      m p = wrap32 mult := by
  have hdisj : List.Pairwise disjRange rootRange :=
    List.pairwise_singleton _ _
  have hwp : ∀ r ∈ rootRange, ∃ fw2, wpTreeOk t fw2 r.b r.e r.pos = true := by
    intro r hr
    rcases List.mem_singleton.mp hr with rfl
    exact ⟨fw, hwf⟩
  have hinv : ∀ r ∈ rootRange, ∀ p2, inRange r p2 → ∀ props2 : Int → Int,
      props2 kWPProp = p2 → ∀ res, lookupE t props2 r.pos res →
      lookupE t props2 0 res := by
    intro r hr p2 _ props2 _ res h
    rcases List.mem_singleton.mp hr with rfl
    exact h
  have hcov : covers rootRange p :=
    ⟨_, List.mem_singleton.mpr rfl,
      show -kWPPropRange - 1 < p ∧ p ≤ kWPPropRange - 1 from ⟨by omega, hhi⟩⟩
  obtain ⟨mult, ⟨tf, hflat⟩, hw⟩ :=
    (decBuild_inv hbuild hdisj hwp hinv p).1 hcov props hp
  exact ⟨mult, tf, hflat, hw⟩

/-- Source tree for the C4 witness: a consistent wp-only tree (root split 0,
`>` side split 10, `≤` side split -7, four weighted leaves). -/
def c4okSrc : List TreeNode :=
  [{ property := 15, splitval := 0, lchild := 1, rchild := 2 },
   { property := 15, splitval := 10, lchild := 3, rchild := 4 },
   { property := 15, splitval := -7, lchild := 5, rchild := 6 },
   { property := -1, lchild := 10, predictor := .Weighted },
   { property := -1, lchild := 11, predictor := .Weighted },
   { property := -1, lchild := 12, predictor := .Weighted },
   { property := -1, lchild := 13, predictor := .Weighted }]

def c4okTree : List FlatNode :=
  ((FilterTree c4okSrc (0, 0) 100).getD ([], 0, false, false)).1

def c4okBuild : WPResult :=
  decBuild c4okTree 100 rootRange (fun _ => 0) (fun _ => 0) (fun _ => 0)

/-- Witness for C4 at property value 11 (the `>`/`>` leaf, context 10). -/
theorem wpFastPath_table_matches_lookup_witness :
    ∃ mult tf, flatLookup c4okTree (fun _ => 11) tf 0 =
      some (c4okBuild.ctxTab 11, mult, c4okBuild.offTab 11) ∧
      c4okBuild.mulTab 11 = wrap32 mult :=
  @wpFastPath_table_matches_lookup c4okTree 100 5 c4okBuild.ctxTab
    c4okBuild.mulTab c4okBuild.offTab (by decide) rfl 11 (by decide)
    (by decide) (fun _ => 11) rfl

/-- Causal neighborhood of a pixel, with the boundary fallbacks of the
source's pixel loops (`left` falls back to the pixel above, then to 0 at the
origin; `top`/`topleft`/`topright`/`toptop` fall back as in the code). -/
structure Nbrs where
  left : Int
  top : Int
  topleft : Int
  topright : Int
  toptop : Int
  deriving DecidableEq, Repr

def nbrLeft (b : Nat → Nat → Int) (x y : Nat) : Int :=
  if x ≠ 0 then b y (x - 1) else if y ≠ 0 then b (y - 1) x else 0

def nbrTop (b : Nat → Nat → Int) (x y : Nat) : Int :=
  if y ≠ 0 then b (y - 1) x else nbrLeft b x y

def nbrTopLeft (b : Nat → Nat → Int) (x y : Nat) : Int :=
  if x ≠ 0 ∧ y ≠ 0 then b (y - 1) (x - 1) else nbrLeft b x y

def nbrTopRight (b : Nat → Nat → Int) (w x y : Nat) : Int :=
  if x + 1 < w ∧ y ≠ 0 then b (y - 1) (x + 1) else nbrTop b x y

def nbrTopTop (b : Nat → Nat → Int) (x y : Nat) : Int :=
  if 1 < y then b (y - 2) x else nbrTop b x y

/-- The neighbor loads of the per-pixel loops (encode lines around
`left = (x ? r[x-1] : y ? *(r+x-onerow) : 0)` and the identical decode
block). -/
def nbrs (b : Nat → Nat → Int) (w x y : Nat) : Nbrs :=
  ⟨nbrLeft b x y, nbrTop b x y, nbrTopLeft b x y, nbrTopRight b w x y,
    nbrTopTop b x y⟩

/-- Write one pixel of a buffer. -/
def upd (b : Nat → Nat → Int) (y x : Nat) (v : Int) : Nat → Nat → Int :=
  fun y' x' => if y' = y ∧ x' = x then v else b y' x'

/-- `d` agrees with `o` on every raster position strictly before `(y, x)`
(all earlier rows, and columns before `x` in row `y`), within width `w`. -/
def agreeUpTo (o d : Nat → Nat → Int) (w x y : Nat) : Prop :=
  ∀ y' x', x' < w → (y' < y ∨ (y' = y ∧ x' < x)) → d y' x' = o y' x'

theorem agreeUpTo_nbrs {o d : Nat → Nat → Int} {w x y : Nat} (hx : x < w)
    (h : agreeUpTo o d w x y) : nbrs d w x y = nbrs o w x y := by
  have hleft : nbrLeft d x y = nbrLeft o x y := by
    unfold nbrLeft
    split
    · next hx0 => exact h y (x - 1) (by omega) (by omega)
    · split
      · next hx0 hy0 => exact h (y - 1) x (by omega) (by omega)
      · rfl
  have htop : nbrTop d x y = nbrTop o x y := by
    unfold nbrTop
    split
    · next hy0 => exact h (y - 1) x (by omega) (by omega)
    · exact hleft
  have htl : nbrTopLeft d x y = nbrTopLeft o x y := by
    unfold nbrTopLeft
    split
    · next hc => exact h (y - 1) (x - 1) (by omega) (by omega)
    · exact hleft
  have htr : nbrTopRight d w x y = nbrTopRight o w x y := by
    unfold nbrTopRight
    split
    · next hc => exact h (y - 1) (x + 1) (by omega) (by omega)
    · exact htop
  have htt : nbrTopTop d x y = nbrTopTop o x y := by
    unfold nbrTopTop
    split
    · next hc => exact h (y - 2) x (by omega) (by omega)
    · exact htop
  unfold nbrs
  rw [hleft, htop, htl, htr, htt]

theorem agreeUpTo_upd {o d : Nat → Nat → Int} {w x y : Nat} {v : Int}
    (h : agreeUpTo o d w x y) (hval : v = o y x) :
    agreeUpTo o (upd d y x v) w (x + 1) y := by
  intro y' x' hx' hlt
  unfold upd
  split
  · next hc =>
    obtain ⟨rfl, rfl⟩ := hc
    exact hval
  · next hc =>
    apply h y' x' hx'
    rcases hlt with h1 | ⟨rfl, h2⟩
    · exact Or.inl h1
    · right
      exact ⟨rfl, by omega⟩

theorem agreeUpTo_rowEnd {o d : Nat → Nat → Int} {w y : Nat}
    (h : agreeUpTo o d w w y) : agreeUpTo o d w 0 (y + 1) := by
  intro y' x' hx' hlt
  exact h y' x' hx' (by omega)

/-- Inner (column) loop of an encode track: processes columns
`x, x+1, …, x+xr-1` of row `y`, emitting one `(context, packed value)` token
per pixel and threading the track state. -/
def encRow {σ : Type} (enc : Nat → Nat → σ → Option ((Nat × Nat) × σ))
    (y : Nat) : Nat → Nat → σ → Option (List (Nat × Nat) × σ)
  | _, 0, s => some ([], s)
  | x, xr + 1, s => do
    let (tok, s') ← enc x y s
    let (ts, s'') ← encRow enc y (x + 1) xr s'
    pure (tok :: ts, s'')

/-- Outer (row) loop of an encode track. -/
def encImg {σ : Type} (enc : Nat → Nat → σ → Option ((Nat × Nat) × σ))
    (w : Nat) : Nat → Nat → σ → Option (List (Nat × Nat) × σ)
  | _, 0, s => some ([], s)
  | y, yr + 1, s => do
    let (ts1, s') ← encRow enc y 0 w s
    let (ts2, s'') ← encImg enc w (y + 1) yr s'
    pure (ts1 ++ ts2, s'')

/-- Inner (column) loop of a decode track: consumes one token value per
pixel, writes the reconstructed pixel, and threads the track state. -/
def decRow {σ : Type}
    (dec : (Nat → Nat → Int) → Nat → Nat → Nat → σ → Option (Int × σ))
    (y : Nat) : Nat → Nat → List Nat → (Nat → Nat → Int) → σ →
    Option ((Nat → Nat → Int) × σ × List Nat)
  | _, 0, vs, b, s => some (b, s, vs)
  | x, xr + 1, vs, b, s => do
    let v ← vs.head?
    let (pix, s') ← dec b x y v s
    decRow dec y (x + 1) xr vs.tail (upd b y x pix) s'

/-- Outer (row) loop of a decode track. -/
def decImg {σ : Type}
    (dec : (Nat → Nat → Int) → Nat → Nat → Nat → σ → Option (Int × σ))
    (w : Nat) : Nat → Nat → List Nat → (Nat → Nat → Int) → σ →
    Option ((Nat → Nat → Int) × σ × List Nat)
  | _, 0, vs, b, s => some (b, s, vs)
  | y, yr + 1, vs, b, s => do
    let (b', s', vs') ← decRow dec y 0 w vs b s
    decImg dec w (y + 1) yr vs' b' s'

/-- Generic per-row round-trip: if at every processed pixel the decode step
inverts the encode step (given causal agreement and equal states), then
decoding the encoded row extends the agreement to the end of the row. -/
theorem decRow_roundtrip {σ : Type} {o : Nat → Nat → Int} {w y : Nat}
    {enc : Nat → Nat → σ → Option ((Nat × Nat) × σ)}
    {dec : (Nat → Nat → Int) → Nat → Nat → Nat → σ → Option (Int × σ)}
    (H : ∀ x, x < w → ∀ s d, agreeUpTo o d w x y →
      ∀ tok s', enc x y s = some (tok, s') →
        dec d x y tok.2 s = some (o y x, s')) :
    ∀ xr x s d ts s2 rest, x + xr ≤ w →
      agreeUpTo o d w x y →
      encRow enc y x xr s = some (ts, s2) →
      ∃ d', decRow dec y x xr (ts.map Prod.snd ++ rest) d s =
          some (d', s2, rest) ∧ agreeUpTo o d' w (x + xr) y := by
  intro xr
  induction xr with
  | zero =>
    intro x s d ts s2 rest hxw hagree henc
    rw [show encRow (σ := σ) enc y x 0 s = some ([], s) from rfl] at henc
    simp only [Option.some.injEq, Prod.mk.injEq] at henc
    obtain ⟨rfl, rfl⟩ := henc
    exact ⟨d, rfl, by simpa using hagree⟩
  | succ xr ih =>
    intro x s d ts s2 rest hxw hagree henc
    rw [show encRow (σ := σ) enc y x (xr + 1) s = (do
        let (tok, s') ← enc x y s
        let (ts, s'') ← encRow enc y (x + 1) xr s'
        pure (tok :: ts, s'')) from rfl] at henc
    cases he : enc x y s with
    | none => rw [he] at henc; exact Option.noConfusion henc
    | some ps =>
      rw [he] at henc
      obtain ⟨tok, s'⟩ := ps
      simp only [Option.bind_eq_bind, Option.some_bind] at henc
      cases hrow : encRow enc y (x + 1) xr s' with
      | none => rw [hrow] at henc; exact Option.noConfusion henc
      | some ps2 =>
        rw [hrow] at henc
        obtain ⟨ts2, s''⟩ := ps2
        simp only [Option.some_bind, pure, Option.some.injEq,
          Prod.mk.injEq] at henc
        obtain ⟨rfl, rfl⟩ := henc
        have hdecpix := H x (by omega) s d hagree tok s' he
        have hagree' : agreeUpTo o (upd d y x (o y x)) w (x + 1) y :=
          agreeUpTo_upd hagree rfl
        obtain ⟨d', hdec, hagree''⟩ :=
          ih (x + 1) s' (upd d y x (o y x)) ts2 s'' rest (by omega) hagree' hrow
        refine ⟨d', ?_, by
          have : x + 1 + xr = x + (xr + 1) := by omega
          rwa [this] at hagree''⟩
        rw [show decRow (σ := σ) dec y x (xr + 1)
            ((tok :: ts2).map Prod.snd ++ rest) d s = (do
          let v ← ((tok :: ts2).map Prod.snd ++ rest).head?
          let (pix, s') ← dec d x y v s
          decRow dec y (x + 1) xr ((tok :: ts2).map Prod.snd ++ rest).tail
            (upd d y x pix) s') from rfl]
        simp only [List.map_cons, List.cons_append, List.head?_cons,
          List.tail_cons, Option.bind_eq_bind, Option.some_bind]
        rw [hdecpix]
        simp only [Option.some_bind]
        exact hdec

/-- Generic whole-image round-trip over the row loops. -/
theorem decImg_roundtrip {σ : Type} {o : Nat → Nat → Int} {w : Nat}
    {enc : Nat → Nat → σ → Option ((Nat × Nat) × σ)}
    {dec : (Nat → Nat → Int) → Nat → Nat → Nat → σ → Option (Int × σ)}
    {h : Nat}
    (H : ∀ x y, x < w → y < h → ∀ s d, agreeUpTo o d w x y →
      ∀ tok s', enc x y s = some (tok, s') →
        dec d x y tok.2 s = some (o y x, s')) :
    ∀ yr y s d ts s2 rest, y + yr ≤ h →
      agreeUpTo o d w 0 y →
      encImg enc w y yr s = some (ts, s2) →
      ∃ d', decImg dec w y yr (ts.map Prod.snd ++ rest) d s =
          some (d', s2, rest) ∧ agreeUpTo o d' w 0 (y + yr) := by
  intro yr
  induction yr with
  | zero =>
    intro y s d ts s2 rest hyh hagree henc
    rw [show encImg (σ := σ) enc w y 0 s = some ([], s) from rfl] at henc
    simp only [Option.some.injEq, Prod.mk.injEq] at henc
    obtain ⟨rfl, rfl⟩ := henc
    exact ⟨d, rfl, by simpa using hagree⟩
  | succ yr ih =>
    intro y s d ts s2 rest hyh hagree henc
    rw [show encImg (σ := σ) enc w y (yr + 1) s = (do
        let (ts1, s') ← encRow enc y 0 w s
        let (ts2, s'') ← encImg enc w (y + 1) yr s'
        pure (ts1 ++ ts2, s'')) from rfl] at henc
    cases he : encRow enc y 0 w s with
    | none => rw [he] at henc; exact Option.noConfusion henc
    | some ps =>
      rw [he] at henc
      obtain ⟨ts1, s'⟩ := ps
      simp only [Option.bind_eq_bind, Option.some_bind] at henc
      cases himg : encImg enc w (y + 1) yr s' with
      | none => rw [himg] at henc; exact Option.noConfusion henc
      | some ps2 =>
        rw [himg] at henc
        obtain ⟨ts2, s''⟩ := ps2
        simp only [Option.some_bind, pure, Option.some.injEq,
          Prod.mk.injEq] at henc
        obtain ⟨rfl, rfl⟩ := henc
        have Hrow := fun x hx => H x y hx (by omega)
        obtain ⟨d1, hdec1, hagree1⟩ := decRow_roundtrip Hrow w 0 s d ts1 s'
          (ts2.map Prod.snd ++ rest) (by omega) hagree he
        have hagree1' : agreeUpTo o d1 w 0 (y + 1) :=
          agreeUpTo_rowEnd (by simpa using hagree1)
        obtain ⟨d', hdec2, hagree2⟩ := ih (y + 1) s' d1 ts2 s'' rest (by omega)
          hagree1' himg
        refine ⟨d', ?_, by
          have : y + 1 + yr = y + (yr + 1) := by omega
          rwa [this] at hagree2⟩
        rw [show decImg (σ := σ) dec w y (yr + 1)
            ((ts1 ++ ts2).map Prod.snd ++ rest) d s = (do
          let (b', s', vs') ← decRow dec y 0 w ((ts1 ++ ts2).map Prod.snd ++
            rest) d s
          decImg dec w (y + 1) yr vs' b' s') from rfl]
        have hsplit : (ts1 ++ ts2).map Prod.snd ++ rest =
            ts1.map Prod.snd ++ (ts2.map Prod.snd ++ rest) := by
          simp
        rw [hsplit, hdec1]
        simp only [Option.bind_eq_bind, Option.some_bind]
        exact hdec2

/-- Variant of `flatLookup` returning the reached leaf node itself (the
source's `MATreeLookup` result also carries the predictor). -/
def flatLookupN (t : List FlatNode) (props : Int → Int) :
    Nat → Nat → Option FlatNode
  | 0, _ => none
  | fuel + 1, pos => do
    let n ← t[pos]?
    if n.property0 = -1 then some n
    else flatLookupN t props fuel (nextPos n props)

theorem flatLookupN_proj {t : List FlatNode} {props : Int → Int} :
    ∀ {tf pos l}, flatLookupN t props tf pos = some l →
      flatLookup t props tf pos =
        some (l.childID, l.multiplier, l.predictor_offset) := by
  intro tf
  induction tf with
  | zero => intro pos l h; exact Option.noConfusion h
  | succ tf ih =>
    intro pos l h
    rw [flatLookupN] at h
    rw [flatLookup]
    cases ht : t[pos]? with
    | none => rw [ht] at h; exact Option.noConfusion h
    | some n =>
      rw [ht] at h
      simp only [Option.bind_eq_bind, Option.some_bind] at h ⊢
      by_cases hleaf : n.property0 = -1
      · rw [if_pos hleaf] at h ⊢
        injection h with h
        subst h
        rfl
      · rw [if_neg hleaf] at h ⊢
        exact ih h

theorem flatLookup_mono {t : List FlatNode} {props : Int → Int} :
    ∀ {tf pos r}, flatLookup t props tf pos = some r →
      flatLookup t props (tf + 1) pos = some r := by
  intro tf
  induction tf with
  | zero => intro pos r h; exact Option.noConfusion h
  | succ tf ih =>
    intro pos r h
    rw [flatLookup] at h
    rw [flatLookup]
    cases ht : t[pos]? with
    | none => rw [ht] at h; exact Option.noConfusion h
    | some n =>
      rw [ht] at h
      simp only [Option.bind_eq_bind, Option.some_bind] at h ⊢
      by_cases hleaf : n.property0 = -1
      · rw [if_pos hleaf] at h ⊢
        exact h
      · rw [if_neg hleaf] at h ⊢
        exact ih h

theorem flatLookup_le {t : List FlatNode} {props : Int → Int} {tf tf' : Nat}
    {pos : Nat} {r : Nat × Nat × Int} (hle : tf ≤ tf')
    (h : flatLookup t props tf pos = some r) :
    flatLookup t props tf' pos = some r := by
  induction hle with
  | refl => exact h
  | step h2 ih => exact flatLookup_mono ih

theorem lookupE_det {t : List FlatNode} {props : Int → Int} {pos : Nat}
    {r1 r2 : Nat × Nat × Int} (h1 : lookupE t props pos r1)
    (h2 : lookupE t props pos r2) : r1 = r2 := by
  obtain ⟨f1, hf1⟩ := h1
  obtain ⟨f2, hf2⟩ := h2
  have e1 := flatLookup_le (Nat.le_max_left f1 f2) hf1
  have e2 := flatLookup_le (Nat.le_max_right f1 f2) hf2
  exact Option.some.inj (e1.symm.trans e2)

theorem flatLookupN_remap {cmap : Nat → Nat} {t : List FlatNode}
    {props : Int → Int} :
    ∀ {tf pos}, flatLookupN (remapTree cmap t) props tf pos =
      (flatLookupN t props tf pos).map (remapLeaf cmap) := by
  intro tf
  induction tf with
  | zero => intro pos; rfl
  | succ tf ih =>
    intro pos
    rw [flatLookupN, flatLookupN]
    rw [show (remapTree cmap t)[pos]? = (t[pos]?).map (remapLeaf cmap) from
      List.getElem?_map _ t pos]
    cases ht : t[pos]? with
    | none => rfl
    | some n =>
      simp only [Option.map_some', Option.bind_eq_bind, Option.some_bind]
      by_cases hleaf : n.property0 = -1
      · rw [if_pos ((remapLeaf_fields cmap n).1.trans hleaf), if_pos hleaf]
        rfl
      · rw [if_neg (fun hc => hleaf (((remapLeaf_fields cmap n).1).symm.trans
          hc)), if_neg hleaf]
        have hnext : nextPos (remapLeaf cmap n) props = nextPos n props := by
          unfold remapLeaf
          rw [if_neg hleaf]
        rw [hnext]
        exact ih

/-- Fuel-bounded floor-log2 (`FloorLog2Nonzero` of the source; fuel `n`
suffices for input `n`). -/
def flog2 : Nat → Nat → Nat
  | 0, _ => 0
  | f + 1, n => if n < 2 then 0 else flog2 f (n / 2) + 1

def floorLog2 (n : Nat) : Nat := flog2 n n

theorem flog2_eq : ∀ f n, n ≤ f → flog2 f n = Nat.log2 n := by
  intro f
  induction f with
  | zero =>
    intro n hn
    have h0 : n = 0 := by omega
    subst h0
    rw [show flog2 0 0 = 0 from rfl, Nat.log2_eq_log_two]
    exact (Nat.log_of_lt (by omega)).symm
  | succ f ih =>
    intro n hn
    rw [show flog2 (f + 1) n = if n < 2 then 0 else flog2 f (n / 2) + 1
      from rfl]
    by_cases h2 : n < 2
    · rw [if_pos h2, Nat.log2_eq_log_two, Nat.log_of_lt h2]
    · rw [if_neg h2]
      rw [ih (n / 2) (by omega)]
      rw [Nat.log2_eq_log_two, Nat.log2_eq_log_two]
      have hpos : 0 < Nat.log 2 n := Nat.log_pos (by omega) (by omega)
      have hrec := Nat.log_div_base 2 n
      omega

theorem floorLog2_eq (n : Nat) : floorLog2 n = Nat.log2 n :=
  flog2_eq n n (le_refl n)

theorem pow2_of_mask {m : Nat} (hm : m ≠ 0) (h : m &&& (m - 1) = 0) :
    m = 2 ^ Nat.log2 m := by
  by_contra hne
  have h1 : 2 ^ Nat.log2 m ≤ m := Nat.log2_self_le hm
  have h2 : m < 2 ^ (Nat.log2 m + 1) := Nat.lt_log2_self
  have hpow : 2 ^ (Nat.log2 m + 1) = 2 * 2 ^ Nat.log2 m := by
    rw [Nat.pow_succ]
    ring
  have hd1 : m / 2 ^ Nat.log2 m = 1 := Nat.div_eq_of_lt_le (by omega) (by omega)
  have hd2 : (m - 1) / 2 ^ Nat.log2 m = 1 :=
    Nat.div_eq_of_lt_le (by omega) (by omega)
  have hb1 : m.testBit (Nat.log2 m) = true := by
    rw [Nat.testBit_to_div_mod, hd1]
    rfl
  have hb2 : (m - 1).testBit (Nat.log2 m) = true := by
    rw [Nat.testBit_to_div_mod, hd2]
    rfl
  have hand := Nat.testBit_and m (m - 1) (Nat.log2 m)
  rw [h, hb1, hb2] at hand
  simp [Nat.zero_testBit] at hand

theorem saturatingAdd_exact {a b : Int} (h1 : pixMin ≤ a + b)
    (h2 : a + b ≤ pixMax) : SaturatingAdd a b = a + b := by
  simp only [SaturatingAdd, pixMin, pixMax] at h1 h2 ⊢
  omega

/-- For a power-of-two multiplier (as tested by `m & (m - 1) == 0`) that
divides the residual, the arithmetic shift by `log2 m` packed and unpacked
recovers the residual after multiplication. -/
theorem pow2_residual_roundtrip {m : Nat} {r : Int}
    (hmask : m &&& (m - 1) = 0) (hdvd : (m : Int) ∣ r) :
    UnpackSigned (PackSigned (asr r (floorLog2 m))) * (m : Int) = r := by
  rw [floorLog2_eq]
  by_cases hm : m = 0
  · subst hm
    have hr : r = 0 := by simpa using hdvd
    subst hr
    rw [Nat.cast_zero, mul_zero]
  · have hpow := pow2_of_mask hm hmask
    have h2 : (m : Int) = 2 ^ Nat.log2 m := by
      rw [show ((2 : Int) ^ Nat.log2 m) = ((2 ^ Nat.log2 m : Nat) : Int) from
        by push_cast; rfl, ← hpow]
    rw [h2] at hdvd ⊢
    obtain ⟨q, rfl⟩ := hdvd
    have hfd : asr ((2 : Int) ^ Nat.log2 m * q) (Nat.log2 m) = q := by
      unfold asr
      exact Int.mul_fdiv_cancel_left q (by positivity)
    rw [hfd, unpack_pack]
    ring

/-- Exact truncating division by a dividing multiplier, packed and unpacked,
recovers the residual after multiplication. -/
theorem divExact_roundtrip {m : Nat} {r : Int} (hdvd : (m : Int) ∣ r) :
    UnpackSigned (PackSigned (cppDiv r m)) * (m : Int) = r := by
  by_cases hm : (m : Int) = 0
  · rw [hm] at hdvd ⊢
    have hr : r = 0 := zero_dvd_iff.mp hdvd
    subst hr
    rw [mul_zero]
  · obtain ⟨q, rfl⟩ := hdvd
    have hq : cppDiv ((m : Int) * q) m = q := by
      unfold cppDiv
      exact Int.mul_tdiv_cancel_left q hm
    rw [hq, unpack_pack]
    ring

/-- A successful traversal of a single-node tree returns that node, and the
node is a leaf. -/
theorem flatLookupN_singleton {l lf : FlatNode} {props : Int → Int} :
    ∀ {f : Nat}, flatLookupN [l] props f 0 = some lf →
      lf = l ∧ l.property0 = -1 := by
  intro f
  induction f with
  | zero => intro h; exact Option.noConfusion h
  | succ f ih =>
    intro h
    rw [flatLookupN] at h
    rw [show ([l] : List FlatNode)[0]? = some l from rfl] at h
    simp only [Option.bind_eq_bind, Option.some_bind] at h
    by_cases hp : l.property0 = -1
    · rw [if_pos hp] at h
      exact ⟨(Option.some.inj h).symm, hp⟩
    · rw [if_neg hp] at h
      by_cases hnp : nextPos l props = 0
      · rw [hnp] at h
        exact absurd (ih h).2 hp
      · have hnone : flatLookupN [l] props f (nextPos l props) = none := by
          cases f with
          | zero => rfl
          | succ f2 =>
            rw [flatLookupN]
            rw [show ([l] : List FlatNode)[nextPos l props]? = none from
              List.getElem?_eq_none (by simp; omega)]
            rfl
        rw [hnone] at h
        exact Option.noConfusion h

/-- Two-runs argument: under split consistency (`wpTreeOk`) of the remapped
tree, encode-side success of the table compiler forces the decode-side
multiplier/offset tables to be `(1, 0)` at every in-range property value.
(Runs the decode compiler with two different initial multiplier tables; the
invariant ties both to the same traversal result, so no in-range value can
remain untouched.) -/
theorem wpTables_one_zero {t : List FlatNode} (cmap : Nat → Nat)
    {fuel fw : Nat} {c0 c1 : Int → Nat}
    (hwf : wpTreeOk (remapTree cmap t) fw (-kWPPropRange - 1)
      (kWPPropRange - 1) 0 = true)
    (henc : encBuild t fuel rootRange c0 = .ok c1) :
    ∃ c2 m2 o2,
      decBuild (remapTree cmap t) fuel rootRange (fun _ => 0) (fun _ => 0)
        (fun _ => 0) = .ok c2 m2 o2 ∧
      ∀ p, -kWPPropRange ≤ p → p ≤ kWPPropRange - 1 →
        m2 p = 1 ∧ o2 p = 0 := by
  obtain ⟨c2, m2, o2, hdec1, hrel1⟩ := encBuild_to_decBuild cmap henc
    (fun _ => 0) (fun _ => 0) (fun _ => 0)
  obtain ⟨c3, m3, o3, hdec2, hrel2⟩ := encBuild_to_decBuild cmap henc
    (fun _ => 0) (fun _ => 7) (fun _ => 0)
  refine ⟨c2, m2, o2, hdec1, ?_⟩
  intro p hlo hhi
  have hdisj : List.Pairwise disjRange rootRange :=
    List.pairwise_singleton _ _
  have hwp : ∀ r ∈ rootRange, ∃ fw2,
      wpTreeOk (remapTree cmap t) fw2 r.b r.e r.pos = true := by
    intro r hr
    rcases List.mem_singleton.mp hr with rfl
    exact ⟨fw, hwf⟩
  have hinv : ∀ r ∈ rootRange, ∀ p2, inRange r p2 → ∀ props2 : Int → Int,
      props2 kWPProp = p2 → ∀ res, lookupE (remapTree cmap t) props2 r.pos
      res → lookupE (remapTree cmap t) props2 0 res := by
    intro r hr p2 _ props2 _ res h
    rcases List.mem_singleton.mp hr with rfl
    exact h
  have hcov : covers rootRange p :=
    ⟨_, List.mem_singleton.mpr rfl,
      show -kWPPropRange - 1 < p ∧ p ≤ kWPPropRange - 1 from ⟨by omega, hhi⟩⟩
  have hl1 := (decBuild_inv hdec1 hdisj hwp hinv p).1 hcov (fun _ => p) rfl
  have hl2 := (decBuild_inv hdec2 hdisj hwp hinv p).1 hcov (fun _ => p) rfl
  obtain ⟨mu1, hk1, hw1⟩ := hl1
  obtain ⟨mu2, hk2, hw2⟩ := hl2
  have heq := lookupE_det hk1 hk2
  have hmu : mu1 = mu2 := congrArg (fun r => r.2.1) heq
  have hm23 : m2 p = m3 p := by rw [hw1, hw2, hmu]
  rcases hrel1 p with h1 | h1
  · rcases hrel2 p with h2 | h2
    · rw [h1.1, h2.1] at hm23
      exact absurd hm23 (by decide)
    · rw [h1.1, h2.1] at hm23
      exact absurd hm23 (by decide)
  · exact h1

section Codec

variable {W : Type} (predFn : Predictor → Nbrs → Int)
  (wpPredict : W → Nat → Nat → Nat → Nbrs → Int × Int)
  (wpUpdate : W → Int → Nat → Nat → Nat → W)
  (propsFn : (Nat → Nat → Int) → Nat → Nat → Int → Int)
  (wpInitVal : W)

/-- `kWPPropRange + min(max(-kWPPropRange, p), kWPPropRange - 1)` indexes the
lookup tables; our tables are indexed by the clamped value itself. -/
def clampWP (p : Int) : Int := min (max (-kWPPropRange) p) (kWPPropRange - 1)

theorem clampWP_mem (v : Int) :
    -kWPPropRange ≤ clampWP v ∧ clampWP v ≤ kWPPropRange - 1 := by
  unfold clampWP kWPPropRange
  omega

/-- Property vector with the weighted-predictor property slot filled in (the
effect of `Predict</*compute_properties=*/true>` on `properties`). -/
def withWP (props : Int → Int) (v : Int) : Int → Int :=
  fun i => if i = kWPProp then v else props i

/-- Encode, WP fast track: token context from the compiled table at the
clamped WP property, value `PackSigned(r[x] - guess)`. -/
def encStepWPTable (ctab : Int → Nat) (o : Nat → Nat → Int) (w : Nat) :
    Nat → Nat → W → Option ((Nat × Nat) × W) :=
  fun x y s =>
    let g := wpPredict s x y w (nbrs o w x y)
    some ((ctab (clampWP g.2), PackSigned (o y x - g.1)),
      wpUpdate s (o y x) x y w)

/-- Encode, single-leaf Zero/multiplier-1/offset-0 track: the token value is
the packed raw pixel. -/
def encStepZero (ctx : Nat) (o : Nat → Nat → Int) :
    Nat → Nat → Unit → Option ((Nat × Nat) × Unit) :=
  fun x y _ => some ((ctx, PackSigned (o y x)), ())

/-- Encode, single-leaf power-of-two-multiplier track: residual packed after
an arithmetic right shift by `log2(multiplier)`. -/
def encStepPow2 (l : FlatNode) (k : Nat) (o : Nat → Nat → Int) (w : Nat) :
    Nat → Nat → Unit → Option ((Nat × Nat) × Unit) :=
  fun x y _ =>
    some ((l.childID,
      PackSigned (asr (o y x - predFn l.predictor (nbrs o w x y)) k)), ())

/-- Encode, general no-WP track: tree traversal on the property vector, exact
division by the leaf multiplier (the `JXL_ASSERT(residual % multiplier == 0)`
is modelled as failure on violation). -/
def encStepNoWP (tree : List FlatNode) (fuel : Nat) (o : Nat → Nat → Int)
    (w : Nat) : Nat → Nat → Unit → Option ((Nat × Nat) × Unit) :=
  fun x y _ => do
    let l ← flatLookupN tree (propsFn o x y) fuel 0
    let residual := o y x - (predFn l.predictor (nbrs o w x y) +
      l.predictor_offset)
    if (l.multiplier : Int) ∣ residual then
      some ((l.childID, PackSigned (cppDiv residual l.multiplier)), ())
    else none

/-- Encode, general WP track: WP prediction feeds the property vector; a
Weighted leaf uses the WP guess, any other leaf its own predictor. -/
def encStepWP (tree : List FlatNode) (fuel : Nat) (o : Nat → Nat → Int)
    (w : Nat) : Nat → Nat → W → Option ((Nat × Nat) × W) :=
  fun x y s => do
    let nb := nbrs o w x y
    let g := wpPredict s x y w nb
    let l ← flatLookupN tree (withWP (propsFn o x y) g.2) fuel 0
    let residual := o y x - ((if l.predictor = .Weighted then g.1
      else predFn l.predictor nb) + l.predictor_offset)
    if (l.multiplier : Int) ∣ residual then
      some ((l.childID, PackSigned (cppDiv residual l.multiplier)),
        wpUpdate s (o y x) x y w)
    else none

def EncResult.ctxTab : EncResult → (Int → Nat)
  | .ok c => c
  | _ => fun _ => 0

/-- `EncodeModularChannelMAANS`: asserts a non-empty channel, compiles the
tree, and runs one of the mutually exclusive encode tracks in source order. -/
def EncodeModularChannelMAANS (o : Nat → Nat → Int) (w h : Nat)
    (chan gid : Int) (gtree : List TreeNode) (fuel : Nat) :
    Option (List (Nat × Nat)) :=
  if w = 0 ∨ h = 0 then none
  else do
    let (tree, _np, use_wp, wp_only0) ← FilterTree gtree (chan, gid) fuel
    let encT := encBuild tree fuel rootRange (fun _ => 0)
    if wp_only0 && encT.isOk then
      (encImg (encStepWPTable wpPredict wpUpdate encT.ctxTab o w) w 0 h
        wpInitVal).map Prod.fst
    else if tree.length = 1 ∧ tree.headI.predictor = .Zero ∧
        tree.headI.multiplier = 1 ∧ tree.headI.predictor_offset = 0 then
      (encImg (encStepZero tree.headI.childID o) w 0 h ()).map Prod.fst
    else if tree.length = 1 ∧ tree.headI.predictor ≠ .Weighted ∧
        tree.headI.multiplier &&& (tree.headI.multiplier - 1) = 0 ∧
        tree.headI.predictor_offset = 0 then
      (encImg (encStepPow2 predFn tree.headI
        (floorLog2 tree.headI.multiplier) o w) w 0 h ()).map Prod.fst
    else if use_wp = false then
      (encImg (encStepNoWP predFn propsFn tree fuel o w) w 0 h ()).map
        Prod.fst
    else
      (encImg (encStepWP predFn wpPredict wpUpdate propsFn tree fuel o w)
        w 0 h wpInitVal).map Prod.fst

/-- Decode, WP fast track: the token value is combined with the compiled
multiplier/offset tables at the clamped WP property (the compiled context
table only selects the ANS distribution, which the value-list reader model
abstracts away). -/
def decStepWPTable (mt : Int → Int) (ot : Int → Int) (w : Nat) :
    (Nat → Nat → Int) → Nat → Nat → Nat → W → Option (Int × W) :=
  fun b x y v s =>
    let g := wpPredict s x y w (nbrs b w x y)
    let pix := SaturatingAdd
      (UnpackSigned v * mt (clampWP g.2) + ot (clampWP g.2)) g.1
    some (pix, wpUpdate s pix x y w)

/-- Decode, single-leaf Zero track, reading branch.  The multiplier is
narrowed to `int32_t` by `int32_t multiplier = tree[0].multiplier`. -/
def decStepZeroRead (l : FlatNode) :
    (Nat → Nat → Int) → Nat → Nat → Nat → Unit → Option (Int × Unit) :=
  fun _ _ _ v _ =>
    some (SaturatingAdd (UnpackSigned v * wrap32 l.multiplier)
      l.predictor_offset, ())

/-- Decode, single-leaf non-Zero non-Weighted ("quite fast") track.  The
multiplier is narrowed to `int32_t`. -/
def decStepQuiteFast (l : FlatNode) (w : Nat) :
    (Nat → Nat → Int) → Nat → Nat → Nat → Unit → Option (Int × Unit) :=
  fun b x y v _ =>
    some (SaturatingAdd (UnpackSigned v * wrap32 l.multiplier)
      (predFn l.predictor (nbrs b w x y) + l.predictor_offset), ())

/-- Decode, single-leaf Weighted ("somewhat fast") track.  The multiplier is
narrowed to `int32_t`. -/
def decStepSomewhatFast (l : FlatNode) (w : Nat) :
    (Nat → Nat → Int) → Nat → Nat → Nat → W → Option (Int × W) :=
  fun b x y v s =>
    let g := (wpPredict s x y w (nbrs b w x y)).1 + l.predictor_offset
    let pix := SaturatingAdd (UnpackSigned v * wrap32 l.multiplier) g
    some (pix, wpUpdate s pix x y w)

/-- Decode, general no-WP ("slow") track. -/
def decStepSlow (tree : List FlatNode) (fuel : Nat) (w : Nat) :
    (Nat → Nat → Int) → Nat → Nat → Nat → Unit → Option (Int × Unit) :=
  fun b x y v _ => do
    let lf ← flatLookupN tree (propsFn b x y) fuel 0
    some (SaturatingAdd (UnpackSigned v * (lf.multiplier : Int))
      (predFn lf.predictor (nbrs b w x y) + lf.predictor_offset), ())

/-- Decode, general WP ("slowest") track. -/
def decStepSlowest (tree : List FlatNode) (fuel : Nat) (w : Nat) :
    (Nat → Nat → Int) → Nat → Nat → Nat → W → Option (Int × W) :=
  fun b x y v s => do
    let nb := nbrs b w x y
    let g := wpPredict s x y w nb
    let lf ← flatLookupN tree (withWP (propsFn b x y) g.2) fuel 0
    let gu := (if lf.predictor = Predictor.Weighted then g.1
      else predFn lf.predictor nb) + lf.predictor_offset
    let pix := SaturatingAdd (UnpackSigned v * (lf.multiplier : Int)) gu
    some (pix, wpUpdate s pix x y w)

/-- `std::fill` of every row with one value (the single-symbol branch). -/
def fillBuf (b : Nat → Nat → Int) (w h : Nat) (v : Int) : Nat → Nat → Int :=
  fun y x => if y < h ∧ x < w then v else b y x

/-- `DecodeModularChannelMAANS`: zero-sized channels return immediately;
otherwise leaf contexts are remapped through the context map, the WP table is
compiled, and one of the decode tracks runs in source order.  The ANS reader
is modelled as a list of token values plus, for `IsSingleValue`, an optional
single symbol `sv`. -/
def DecodeModularChannelMAANS (cmap : Nat → Nat) (sv : Option Nat)
    (d0 : Nat → Nat → Int) (vs : List Nat) (w h : Nat) (chan gid : Int)
    (gtree : List TreeNode) (fuel : Nat) :
    Option ((Nat → Nat → Int) × List Nat) :=
  if w = 0 ∨ h = 0 then some (d0, vs)
  else do
    let (tree0, _np, use_wp, wp_only0) ← FilterTree gtree (chan, gid) fuel
    let tree := remapTree cmap tree0
    let dt := decBuild tree fuel rootRange
      (fun _ => 0) (fun _ => 0) (fun _ => 0)
    if wp_only0 && dt.isOk then
      (decImg (decStepWPTable wpPredict wpUpdate dt.mulTab dt.offTab w)
        w 0 h vs d0 wpInitVal).map fun r => (r.1, r.2.2)
    else if tree.length = 1 then
      if tree.headI.predictor = Predictor.Zero then
        match sv with
        | some value =>
          some (fillBuf d0 w h (SaturatingAdd
            (UnpackSigned value * wrap32 tree.headI.multiplier)
            tree.headI.predictor_offset), vs)
        | none =>
          (decImg (decStepZeroRead tree.headI) w 0 h vs d0 ()).map
            fun r => (r.1, r.2.2)
      else if tree.headI.predictor ≠ Predictor.Weighted then
        (decImg (decStepQuiteFast predFn tree.headI w) w 0 h vs d0 ()).map
          fun r => (r.1, r.2.2)
      else
        (decImg (decStepSomewhatFast wpPredict wpUpdate tree.headI w)
          w 0 h vs d0 wpInitVal).map fun r => (r.1, r.2.2)
    else if use_wp = false then
      (decImg (decStepSlow predFn propsFn tree fuel w) w 0 h vs d0 ()).map
        fun r => (r.1, r.2.2)
    else
      (decImg (decStepSlowest predFn wpPredict wpUpdate propsFn tree fuel w)
        w 0 h vs d0 wpInitVal).map fun r => (r.1, r.2.2)

/-- Per-pixel inversion on the WP fast track: with multiplier/offset tables
`(1, 0)` on the whole property range, the decode step recovers the pixel the
encode step consumed and reaches the same WP state. -/
theorem stepRT_wpTable {o : Nat → Nat → Int} {w h : Nat} {ct : Int → Nat}
    {m2 o2 : Int → Int}
    (htab : ∀ p, -kWPPropRange ≤ p → p ≤ kWPPropRange - 1 →
      m2 p = 1 ∧ o2 p = 0)
    (hpix : ∀ y x, y < h → x < w → pixMin ≤ o y x ∧ o y x ≤ pixMax) :
    ∀ x y, x < w → y < h → ∀ (s : W) d, agreeUpTo o d w x y →
      ∀ tok s', encStepWPTable wpPredict wpUpdate ct o w x y s =
        some (tok, s') →
      decStepWPTable wpPredict wpUpdate m2 o2 w d x y tok.2 s =
        some (o y x, s') := by
  intro x y hx hy s d hagree tok s' he
  unfold encStepWPTable at he
  simp only [Option.some.injEq, Prod.mk.injEq] at he
  obtain ⟨h1, h2⟩ := he
  subst h1
  subst h2
  unfold decStepWPTable
  rw [agreeUpTo_nbrs hx hagree]
  dsimp only
  have hm := htab (clampWP (wpPredict s x y w (nbrs o w x y)).2)
    (clampWP_mem _).1 (clampWP_mem _).2
  rw [hm.1, hm.2, unpack_pack, mul_one, add_zero]
  rw [saturatingAdd_exact (by
      have := hpix y x hy hx
      omega)
    (by
      have := hpix y x hy hx
      omega)]
  rw [show o y x - (wpPredict s x y w (nbrs o w x y)).1 +
    (wpPredict s x y w (nbrs o w x y)).1 = o y x from by ring]

/-- Per-pixel inversion, raw-pixel track (single Zero leaf, multiplier 1,
offset 0) against the Zero decode track. -/
theorem stepRT_zero {o : Nat → Nat → Int} {w h : Nat} {l : FlatNode}
    {ctx : Nat} (hm : l.multiplier = 1) (ho : l.predictor_offset = 0)
    (hpix : ∀ y x, y < h → x < w → pixMin ≤ o y x ∧ o y x ≤ pixMax) :
    ∀ x y, x < w → y < h → ∀ (s : Unit) d, agreeUpTo o d w x y →
      ∀ tok s', encStepZero ctx o x y s = some (tok, s') →
      decStepZeroRead l d x y tok.2 s = some (o y x, s') := by
  intro x y hx hy s d hagree tok s' he
  unfold encStepZero at he
  simp only [Option.some.injEq, Prod.mk.injEq] at he
  obtain ⟨h1, h2⟩ := he
  subst h1
  unfold decStepZeroRead
  dsimp only
  rw [hm, ho, unpack_pack, show wrap32 1 = (1 : Int) from by decide, mul_one]
  rw [saturatingAdd_exact (by
      have := hpix y x hy hx
      omega)
    (by
      have := hpix y x hy hx
      omega)]
  rw [add_zero]

/-- Per-pixel inversion, power-of-two-multiplier track with a Zero-predictor
leaf against the Zero decode track: requires the multiplier to divide each
residual (the source only `JXL_DASSERT`s this). -/
theorem stepRT_pow2_zero {o : Nat → Nat → Int} {w h : Nat} {l ld : FlatNode}
    (hzero : ∀ nb, predFn Predictor.Zero nb = 0)
    (hmm : ld.multiplier = l.multiplier)
    (hoo : ld.predictor_offset = l.predictor_offset)
    (hpz : l.predictor = Predictor.Zero) (ho : l.predictor_offset = 0)
    (hmask : l.multiplier &&& (l.multiplier - 1) = 0)
    (hlt : l.multiplier < 2147483648)
    (hdiv : ∀ y x, y < h → x < w →
      (l.multiplier : Int) ∣ (o y x - predFn l.predictor (nbrs o w x y)))
    (hpix : ∀ y x, y < h → x < w → pixMin ≤ o y x ∧ o y x ≤ pixMax) :
    ∀ x y, x < w → y < h → ∀ (s : Unit) d, agreeUpTo o d w x y →
      ∀ tok s', encStepPow2 predFn l (floorLog2 l.multiplier) o w x y s =
        some (tok, s') →
      decStepZeroRead ld d x y tok.2 s = some (o y x, s') := by
  intro x y hx hy s d hagree tok s' he
  unfold encStepPow2 at he
  simp only [Option.some.injEq, Prod.mk.injEq] at he
  obtain ⟨h1, h2⟩ := he
  subst h1
  unfold decStepZeroRead
  dsimp only
  rw [hmm, hoo, ho]
  rw [wrap32_lt hlt]
  rw [pow2_residual_roundtrip hmask (hdiv y x hy hx)]
  rw [hpz, hzero, sub_zero]
  rw [saturatingAdd_exact (by
      have := hpix y x hy hx
      omega)
    (by
      have := hpix y x hy hx
      omega)]
  rw [add_zero]

/-- Per-pixel inversion, power-of-two-multiplier track with a non-Zero,
non-Weighted leaf against the "quite fast" decode track. -/
theorem stepRT_pow2_other {o : Nat → Nat → Int} {w h : Nat} {l ld : FlatNode}
    (hmm : ld.multiplier = l.multiplier)
    (hoo : ld.predictor_offset = l.predictor_offset)
    (hpp : ld.predictor = l.predictor)
    (ho : l.predictor_offset = 0)
    (hmask : l.multiplier &&& (l.multiplier - 1) = 0)
    (hlt : l.multiplier < 2147483648)
    (hdiv : ∀ y x, y < h → x < w →
      (l.multiplier : Int) ∣ (o y x - predFn l.predictor (nbrs o w x y)))
    (hpix : ∀ y x, y < h → x < w → pixMin ≤ o y x ∧ o y x ≤ pixMax) :
    ∀ x y, x < w → y < h → ∀ (s : Unit) d, agreeUpTo o d w x y →
      ∀ tok s', encStepPow2 predFn l (floorLog2 l.multiplier) o w x y s =
        some (tok, s') →
      decStepQuiteFast predFn ld w d x y tok.2 s = some (o y x, s') := by
  intro x y hx hy s d hagree tok s' he
  unfold encStepPow2 at he
  simp only [Option.some.injEq, Prod.mk.injEq] at he
  obtain ⟨h1, h2⟩ := he
  subst h1
  unfold decStepQuiteFast
  dsimp only
  rw [agreeUpTo_nbrs hx hagree, hmm, hoo, hpp, ho, add_zero]
  rw [wrap32_lt hlt]
  rw [pow2_residual_roundtrip hmask (hdiv y x hy hx)]
  rw [saturatingAdd_exact (by
      have := hpix y x hy hx
      omega)
    (by
      have := hpix y x hy hx
      omega)]
  rw [show o y x - predFn l.predictor (nbrs o w x y) +
    predFn l.predictor (nbrs o w x y) = o y x from by ring]

/-- Inversion of a successful general no-WP encode step. -/
theorem encStepNoWP_inv {tree : List FlatNode} {fuel : Nat}
    {o : Nat → Nat → Int} {w x y : Nat} {s : Unit} {tok : Nat × Nat}
    {s' : Unit}
    (he : encStepNoWP predFn propsFn tree fuel o w x y s = some (tok, s')) :
    ∃ lf, flatLookupN tree (propsFn o x y) fuel 0 = some lf ∧
      (lf.multiplier : Int) ∣ (o y x - (predFn lf.predictor (nbrs o w x y) +
        lf.predictor_offset)) ∧
      tok.2 = PackSigned (cppDiv (o y x - (predFn lf.predictor
        (nbrs o w x y) + lf.predictor_offset)) lf.multiplier) := by
  unfold encStepNoWP at he
  cases hlf : flatLookupN tree (propsFn o x y) fuel 0 with
  | none =>
    rw [hlf] at he
    simp only [Option.bind_eq_bind, Option.none_bind] at he
    exact Option.noConfusion he
  | some lf =>
    rw [hlf] at he
    simp only [Option.bind_eq_bind, Option.some_bind] at he
    by_cases hd : (lf.multiplier : Int) ∣
        (o y x - (predFn lf.predictor (nbrs o w x y) + lf.predictor_offset))
    · rw [if_pos hd] at he
      refine ⟨lf, rfl, hd, ?_⟩
      have he' := Option.some.inj he
      injection he' with h1 h2
      rw [← h1]
    · rw [if_neg hd] at he
      exact Option.noConfusion he

/-- Inversion of a successful general WP encode step. -/
theorem encStepWP_inv {tree : List FlatNode} {fuel : Nat}
    {o : Nat → Nat → Int} {w x y : Nat} {s : W} {tok : Nat × Nat} {s' : W}
    (he : encStepWP predFn wpPredict wpUpdate propsFn tree fuel o w x y s =
      some (tok, s')) :
    ∃ lf, flatLookupN tree (withWP (propsFn o x y)
        (wpPredict s x y w (nbrs o w x y)).2) fuel 0 = some lf ∧
      (lf.multiplier : Int) ∣ (o y x -
        ((if lf.predictor = Predictor.Weighted then
            (wpPredict s x y w (nbrs o w x y)).1
          else predFn lf.predictor (nbrs o w x y)) +
          lf.predictor_offset)) ∧
      tok.2 = PackSigned (cppDiv (o y x -
        ((if lf.predictor = Predictor.Weighted then
            (wpPredict s x y w (nbrs o w x y)).1
          else predFn lf.predictor (nbrs o w x y)) +
          lf.predictor_offset)) lf.multiplier) ∧
      s' = wpUpdate s (o y x) x y w := by
  rw [show encStepWP predFn wpPredict wpUpdate propsFn tree fuel o w x y s =
      (do
        let l ← flatLookupN tree (withWP (propsFn o x y)
          (wpPredict s x y w (nbrs o w x y)).2) fuel 0
        if (l.multiplier : Int) ∣ (o y x -
            ((if l.predictor = Predictor.Weighted then
                (wpPredict s x y w (nbrs o w x y)).1
              else predFn l.predictor (nbrs o w x y)) +
              l.predictor_offset)) then
          some ((l.childID, PackSigned (cppDiv (o y x -
            ((if l.predictor = Predictor.Weighted then
                (wpPredict s x y w (nbrs o w x y)).1
              else predFn l.predictor (nbrs o w x y)) +
              l.predictor_offset)) l.multiplier)),
            wpUpdate s (o y x) x y w)
        else none) from rfl] at he
  cases hlf : flatLookupN tree (withWP (propsFn o x y)
      (wpPredict s x y w (nbrs o w x y)).2) fuel 0 with
  | none =>
    rw [hlf] at he
    simp only [Option.bind_eq_bind, Option.none_bind] at he
    exact Option.noConfusion he
  | some lf =>
    rw [hlf] at he
    simp only [Option.bind_eq_bind, Option.some_bind] at he
    by_cases hd : (lf.multiplier : Int) ∣ (o y x -
        ((if lf.predictor = Predictor.Weighted then
            (wpPredict s x y w (nbrs o w x y)).1
          else predFn lf.predictor (nbrs o w x y)) +
          lf.predictor_offset))
    · rw [if_pos hd] at he
      refine ⟨lf, rfl, hd, ?_, ?_⟩
      · have he' := Option.some.inj he
        injection he' with h1 h2
        rw [← h1]
      · have he' := Option.some.inj he
        injection he' with h1 h2
        rw [h2]
    · rw [if_neg hd] at he
      exact Option.noConfusion he

/-- Per-pixel inversion, general no-WP encode on a single-leaf tree with a
Zero-predictor leaf, against the Zero decode track. -/
theorem stepRT_noWP_zero {o : Nat → Nat → Int} {w h fuel : Nat}
    {l0 ld : FlatNode}
    (hzero : ∀ nb, predFn Predictor.Zero nb = 0)
    (hmm : ld.multiplier = l0.multiplier)
    (hoo : ld.predictor_offset = l0.predictor_offset)
    (hpz : l0.predictor = Predictor.Zero)
    (hlt : l0.multiplier < 2147483648)
    (hpix : ∀ y x, y < h → x < w → pixMin ≤ o y x ∧ o y x ≤ pixMax) :
    ∀ x y, x < w → y < h → ∀ (s : Unit) d, agreeUpTo o d w x y →
      ∀ tok s', encStepNoWP predFn propsFn [l0] fuel o w x y s =
        some (tok, s') →
      decStepZeroRead ld d x y tok.2 s = some (o y x, s') := by
  intro x y hx hy s d hagree tok s' he
  obtain ⟨lf, hlf, hd, htok⟩ := encStepNoWP_inv predFn propsFn he
  have hlfeq := (flatLookupN_singleton hlf).1
  rw [hlfeq] at hd htok
  unfold decStepZeroRead
  rw [htok, hmm, hoo]
  rw [wrap32_lt hlt]
  rw [divExact_roundtrip hd]
  rw [hpz, hzero, zero_add]
  rw [saturatingAdd_exact (by
      have := hpix y x hy hx
      omega)
    (by
      have := hpix y x hy hx
      omega)]
  rw [show o y x - l0.predictor_offset + l0.predictor_offset = o y x from
    by ring]

/-- Per-pixel inversion, general no-WP encode on a single-leaf tree with a
non-Zero non-Weighted leaf, against the "quite fast" decode track. -/
theorem stepRT_noWP_other {o : Nat → Nat → Int} {w h fuel : Nat}
    {l0 ld : FlatNode}
    (hmm : ld.multiplier = l0.multiplier)
    (hoo : ld.predictor_offset = l0.predictor_offset)
    (hpp : ld.predictor = l0.predictor)
    (hlt : l0.multiplier < 2147483648)
    (hpix : ∀ y x, y < h → x < w → pixMin ≤ o y x ∧ o y x ≤ pixMax) :
    ∀ x y, x < w → y < h → ∀ (s : Unit) d, agreeUpTo o d w x y →
      ∀ tok s', encStepNoWP predFn propsFn [l0] fuel o w x y s =
        some (tok, s') →
      decStepQuiteFast predFn ld w d x y tok.2 s = some (o y x, s') := by
  intro x y hx hy s d hagree tok s' he
  obtain ⟨lf, hlf, hd, htok⟩ := encStepNoWP_inv predFn propsFn he
  have hlfeq := (flatLookupN_singleton hlf).1
  rw [hlfeq] at hd htok
  unfold decStepQuiteFast
  rw [htok, hmm, hoo, hpp, agreeUpTo_nbrs hx hagree]
  rw [wrap32_lt hlt]
  rw [divExact_roundtrip hd]
  rw [saturatingAdd_exact (by
      have := hpix y x hy hx
      omega)
    (by
      have := hpix y x hy hx
      omega)]
  rw [show o y x - (predFn l0.predictor (nbrs o w x y) +
    l0.predictor_offset) + (predFn l0.predictor (nbrs o w x y) +
    l0.predictor_offset) = o y x from by ring]

/-- Per-pixel inversion, general no-WP encode against the "slow" decode
track on the context-remapped tree. -/
theorem stepRT_noWP_multi {o : Nat → Nat → Int} {w h fuel : Nat}
    {tree : List FlatNode} {cmap : Nat → Nat}
    (hprops : ∀ (b b' : Nat → Nat → Int) (x y : Nat), x < w →
      agreeUpTo b b' w x y → propsFn b' x y = propsFn b x y)
    (hpix : ∀ y x, y < h → x < w → pixMin ≤ o y x ∧ o y x ≤ pixMax) :
    ∀ x y, x < w → y < h → ∀ (s : Unit) d, agreeUpTo o d w x y →
      ∀ tok s', encStepNoWP predFn propsFn tree fuel o w x y s =
        some (tok, s') →
      decStepSlow predFn propsFn (remapTree cmap tree) fuel w d x y tok.2 s =
        some (o y x, s') := by
  intro x y hx hy s d hagree tok s' he
  obtain ⟨lf, hlf, hd, htok⟩ := encStepNoWP_inv predFn propsFn he
  unfold decStepSlow
  rw [hprops o d x y hx hagree]
  rw [flatLookupN_remap, hlf]
  simp only [Option.map_some', Option.bind_eq_bind, Option.some_bind]
  have hfields := remapLeaf_fields cmap lf
  rw [htok, hfields.2.2.1, hfields.2.2.2, hfields.2.1,
    agreeUpTo_nbrs hx hagree]
  rw [divExact_roundtrip hd]
  rw [saturatingAdd_exact (by
      have := hpix y x hy hx
      omega)
    (by
      have := hpix y x hy hx
      omega)]
  rw [show o y x - (predFn lf.predictor (nbrs o w x y) +
    lf.predictor_offset) + (predFn lf.predictor (nbrs o w x y) +
    lf.predictor_offset) = o y x from by ring]

/-- Per-pixel inversion, general WP encode against the "slowest" decode
track on the context-remapped tree. -/
theorem stepRT_wp_multi {o : Nat → Nat → Int} {w h fuel : Nat}
    {tree : List FlatNode} {cmap : Nat → Nat}
    (hprops : ∀ (b b' : Nat → Nat → Int) (x y : Nat), x < w →
      agreeUpTo b b' w x y → propsFn b' x y = propsFn b x y)
    (hpix : ∀ y x, y < h → x < w → pixMin ≤ o y x ∧ o y x ≤ pixMax) :
    ∀ x y, x < w → y < h → ∀ (s : W) d, agreeUpTo o d w x y →
      ∀ tok s', encStepWP predFn wpPredict wpUpdate propsFn tree fuel o w
        x y s = some (tok, s') →
      decStepSlowest predFn wpPredict wpUpdate propsFn (remapTree cmap tree)
        fuel w d x y tok.2 s = some (o y x, s') := by
  intro x y hx hy s d hagree tok s' he
  obtain ⟨lf, hlf, hd, htok, hs'⟩ :=
    encStepWP_inv predFn wpPredict wpUpdate propsFn he
  unfold decStepSlowest
  dsimp only
  rw [agreeUpTo_nbrs hx hagree, hprops o d x y hx hagree]
  rw [flatLookupN_remap, hlf]
  simp only [Option.map_some', Option.bind_eq_bind, Option.some_bind]
  have hfields := remapLeaf_fields cmap lf
  rw [htok, hfields.2.2.1, hfields.2.2.2, hfields.2.1,
    divExact_roundtrip hd]
  rw [saturatingAdd_exact (by
      have := hpix y x hy hx
      omega)
    (by
      have := hpix y x hy hx
      omega)]
  rw [show o y x - ((if lf.predictor = Predictor.Weighted then
      (wpPredict s x y w (nbrs o w x y)).1
    else predFn lf.predictor (nbrs o w x y)) + lf.predictor_offset) +
    ((if lf.predictor = Predictor.Weighted then
      (wpPredict s x y w (nbrs o w x y)).1
    else predFn lf.predictor (nbrs o w x y)) + lf.predictor_offset) =
    o y x from by ring]
  rw [hs']

/-- **C1 (amended).** Decoding the token stream produced by
`EncodeModularChannelMAANS` with `DecodeModularChannelMAANS` under the same
tree, channel index and group id reconstructs the original pixels, provided:
the original pixels fit in the 32-bit pixel type; the Zero predictor
predicts 0 and the property vector is causal; on a wp-only tree the
encode-side table compiler succeeds and the remapped tree is
split-consistent; on a single-leaf tree with zero offset the multiplier
divides every residual (the power-of-two track only `JXL_DASSERT`s this);
and on a single-leaf tree the multiplier fits `int32_t` (the decode tracks
narrow it via `int32_t multiplier = tree[0].multiplier`, wrapping `2^31` and
above).  The general reader is modelled as the list of token values
(`sv = none`). -/
theorem modular_channel_roundtrip (cmap : Nat → Nat) (rest : List Nat)
    {o d0 : Nat → Nat → Int} {w h : Nat} {chan gid : Int}
    {gtree : List TreeNode} {fuel fw : Nat} {ts : List (Nat × Nat)}
    (hzero : ∀ nb, predFn Predictor.Zero nb = 0)
    (hprops : ∀ (b b' : Nat → Nat → Int) (x y : Nat), x < w →
      agreeUpTo b b' w x y → propsFn b' x y = propsFn b x y)
    (hpix : ∀ y x, y < h → x < w → pixMin ≤ o y x ∧ o y x ≤ pixMax)
    (hwponly : ∀ tree0 np uw wo, FilterTree gtree (chan, gid) fuel =
      some (tree0, np, uw, wo) → wo = true →
      (encBuild tree0 fuel rootRange (fun _ => 0)).isOk = true)
    (hwpok : ∀ tree0 np uw wo, FilterTree gtree (chan, gid) fuel =
      some (tree0, np, uw, wo) → wo = true →
      wpTreeOk (remapTree cmap tree0) fw (-kWPPropRange - 1)
        (kWPPropRange - 1) 0 = true)
    (hdiv : ∀ tree0 np uw wo, FilterTree gtree (chan, gid) fuel =
      some (tree0, np, uw, wo) → tree0.length = 1 →
      tree0.headI.predictor_offset = 0 →
      ∀ y x, y < h → x < w →
        (tree0.headI.multiplier : Int) ∣
          (o y x - predFn tree0.headI.predictor (nbrs o w x y)))
    (hmul31 : ∀ tree0 np uw wo, FilterTree gtree (chan, gid) fuel =
      some (tree0, np, uw, wo) → tree0.length = 1 →
      tree0.headI.multiplier < 2147483648)
    (henc : EncodeModularChannelMAANS predFn wpPredict wpUpdate propsFn
      wpInitVal o w h chan gid gtree fuel = some ts) :
    ∃ d', DecodeModularChannelMAANS predFn wpPredict wpUpdate propsFn
        wpInitVal cmap none d0 (ts.map Prod.snd ++ rest) w h chan gid gtree
        fuel = some (d', rest) ∧
      ∀ y x, y < h → x < w → d' y x = o y x := by
  have agree0 : agreeUpTo o d0 w 0 0 := by
    intro y' x' _ hc
    rcases hc with hlt | ⟨_, hlt⟩ <;> omega
  unfold EncodeModularChannelMAANS at henc
  by_cases hz : w = 0 ∨ h = 0
  · rw [if_pos hz] at henc
    exact Option.noConfusion henc
  rw [if_neg hz] at henc
  cases hft : FilterTree gtree (chan, gid) fuel with
  | none =>
    rw [hft] at henc
    simp only [Option.bind_eq_bind, Option.none_bind] at henc
    exact Option.noConfusion henc
  | some q =>
  obtain ⟨tree0, np, use_wp, wp_only0⟩ := q
  rw [hft] at henc
  simp only [Option.bind_eq_bind, Option.some_bind] at henc
  by_cases hwo : wp_only0 = true
  · -- WP fast track on both sides
    subst hwo
    have hencOk := hwponly tree0 np use_wp true hft rfl
    cases hE : encBuild tree0 fuel rootRange (fun _ => 0) with
    | abandoned =>
      rw [hE] at hencOk
      simp [EncResult.isOk] at hencOk
    | stuck =>
      rw [hE] at hencOk
      simp [EncResult.isOk] at hencOk
    | ok ce =>
    obtain ⟨c2, m2, o2, hdecB, htab⟩ :=
      wpTables_one_zero cmap (hwpok tree0 np use_wp true hft rfl) hE
    rw [hE] at henc
    rw [if_pos (show (true && (EncResult.ok ce).isOk) = true from rfl)]
      at henc
    rw [Option.map_eq_some'] at henc
    obtain ⟨p, himg, hts⟩ := henc
    obtain ⟨ts1, s2⟩ := p
    rw [show ts1 = ts from hts] at himg
    have H := @stepRT_wpTable W wpPredict wpUpdate o w h
      ((EncResult.ok ce).ctxTab) m2 o2 htab hpix
    obtain ⟨d', hdecImg, hagreeF⟩ := decImg_roundtrip H h 0 wpInitVal d0 ts
      s2 rest (by omega) agree0 himg
    refine ⟨d', ?_, fun y x hy hx => hagreeF y x hx (Or.inl (by omega))⟩
    unfold DecodeModularChannelMAANS
    rw [if_neg hz, hft]
    simp only [Option.bind_eq_bind, Option.some_bind]
    rw [hdecB]
    rw [if_pos (show (true && (WPResult.ok c2 m2 o2).isOk) = true from rfl)]
    simp only [WPResult.mulTab, WPResult.offTab]
    rw [hdecImg]
    rfl
  · -- not wp-only on either side
    have hwo' : wp_only0 = false := by
      cases wp_only0
      · rfl
      · exact absurd rfl hwo
    subst hwo'
    rw [if_neg (by simp)] at henc
    by_cases hB : tree0.length = 1 ∧
        tree0.headI.predictor = Predictor.Zero ∧
        tree0.headI.multiplier = 1 ∧ tree0.headI.predictor_offset = 0
    · -- raw-pixel track vs Zero decode track
      rw [if_pos hB] at henc
      obtain ⟨l0, hl0⟩ := List.length_eq_one.mp hB.1
      subst hl0
      rw [Option.map_eq_some'] at henc
      obtain ⟨p, himg, hts⟩ := henc
      obtain ⟨ts1, s2⟩ := p
      rw [show ts1 = ts from hts] at himg
      have hfields := remapLeaf_fields cmap l0
      have hdm : (remapTree cmap [l0]).headI.multiplier = l0.multiplier :=
        hfields.2.2.1
      have hdo : (remapTree cmap [l0]).headI.predictor_offset =
          l0.predictor_offset := hfields.2.2.2
      obtain ⟨d', hdecImg, hagreeF⟩ := decImg_roundtrip
        (stepRT_zero (hdm.trans hB.2.2.1) (hdo.trans hB.2.2.2) hpix)
        h 0 () d0 ts s2 rest (by omega) agree0 himg
      refine ⟨d', ?_, fun y x hy hx => hagreeF y x hx (Or.inl (by omega))⟩
      unfold DecodeModularChannelMAANS
      rw [if_neg hz, hft]
      simp only [Option.bind_eq_bind, Option.some_bind]
      rw [if_neg (by simp)]
      rw [if_pos (show (remapTree cmap [l0]).length = 1 from rfl)]
      rw [if_pos (show (remapTree cmap [l0]).headI.predictor =
        Predictor.Zero from by
          show (remapLeaf cmap l0).predictor = _
          rw [hfields.2.1]
          exact hB.2.1)]
      rw [hdecImg]
      rfl
    · rw [if_neg hB] at henc
      by_cases hC : tree0.length = 1 ∧
          tree0.headI.predictor ≠ Predictor.Weighted ∧
          tree0.headI.multiplier &&& (tree0.headI.multiplier - 1) = 0 ∧
          tree0.headI.predictor_offset = 0
      · -- power-of-two-multiplier track vs Zero / quite-fast decode tracks
        rw [if_pos hC] at henc
        obtain ⟨l0, hl0⟩ := List.length_eq_one.mp hC.1
        subst hl0
        rw [Option.map_eq_some'] at henc
        obtain ⟨p, himg, hts⟩ := henc
        obtain ⟨ts1, s2⟩ := p
        rw [show ts1 = ts from hts] at himg
        have hfields := remapLeaf_fields cmap l0
        have hdm : (remapTree cmap [l0]).headI.multiplier = l0.multiplier :=
          hfields.2.2.1
        have hdo : (remapTree cmap [l0]).headI.predictor_offset =
            l0.predictor_offset := hfields.2.2.2
        have hdp : (remapTree cmap [l0]).headI.predictor = l0.predictor :=
          hfields.2.1
        have hdvd : ∀ y x, y < h → x < w → (l0.multiplier : Int) ∣
            (o y x - predFn l0.predictor (nbrs o w x y)) :=
          hdiv [l0] np use_wp false hft rfl hC.2.2.2
        have hlt31 : l0.multiplier < 2147483648 :=
          hmul31 [l0] np use_wp false hft rfl
        by_cases hpz : l0.predictor = Predictor.Zero
        · obtain ⟨d', hdecImg, hagreeF⟩ := decImg_roundtrip
            (stepRT_pow2_zero predFn hzero hdm hdo hpz hC.2.2.2
              hC.2.2.1 hlt31 hdvd hpix)
            h 0 () d0 ts s2 rest (by omega) agree0 himg
          refine ⟨d', ?_, fun y x hy hx =>
            hagreeF y x hx (Or.inl (by omega))⟩
          unfold DecodeModularChannelMAANS
          rw [if_neg hz, hft]
          simp only [Option.bind_eq_bind, Option.some_bind]
          rw [if_neg (by simp)]
          rw [if_pos (show (remapTree cmap [l0]).length = 1 from rfl)]
          rw [if_pos (show (remapTree cmap [l0]).headI.predictor =
            Predictor.Zero from by
              show (remapLeaf cmap l0).predictor = _
              rw [hfields.2.1]
              exact hpz)]
          rw [hdecImg]
          rfl
        · have hppne : (remapTree cmap [l0]).headI.predictor ≠
              Predictor.Weighted := by
            show (remapLeaf cmap l0).predictor ≠ _
            rw [hfields.2.1]
            exact hC.2.1
          obtain ⟨d', hdecImg, hagreeF⟩ := decImg_roundtrip
            (stepRT_pow2_other predFn hdm hdo hdp hC.2.2.2
              hC.2.2.1 hlt31 hdvd hpix)
            h 0 () d0 ts s2 rest (by omega) agree0 himg
          refine ⟨d', ?_, fun y x hy hx =>
            hagreeF y x hx (Or.inl (by omega))⟩
          unfold DecodeModularChannelMAANS
          rw [if_neg hz, hft]
          simp only [Option.bind_eq_bind, Option.some_bind]
          rw [if_neg (by simp)]
          rw [if_pos (show (remapTree cmap [l0]).length = 1 from rfl)]
          rw [if_neg (show ¬(remapTree cmap [l0]).headI.predictor =
            Predictor.Zero from by
              show ¬(remapLeaf cmap l0).predictor = _
              rw [hfields.2.1]
              exact hpz)]
          rw [if_pos (show (remapTree cmap [l0]).headI.predictor ≠
            Predictor.Weighted from hppne)]
          rw [hdecImg]
          rfl
      · rw [if_neg hC] at henc
        by_cases huw : use_wp = false
        · -- general no-WP track
          rw [if_pos huw] at henc
          rw [Option.map_eq_some'] at henc
          obtain ⟨p, himg, hts⟩ := henc
          obtain ⟨ts1, s2⟩ := p
          rw [show ts1 = ts from hts] at himg
          by_cases hlen : tree0.length = 1
          · obtain ⟨l0, hl0⟩ := List.length_eq_one.mp hlen
            subst hl0
            have hfields := remapLeaf_fields cmap l0
            have hdm : (remapTree cmap [l0]).headI.multiplier =
                l0.multiplier := hfields.2.2.1
            have hdo : (remapTree cmap [l0]).headI.predictor_offset =
                l0.predictor_offset := hfields.2.2.2
            have hdp : (remapTree cmap [l0]).headI.predictor =
                l0.predictor := hfields.2.1
            obtain ⟨n, hleaf, huw2, -⟩ := FilterTree_single hft
            have hlt31 : l0.multiplier < 2147483648 :=
              hmul31 [l0] np use_wp false hft rfl
            by_cases hpz : l0.predictor = Predictor.Zero
            · obtain ⟨d', hdecImg, hagreeF⟩ := decImg_roundtrip
                (stepRT_noWP_zero predFn propsFn hzero hdm hdo hpz hlt31
                  hpix)
                h 0 () d0 ts s2 rest (by omega) agree0 himg
              refine ⟨d', ?_, fun y x hy hx =>
                hagreeF y x hx (Or.inl (by omega))⟩
              unfold DecodeModularChannelMAANS
              rw [if_neg hz, hft]
              simp only [Option.bind_eq_bind, Option.some_bind]
              rw [if_neg (by simp)]
              rw [if_pos (show (remapTree cmap [l0]).length = 1 from rfl)]
              rw [if_pos (show (remapTree cmap [l0]).headI.predictor =
                Predictor.Zero from by
                  show (remapLeaf cmap l0).predictor = _
                  rw [hfields.2.1]
                  exact hpz)]
              rw [hdecImg]
              rfl
            · have hpw : l0.predictor ≠ Predictor.Weighted := by
                intro hcon
                rw [huw] at huw2
                rw [hleaf] at hcon
                rw [show (leafFlat n).predictor = n.predictor from rfl]
                  at hcon
                rw [hcon] at huw2
                exact Bool.noConfusion huw2
              obtain ⟨d', hdecImg, hagreeF⟩ := decImg_roundtrip
                (stepRT_noWP_other predFn propsFn hdm hdo hdp hlt31 hpix)
                h 0 () d0 ts s2 rest (by omega) agree0 himg
              refine ⟨d', ?_, fun y x hy hx =>
                hagreeF y x hx (Or.inl (by omega))⟩
              unfold DecodeModularChannelMAANS
              rw [if_neg hz, hft]
              simp only [Option.bind_eq_bind, Option.some_bind]
              rw [if_neg (by simp)]
              rw [if_pos (show (remapTree cmap [l0]).length = 1 from rfl)]
              rw [if_neg (show ¬(remapTree cmap [l0]).headI.predictor =
                Predictor.Zero from by
                  show ¬(remapLeaf cmap l0).predictor = _
                  rw [hfields.2.1]
                  exact hpz)]
              rw [if_pos (show (remapTree cmap [l0]).headI.predictor ≠
                Predictor.Weighted from by
                  show (remapLeaf cmap l0).predictor ≠ _
                  rw [hfields.2.1]
                  exact hpw)]
              rw [hdecImg]
              rfl
          · obtain ⟨d', hdecImg, hagreeF⟩ := decImg_roundtrip
              (stepRT_noWP_multi predFn propsFn hprops hpix)
              h 0 () d0 ts s2 rest (by omega) agree0 himg
            refine ⟨d', ?_, fun y x hy hx =>
              hagreeF y x hx (Or.inl (by omega))⟩
            unfold DecodeModularChannelMAANS
            rw [if_neg hz, hft]
            simp only [Option.bind_eq_bind, Option.some_bind]
            rw [if_neg (by simp)]
            rw [if_neg (show ¬(remapTree cmap tree0).length = 1 from by
              rw [show (remapTree cmap tree0).length = tree0.length from
                List.length_map _ _]
              exact hlen)]
            rw [if_pos huw]
            rw [hdecImg]
            rfl
        · -- general WP track
          rw [if_neg huw] at henc
          rw [Option.map_eq_some'] at henc
          obtain ⟨p, himg, hts⟩ := henc
          obtain ⟨ts1, s2⟩ := p
          rw [show ts1 = ts from hts] at himg
          by_cases hlen : tree0.length = 1
          · obtain ⟨l0, hl0⟩ := List.length_eq_one.mp hlen
            subst hl0
            obtain ⟨n, -, huw2, hwo2⟩ := FilterTree_single hft
            rw [← huw2] at hwo2
            exact absurd hwo2.symm huw
          · obtain ⟨d', hdecImg, hagreeF⟩ := decImg_roundtrip
              (stepRT_wp_multi predFn wpPredict wpUpdate propsFn hprops hpix)
              h 0 wpInitVal d0 ts s2 rest (by omega) agree0 himg
            refine ⟨d', ?_, fun y x hy hx =>
              hagreeF y x hx (Or.inl (by omega))⟩
            unfold DecodeModularChannelMAANS
            rw [if_neg hz, hft]
            simp only [Option.bind_eq_bind, Option.some_bind]
            rw [if_neg (by simp)]
            rw [if_neg (show ¬(remapTree cmap tree0).length = 1 from by
              rw [show (remapTree cmap tree0).length = tree0.length from
                List.length_map _ _]
              exact hlen)]
            rw [if_neg huw]
            rw [hdecImg]
            rfl

end Codec

/-- C1 counterexample tree: a single Zero-predictor leaf with multiplier 2
and offset 0 (context 0). -/
def c1exTree : List TreeNode :=
  [{ property := -1, lchild := 0, predictor := Predictor.Zero,
     multiplier := 2 }]

/-- Second C1 counterexample tree: a single Zero-predictor leaf with
multiplier `2^31` and offset 0 (context 0); the decoder narrows the
multiplier to `int32_t`, wrapping it to `-2^31`. -/
def c1exTree2 : List TreeNode :=
  [{ property := -1, lchild := 0, predictor := Predictor.Zero,
     multiplier := 2147483648 }]

/-- C1 witness tree: a single Zero-predictor leaf with multiplier 1 and
offset 0 (context 0). -/
def c1wTree : List TreeNode :=
  [{ property := -1, lchild := 0, predictor := Predictor.Zero }]

/-- Refutation of C1 as stated, two ways.  (a) On the power-of-two-multiplier
encode track the residual's low bit is dropped (`residual >> mul_shift`, only
`JXL_DASSERT`ed to be exact), so the 1×1 buffer holding pixel value 1 under
a single Zero/multiplier-2 leaf encodes to token value 0 and decodes to
pixel 0, not 1.  (b) The single-leaf decode tracks narrow the multiplier to
`int32_t`, so under a single Zero leaf with multiplier `2^31` the 1×1 buffer
holding `-2^31` (an exactly divisible residual) encodes to token value 1 and
decodes with the wrapped multiplier `-2^31` to `2147483647`, not `-2^31`. -/
theorem modular_roundtrip_counterexample :
    (EncodeModularChannelMAANS (W := Unit) (fun _ _ => 0)
      (fun _ _ _ _ _ => (0, 0)) (fun s _ _ _ _ => s) (fun _ _ _ _ => 0) ()
      (fun _ _ => 1) 1 1 0 0 c1exTree 10 = some [(0, 0)] ∧
    ∀ r, DecodeModularChannelMAANS (W := Unit) (fun _ _ => 0)
        (fun _ _ _ _ _ => (0, 0)) (fun s _ _ _ _ => s) (fun _ _ _ _ => 0) ()
        id none (fun _ _ => 0) [0] 1 1 0 0 c1exTree 10 = some r →
      r.1 0 0 ≠ 1) ∧
    (EncodeModularChannelMAANS (W := Unit) (fun _ _ => 0)
      (fun _ _ _ _ _ => (0, 0)) (fun s _ _ _ _ => s) (fun _ _ _ _ => 0) ()
      (fun _ _ => -2147483648) 1 1 0 0 c1exTree2 10 = some [(0, 1)] ∧
    ∀ r, DecodeModularChannelMAANS (W := Unit) (fun _ _ => 0)
        (fun _ _ _ _ _ => (0, 0)) (fun s _ _ _ _ => s) (fun _ _ _ _ => 0) ()
        id none (fun _ _ => 0) [1] 1 1 0 0 c1exTree2 10 = some r →
      r.1 0 0 ≠ -2147483648) := by
  refine ⟨⟨rfl, ?_⟩, rfl, ?_⟩
  · intro r hr
    rw [show DecodeModularChannelMAANS (W := Unit) (fun _ _ => 0)
        (fun _ _ _ _ _ => (0, 0)) (fun s _ _ _ _ => s) (fun _ _ _ _ => 0) ()
        id none (fun _ _ => 0) [0] 1 1 0 0 c1exTree 10 =
        some (upd (fun _ _ => 0) 0 0 0, ([] : List Nat)) from rfl] at hr
    rw [← Option.some.inj hr]
    decide
  · intro r hr
    rw [show DecodeModularChannelMAANS (W := Unit) (fun _ _ => 0)
        (fun _ _ _ _ _ => (0, 0)) (fun s _ _ _ _ => s) (fun _ _ _ _ => 0) ()
        id none (fun _ _ => 0) [1] 1 1 0 0 c1exTree2 10 =
        some (upd (fun _ _ => 0) 0 0 2147483647, ([] : List Nat)) from rfl]
      at hr
    rw [← Option.some.inj hr]
    decide

/-- Witness for the amended C1: a 1×1 buffer holding pixel 1 under the
single Zero/multiplier-1 leaf round-trips through the raw-pixel encode track
and the Zero decode track (token value `PackSigned 1 = 2`). -/
theorem modular_channel_roundtrip_witness :
    ∃ d', DecodeModularChannelMAANS (W := Unit) (fun _ _ => 0)
        (fun _ _ _ _ _ => (0, 0)) (fun s _ _ _ _ => s) (fun _ _ _ _ => 0) ()
        id none (fun _ _ => 0) (List.map Prod.snd [(0, 2)] ++ []) 1 1 0 0
        c1wTree 10 = some (d', []) ∧
      ∀ y x, y < 1 → x < 1 → d' y x = (1 : Int) := by
  have hwponly2 : ∀ (t0 : List FlatNode) (np : Nat) (uw wo : Bool),
      FilterTree c1wTree (0, 0) 10 = some (t0, np, uw, wo) → wo = true →
      (encBuild t0 10 rootRange (fun _ => 0)).isOk = true := by
    intro t0 np uw wo hft hwo
    have h2 := congrArg (Option.map (fun r => r.2.2.2)) hft
    rw [show (FilterTree c1wTree (0, 0) 10).map (fun r => r.2.2.2) =
      some false from rfl] at h2
    simp only [Option.map_some'] at h2
    exact Bool.noConfusion ((Option.some.inj h2).trans hwo)
  have hwpok2 : ∀ (t0 : List FlatNode) (np : Nat) (uw wo : Bool),
      FilterTree c1wTree (0, 0) 10 = some (t0, np, uw, wo) → wo = true →
      wpTreeOk (remapTree id t0) 1 (-kWPPropRange - 1)
        (kWPPropRange - 1) 0 = true := by
    intro t0 np uw wo hft hwo
    have h2 := congrArg (Option.map (fun r => r.2.2.2)) hft
    rw [show (FilterTree c1wTree (0, 0) 10).map (fun r => r.2.2.2) =
      some false from rfl] at h2
    simp only [Option.map_some'] at h2
    exact Bool.noConfusion ((Option.some.inj h2).trans hwo)
  have hdiv2 : ∀ (t0 : List FlatNode) (np : Nat) (uw wo : Bool),
      FilterTree c1wTree (0, 0) 10 = some (t0, np, uw, wo) →
      t0.length = 1 → t0.headI.predictor_offset = 0 →
      ∀ y x : Nat, y < 1 → x < 1 →
        (t0.headI.multiplier : Int) ∣
          ((fun _ _ => (1 : Int)) y x -
            (fun (_ : Predictor) (_ : Nbrs) => (0 : Int)) t0.headI.predictor
            (nbrs (fun _ _ => 1) 1 x y)) := by
    intro t0 np uw wo hft hlen hoff y x hy hx
    have h2 := congrArg (Option.map (fun r => r.1.headI.multiplier)) hft
    rw [show (FilterTree c1wTree (0, 0) 10).map
      (fun r => r.1.headI.multiplier) = some 1 from rfl] at h2
    simp only [Option.map_some'] at h2
    rw [← Option.some.inj h2]
    simp
  have hmul2 : ∀ (t0 : List FlatNode) (np : Nat) (uw wo : Bool),
      FilterTree c1wTree (0, 0) 10 = some (t0, np, uw, wo) →
      t0.length = 1 → t0.headI.multiplier < 2147483648 := by
    intro t0 np uw wo hft hlen
    have h2 := congrArg (Option.map (fun r => r.1.headI.multiplier)) hft
    rw [show (FilterTree c1wTree (0, 0) 10).map
      (fun r => r.1.headI.multiplier) = some 1 from rfl] at h2
    simp only [Option.map_some'] at h2
    rw [← Option.some.inj h2]
    omega
  exact @modular_channel_roundtrip Unit (fun _ _ => 0)
    (fun _ _ _ _ _ => (0, 0)) (fun s _ _ _ _ => s) (fun _ _ _ _ => 0) ()
    id [] (fun _ _ => 1) (fun _ _ => 0) 1 1 0 0 c1wTree 10 1 [(0, 2)]
    (fun _ => rfl) (fun b b' x y _ _ => rfl)
    (fun y x _ _ => show pixMin ≤ (1 : Int) ∧ (1 : Int) ≤ pixMax from
      by decide)
    hwponly2 hwpok2 hdiv2 hmul2 rfl

section Codec2

variable {W : Type} (predFn : Predictor → Nbrs → Int)
  (wpPredict : W → Nat → Nat → Nat → Nbrs → Int × Int)
  (wpUpdate : W → Int → Nat → Nat → Nat → W)
  (propsFn : (Nat → Nat → Int) → Nat → Nat → Int → Int)
  (wpInitVal : W)

/-- **C10.** For every channel whose width or height is zero,
`DecodeModularChannelMAANS` returns success immediately: the token stream is
not read and the pixel buffer is returned untouched, for every context map,
single-value state, tree, channel index and group id. -/
theorem decode_zero_size_noop (cmap : Nat → Nat) (sv : Option Nat)
    (d0 : Nat → Nat → Int) (vs : List Nat) (w h : Nat) (chan gid : Int)
    (gtree : List TreeNode) (fuel : Nat) (hz : w = 0 ∨ h = 0) :
    DecodeModularChannelMAANS predFn wpPredict wpUpdate propsFn wpInitVal
      cmap sv d0 vs w h chan gid gtree fuel = some (d0, vs) := by
  unfold DecodeModularChannelMAANS
  rw [if_pos hz]

/-- Witness for C10: a 0×3 channel with a nonempty token list and a nonempty
global tree decodes to the untouched buffer and the untouched token list. -/
theorem decode_zero_size_noop_witness :
    DecodeModularChannelMAANS (W := Unit) (fun _ _ => 0)
      (fun _ _ _ _ _ => (0, 0)) (fun s _ _ _ _ => s) (fun _ _ _ _ => 0) ()
      id none (fun _ _ => 5) [1, 2] 0 3 0 0 [{ property := -1 }] 10 =
      some ((fun _ _ => 5), [1, 2]) :=
  decode_zero_size_noop (fun _ _ => 0) (fun _ _ _ _ _ => (0, 0))
    (fun s _ _ _ _ => s) (fun _ _ _ _ => 0) () id none (fun _ _ => 5)
    [1, 2] 0 3 0 0 [{ property := -1 }] 10 (Or.inl rfl)

end Codec2

end JxlModular

